import Mathlib

/-!
# Shallow embeddings of four C programs

The sources are `src/CHeap.c`, `src/SudokuBoard.c`, `src/CacheSimulator.c` and
`src/MagicSquareGame.c`.  All definitions come first, one namespace per source file; the
lemmas and the theorems for the claims follow in the same order.
-/

/-! ## CHeap.c : a best-fit block allocator over one mapped region

* Addresses are absolute byte addresses (`Int`); `NULL` is `0`.
* The region obtained from `mmap` is the address range
  `[heap_start - 4, heap_start + alloc_size + 4)`; it is accessed one 4-byte
  `int` at a time, always at addresses that are multiples of 4.  `mem a` is the
  `int` stored at byte address `a`.  An access outside the mapping (or at the
  null page, or unaligned) has no defined behaviour in C; here it yields `none`.
* `int` arithmetic is modelled in `Int`; for a non-negative `x`,
  `(x >> 2) << 2` is `x / 4 * 4`, `x & 1` is `x % 2` and `x & 2` is non-zero
  exactly when `x / 2 % 2` is non-zero.
* The two `while` loops take a fuel argument; `none` is returned when the fuel
  runs out, so a result `some _` is always a result of a terminating run.
-/

namespace CHeap

/-- Global allocator state: `heap_start`, `alloc_size`, and the mapped words. -/
structure Heap where
  heap_start : Int
  alloc_size : Int
  mem : Int → Int

/-- Pointwise update of the word store. -/
def write (m : Int → Int) (a v : Int) : Int → Int :=
  fun x => if x = a then v else m x

/-- Address `a` holds an `int` of the mapping `[heap_start - 4, heap_start + alloc_size + 4)`. -/
def Heap.mapped (h : Heap) (a : Int) : Prop :=
  0 < a ∧ h.heap_start - 4 ≤ a ∧ a < h.heap_start + h.alloc_size + 4 ∧ a % 4 = 0

instance (h : Heap) (a : Int) : Decidable (h.mapped a) :=
  inferInstanceAs (Decidable (_ ∧ _ ∧ _ ∧ _))

/-- Read of `((blockHeader*)a)->size_status`. -/
def Heap.load (h : Heap) (a : Int) : Option Int :=
  if h.mapped a then some (h.mem a) else none

/-- Assignment `((blockHeader*)a)->size_status = v`. -/
def Heap.store (h : Heap) (a v : Int) : Option Heap :=
  if h.mapped a then some { h with mem := write h.mem a v } else none

/-- The C expression `(x >> 2) << 2`. -/
def shifted (x : Int) : Int := x / 4 * 4

/-- The `blockSizeNeed` local of `balloc` (lines 76-79): `hdrSize + blockPayload + blockPadding`. -/
def blockSizeNeed (size : Int) : Int :=
  let hdrSize : Int := 4
  let blockPayload := size
  let blockPadding := 8 - ((hdrSize + blockPayload) % 8)
  hdrSize + blockPayload + blockPadding

/-- Locals of `balloc` that survive the scan loop. -/
structure Scan where
  currBestFit : Int
  currBestFitSize : Int
  splitFit : Int
  prevPBit : Int

/-- Initial values of the scan locals (lines 82-91). -/
def Scan.start : Scan := ⟨0, 2000000000, 0, 0⟩

/-- How the `while` loop of `balloc` is left: by the `return` of the perfect-fit
branch, or because the loop condition became false. -/
inductive ScanOut where
  | returned (h : Heap) (p : Int)
  | exited (s : Scan)

/-- The `while (currBlock->size_status != 1)` loop of `balloc` (lines 94-131). -/
def ballocScan (need : Int) : Nat → Heap → Int → Scan → Option ScanOut
  | 0, _, _, _ => none
  | fuel + 1, h, currBlock, s =>
    match h.load currBlock with
    | none => none
    | some currBlockSize =>
      if currBlockSize = 1 then some (.exited s)
      else
        let currShifted := shifted currBlockSize
        if currBlockSize % 2 ≠ 0 then
          ballocScan need fuel h (currBlock + currShifted) s
        else if currShifted = need then
          -- size_status = currShifted; += 1; += 2 when the p bit was set
          let v := currShifted + 1 + (if currBlockSize / 2 % 2 ≠ 0 then 2 else 0)
          match h.store currBlock v with
          | none => none
          | some h1 =>
            let nextBlock := currBlock + currShifted
            match h1.load nextBlock with
            | none => none
            | some nw =>
              match h1.store nextBlock (nw + 2) with
              | none => none
              | some h2 => some (.returned h2 (currBlock + 4))
        else if currShifted > need then
          let s1 : Scan :=
            if currShifted < s.currBestFitSize then
              { currBestFit := currBlock
                currBestFitSize := currShifted
                splitFit := 1
                prevPBit := if currBlockSize / 2 % 2 ≠ 0 then 1 else 0 }
            else s
          ballocScan need fuel h (currBlock + currShifted) s1
        else
          ballocScan need fuel h (currBlock + currShifted) s

/-- The code of `balloc` after the loop (lines 133-151). -/
def ballocFinish (need : Int) (h : Heap) (s : Scan) : Option (Heap × Int) :=
  if s.splitFit ≠ 0 then
    let v1 := need + 1
    let v2 := if s.prevPBit ≠ 0 ∧ ¬ (v1 / 2 % 2 ≠ 0) then v1 + 2 else v1
    match h.store s.currBestFit v2 with
    | none => none
    | some h1 =>
      let splitBlock := s.currBestFit + need
      let r := s.currBestFitSize - need
      match h1.store splitBlock (if r ≠ 1 then r + 2 else r) with
      | none => none
      | some h2 => some (h2, s.currBestFit + 4)
  else some (h, 0)

/-- The function `balloc(size)`; the result is the new state and the returned pointer. -/
def balloc (fuel : Nat) (h : Heap) (size : Int) : Option (Heap × Int) :=
  -- `size + sizeof(blockHeader) > alloc_size` is evaluated in `size_t`
  if size < 1 ∨ size + 4 > h.alloc_size % 2 ^ 64 then some (h, 0)
  else
    match ballocScan (blockSizeNeed size) fuel h h.heap_start Scan.start with
    | none => none
    | some (.returned h1 p) => some (h1, p)
    | some (.exited s) => ballocFinish (blockSizeNeed size) h s

/-- The function `bfree(ptr)`; the result is the new state and the returned `int`. -/
def bfree (h : Heap) (ptr : Int) : Option (Heap × Int) :=
  if ptr = 0 then some (h, -1)
  else
    let ptrBlock := ptr - 4
    if ptr % 2 ^ 32 % 8 ≠ 0 then some (h, -1)
    else
      match h.load ptrBlock with
      | none => none
      | some w =>
        if ¬ (w % 2 ≠ 0) then some (h, -1)
        -- `heap_start + alloc_size - 8` is arithmetic on `blockHeader*`
        else if ptrBlock < h.heap_start ∨ ptrBlock > h.heap_start + 4 * (h.alloc_size - 8) then
          some (h, -1)
        else
          let ptrBlockSizeShifted := shifted w
          match h.store ptrBlock (w - 1) with
          | none => none
          | some h1 =>
            let nextBlock := ptrBlock + ptrBlockSizeShifted
            match h1.load nextBlock with
            | none => none
            | some nw =>
              if nw ≠ 1 ∧ nw / 2 % 2 ≠ 0 then
                match h1.store nextBlock (nw - 2) with
                | none => none
                | some h2 => some (h2, 0)
              else some (h1, 0)

/-- The `while` loop of `coalesce` (lines 212-246); the result carries `counter`. -/
def coalesceLoop : Nat → Heap → Int → Int → Option (Heap × Int)
  | 0, _, _, _ => none
  | fuel + 1, h, currCoalBlock, counter =>
    match h.load currCoalBlock with
    | none => none
    | some currCoalBlockSize =>
      if currCoalBlockSize = 1 then some (h, counter)
      else
        let currCoalShifted := shifted currCoalBlockSize
        let nextCoalBlock := currCoalBlock + currCoalShifted
        match h.load nextCoalBlock with
        | none => none
        | some nextCoalBlockSize =>
          if nextCoalBlockSize = 1 then some (h, counter)
          else
            let nextCoalShifted := shifted nextCoalBlockSize
            if currCoalBlockSize % 2 ≠ 0 then
              coalesceLoop fuel h nextCoalBlock counter
            else if nextCoalBlockSize % 2 ≠ 0 then
              coalesceLoop fuel h (nextCoalBlock + nextCoalShifted) counter
            else
              match h.store currCoalBlock (currCoalBlockSize + nextCoalShifted) with
              | none => none
              | some h1 =>
                let currCoalShifted1 := shifted (currCoalBlockSize + nextCoalShifted)
                match h1.store nextCoalBlock 0 with
                | none => none
                | some h2 => coalesceLoop fuel h2 (currCoalBlock + currCoalShifted1) (counter + 1)

/-- The function `coalesce()`. -/
def coalesce (fuel : Nat) (h : Heap) : Option (Heap × Int) :=
  match coalesceLoop fuel h h.heap_start 0 with
  | none => none
  | some (h1, counter) => if counter < 1 then some (h1, 0) else some (h1, 1)

/-- What the operating system answers during `init_heap`. -/
structure OS where
  pagesize : Int
  fd : Int
  mmap_ptr : Int

/-- Process state: the `static int allocated_once` of `init_heap` and the globals. -/
structure Proc where
  allocated_once : Int
  heap : Heap

/-- The function `init_heap(sizeOfRegion)`; `MAP_FAILED` is `-1`, and a fresh
mapping is zero-filled. -/
def init_heap (os : OS) (p : Proc) (sizeOfRegion : Int) : Option (Proc × Int) :=
  if 0 ≠ p.allocated_once then some (p, -1)
  else if sizeOfRegion ≤ 0 then some (p, -1)
  else
    let pagesize := os.pagesize
    let padsize := sizeOfRegion % pagesize
    let padsize := (pagesize - padsize) % pagesize
    let alloc_size := sizeOfRegion + padsize
    let p1 : Proc := { p with heap := { p.heap with alloc_size := alloc_size } }
    if -1 = os.fd then some (p1, -1)
    else if -1 = os.mmap_ptr then some ({ p1 with allocated_once := 0 }, -1)
    else
      let alloc_size := alloc_size - 8
      let heap_start := os.mmap_ptr + 4
      let h0 : Heap := ⟨heap_start, alloc_size, fun _ => 0⟩
      match h0.store (heap_start + alloc_size) 1 with
      | none => none
      | some h1 =>
        match h1.store heap_start (alloc_size + 2) with
        | none => none
        | some h2 =>
          match h2.store (heap_start + alloc_size - 4) alloc_size with
          | none => none
          | some h3 => some ({ allocated_once := 1, heap := h3 }, 0)

/-! ## Block-list invariant and reachable states -/

/-- Inside a block of length `s` at `a`, no word at an 8-byte step has bit 0 set
(so none of them can be mistaken for the header of an allocated block). -/
def Clean (m : Int → Int) (a s : Int) : Prop :=
  ∀ k : Int, 0 < k → k < s → k % 8 = 0 → m (a + k) % 2 = 0

/-- Predicate `Seg m a bl b`: the blocks `bl` (address and header word, in address order)
tile `[a, b)`.  Each block has a positive size that is a multiple of 8, and a free block
is followed by a word whose p bit is clear. -/
def Seg (m : Int → Int) : Int → List (Int × Int) → Int → Prop
  | a, [], b => a = b
  | a, (x, w) :: bl, b =>
    x = a ∧ m a = w ∧ 0 < shifted w ∧ shifted w % 8 = 0 ∧ Clean m a (shifted w) ∧
      (w % 2 = 0 → m (a + shifted w) / 2 % 2 = 0) ∧ Seg m (a + shifted w) bl b

/-- Block-list invariant of the reachable heap states, with block list `bl`: the first
block is 8-byte aligned plus 4, the usable length fits an `int`, the blocks tile the
usable region, and the end-mark word is one of 0, 1, 2, 3.  Through `Clean` it also speaks
about payload words, which holds as long as the client stores nothing; it is stronger than
the well-formedness of the data model, which is `Tiled` below. -/
structure Inv (h : Heap) (bl : List (Int × Int)) : Prop where
  start_pos : 0 < h.heap_start
  start_mod : h.heap_start % 8 = 4
  size_nonneg : 0 ≤ h.alloc_size
  size_lt : h.alloc_size < 2 ^ 31
  seg : Seg h.mem h.heap_start bl (h.heap_start + h.alloc_size)
  end_lo : 0 ≤ h.mem (h.heap_start + h.alloc_size)
  end_hi : h.mem (h.heap_start + h.alloc_size) ≤ 3

/-- The invariant `Inv` of the reachable states together with an end mark of value 1.
This is stronger than the well-formedness `WF` of the data model, since `Inv` also
constrains payload words. -/
def WellFormed (h : Heap) (bl : List (Int × Int)) : Prop :=
  Inv h bl ∧ h.mem (h.heap_start + h.alloc_size) = 1

/-- Predicate `Tile m a bl b`: the blocks `bl` (address and header word, in address order)
tile `[a, b)`.  Each block has a positive size that is a multiple of 8, and a free block is
followed by a word whose p bit is clear.  Nothing is asked of the payload words. -/
def Tile (m : Int → Int) : Int → List (Int × Int) → Int → Prop
  | a, [], b => a = b
  | a, (x, w) :: bl, b =>
    x = a ∧ m a = w ∧ 0 < shifted w ∧ shifted w % 8 = 0 ∧
      (w % 2 = 0 → m (a + shifted w) / 2 % 2 = 0) ∧ Tile m (a + shifted w) bl b

/-- Heap whose usable region is tiled by the blocks `bl`: the first block is 8-byte aligned
plus 4, the usable length fits an `int`, the blocks tile the usable region, and the
end-mark word is one of 0, 1, 2, 3.  The payloads may hold anything. -/
structure Tiled (h : Heap) (bl : List (Int × Int)) : Prop where
  start_pos : 0 < h.heap_start
  start_mod : h.heap_start % 8 = 4
  size_nonneg : 0 ≤ h.alloc_size
  size_lt : h.alloc_size < 2 ^ 31
  tile : Tile h.mem h.heap_start bl (h.heap_start + h.alloc_size)
  end_lo : 0 ≤ h.mem (h.heap_start + h.alloc_size)
  end_hi : h.mem (h.heap_start + h.alloc_size) ≤ 3

/-- Well-formed heap state of the data model: the blocks `bl` tile the usable region with
sizes that are positive multiples of 8, no free block is followed by a set p bit, and the
end mark is 1.  Footers and payload contents are not constrained. -/
def WF (h : Heap) (bl : List (Int × Int)) : Prop :=
  Tiled h bl ∧ h.mem (h.heap_start + h.alloc_size) = 1

/-- Assumptions on the operating system for a call `init_heap(sizeOfRegion)`: the page
size is a positive multiple of 8, the mapping is page-aligned at a positive address, and
the padded size fits an `int`. -/
def OS.sane (os : OS) (sizeOfRegion : Int) : Prop :=
  0 < os.pagesize ∧ os.pagesize % 8 = 0 ∧ 0 < os.mmap_ptr ∧ os.mmap_ptr % os.pagesize = 0 ∧
    sizeOfRegion + (os.pagesize - sizeOfRegion % os.pagesize) % os.pagesize < 2 ^ 31

/-- States reachable from a successful `init_heap` by calls of `balloc`, `bfree` and
`coalesce` that return, with arbitrary arguments.  The list holds the live pointers:
those returned by `balloc` and not passed to a successful `bfree` since. -/
inductive Reach : Heap → List Int → Prop
  | init (os : OS) (p0 p1 : Proc) (r : Int) :
      os.sane r → init_heap os p0 r = some (p1, 0) → Reach p1.heap []
  | balloc {h : Heap} {live : List Int} (fuel : Nat) (size : Int) (h1 : Heap) (p : Int) :
      Reach h live → balloc fuel h size = some (h1, p) →
      Reach h1 (if p = 0 then live else p :: live)
  | bfree {h : Heap} {live : List Int} (ptr : Int) (h1 : Heap) (r : Int) :
      Reach h live → bfree h ptr = some (h1, r) →
      Reach h1 (if r = 0 then live.filter (fun q => q ≠ ptr) else live)
  | coalesce {h : Heap} {live : List Int} (fuel : Nat) (h1 : Heap) (r : Int) :
      Reach h live → coalesce fuel h = some (h1, r) → Reach h1 live

/-- The scan loop of `balloc` replayed on a block list: either the first free block of
exactly the needed size, or the scan locals after the last block. -/
def scanList (need : Int) : List (Int × Int) → Scan → Sum (Int × Int) Scan
  | [], s => .inr s
  | (a, w) :: bl, s =>
    if w % 2 ≠ 0 then scanList need bl s
    else if shifted w = need then .inl (a, w)
    else if shifted w > need then
      scanList need bl
        (if shifted w < s.currBestFitSize then
          { currBestFit := a
            currBestFitSize := shifted w
            splitFit := 1
            prevPBit := if w / 2 % 2 ≠ 0 then 1 else 0 }
        else s)
    else scanList need bl s

/-- Heap after the perfect-fit branch of `balloc` took the block `(x, w)`. -/
def perfectHeap (h : Heap) (x w : Int) : Heap :=
  ⟨h.heap_start, h.alloc_size,
    write (write h.mem x (shifted w + 1 + (if w / 2 % 2 ≠ 0 then 2 else 0)))
      (x + shifted w) (h.mem (x + shifted w) + 2)⟩

/-- What the scan locals of `balloc` know after the blocks `pre` have been visited
without meeting a free block of exactly the needed size. -/
structure Good (need : Int) (pre : List (Int × Int)) (s : Scan) : Prop where
  noPerfect : ∀ x w, (x, w) ∈ pre → w % 2 = 0 → shifted w ≠ need
  bound : s.currBestFitSize ≤ 2000000000
  unset : s.splitFit = 0 → s.currBestFitSize = 2000000000
  below : s.splitFit ≠ 0 → s.currBestFitSize < 2000000000
  least : ∀ x w, (x, w) ∈ pre → w % 2 = 0 → need < shifted w → s.currBestFitSize ≤ shifted w
  chosen : s.splitFit ≠ 0 → ∃ w bl1 bl2, pre = bl1 ++ (s.currBestFit, w) :: bl2 ∧
    w % 2 = 0 ∧ shifted w = s.currBestFitSize ∧ need < shifted w ∧
    s.prevPBit = (if w / 2 % 2 ≠ 0 then 1 else 0) ∧
    ∀ x1 w1, (x1, w1) ∈ bl1 → w1 % 2 = 0 → need < shifted w1 → shifted w < shifted w1

/-- Apply `f` to the header word of the first block of a list. -/
def mapHead (f : Int → Int) : List (Int × Int) → List (Int × Int)
  | [] => []
  | (x, w) :: bl => (x, f w) :: bl

/-- Heap after the split branch of `balloc` carved `need` bytes out of the block `(x, w)`. -/
def splitHeap (h : Heap) (need x w : Int) : Heap :=
  ⟨h.heap_start, h.alloc_size,
    write (write h.mem x (need + 1 + (if w / 2 % 2 ≠ 0 then 2 else 0)))
      (x + need) (shifted w - need + 2)⟩

/-- The update `bfree` applies to the word after the freed block. -/
def clearP (u : Int) : Int := if u ≠ 1 ∧ u / 2 % 2 ≠ 0 then u - 2 else u

/-- Heap after the mutation part of `bfree` on the header `w` at `x`. -/
def freeHeap (h : Heap) (x w : Int) : Heap :=
  ⟨h.heap_start, h.alloc_size,
    write (write h.mem x (w - 1)) (x + shifted w)
      (clearP (write h.mem x (w - 1) (x + shifted w)))⟩

/-- Heap after `coalesce` merged the free block `(x, w)` with its free successor `w2`. -/
def mergeHeap (h : Heap) (x w w2 : Int) : Heap :=
  ⟨h.heap_start, h.alloc_size, write (write h.mem x (w + shifted w2)) (x + shifted w) 0⟩

/-- The pass of `coalesce` replayed on a block list. -/
def coalesceList : List (Int × Int) → List (Int × Int)
  | [] => []
  | [b] => [b]
  | (x, w) :: (y, w2) :: rest =>
    if w % 2 ≠ 0 then (x, w) :: coalesceList ((y, w2) :: rest)
    else if w2 % 2 ≠ 0 then (x, w) :: (y, w2) :: coalesceList rest
    else (x, w + shifted w2) :: coalesceList rest

/-- Number of merges the pass of `coalesce` performs on a block list. -/
def mergeCount : List (Int × Int) → Int
  | [] => 0
  | [_] => 0
  | (_, w) :: (y, w2) :: rest =>
    if w % 2 ≠ 0 then mergeCount ((y, w2) :: rest)
    else if w2 % 2 ≠ 0 then mergeCount rest
    else mergeCount rest + 1

/-- The heap that a successful `init_heap(r)` sets up. -/
def initHeap (os : OS) (r : Int) : Heap :=
  ⟨os.mmap_ptr + 4, r + (os.pagesize - r % os.pagesize) % os.pagesize - 8,
    write (write (write (fun _ => 0)
      (os.mmap_ptr + 4 + (r + (os.pagesize - r % os.pagesize) % os.pagesize - 8)) 1)
      (os.mmap_ptr + 4) (r + (os.pagesize - r % os.pagesize) % os.pagesize - 8 + 2))
      (os.mmap_ptr + 4 + (r + (os.pagesize - r % os.pagesize) % os.pagesize - 8) - 4)
      (r + (os.pagesize - r % os.pagesize) % os.pagesize - 8)⟩

/-- Block list right after `init_heap`: one free block, or none when the region is empty. -/
def initBlocks (os : OS) (r : Int) : List (Int × Int) :=
  if (initHeap os r).alloc_size = 0 then []
  else [((initHeap os r).heap_start, (initHeap os r).alloc_size + 2)]

/-- Pointer `q` is the payload address of an allocated block of the list. -/
def IsLive (bl : List (Int × Int)) (q : Int) : Prop :=
  ∃ w, (q - 4, w) ∈ bl ∧ w % 2 ≠ 0

/-- One line of the table printed by `disp_heap`. -/
structure DispRow where
  used : Bool
  prevUsed : Bool
  t_begin : Int
  t_end : Int
  t_size : Int

/-- The `while` loop of `disp_heap` (lines 367-400): the rows printed so far, `used_size`
and `free_size`. -/
def dispLoop : Nat → Heap → Int → List DispRow → Int → Int → Option (List DispRow × Int × Int)
  | 0, _, _, _, _, _ => none
  | fuel + 1, h, current, rows, used_size, free_size =>
    match h.load current with
    | none => none
    | some w =>
      if w = 1 then some (rows, used_size, free_size)
      else
        let t_begin := current
        let t_size := w
        let is_used : Bool := t_size % 2 ≠ 0
        let t_size := if is_used then t_size - 1 else t_size
        let p_used : Bool := t_size / 2 % 2 ≠ 0
        let t_size := if p_used then t_size - 2 else t_size
        let used_size := if is_used then used_size + t_size else used_size
        let free_size := if is_used then free_size else free_size + t_size
        let t_end := t_begin + t_size - 1
        dispLoop fuel h (current + t_size)
          (rows ++ [⟨is_used, p_used, t_begin, t_end, t_size⟩]) used_size free_size

/-- The function `disp_heap()`: the printed rows and the two totals. -/
def disp_heap (fuel : Nat) (h : Heap) : Option (List DispRow × Int × Int) :=
  dispLoop fuel h h.heap_start [] 0 0

/-- Example operating system answers: 4096-byte pages, mapping at address 4096. -/
def exOS : OS := ⟨4096, 3, 4096⟩

/-- Example process state before `init_heap`. -/
def exProc : Proc := ⟨0, ⟨0, 0, fun _ => 0⟩⟩

/-- Example heap: the state after `init_heap(4096)`. -/
def exHeap : Heap := initHeap exOS 4096

/-- Example heap after `init_heap(4096)` and `balloc(20)`: one live pointer, 4104. -/
def exHeapA : Heap := splitHeap exHeap 32 4100 4090

/-- The heap that the pass of `coalesce` leaves, replayed on a block list. -/
def coalesceHeap (h : Heap) : List (Int × Int) → Heap
  | [] => h
  | [_] => h
  | (x, w) :: (y, w2) :: rest =>
    if w % 2 ≠ 0 then coalesceHeap h ((y, w2) :: rest)
    else if w2 % 2 ≠ 0 then coalesceHeap h rest
    else coalesceHeap (mergeHeap h x w w2) rest

/-- Two physically adjacent blocks of the list are both free. -/
def AdjFree (bl : List (Int × Int)) : Prop :=
  ∃ pre x w y w2 rest, bl = pre ++ (x, w) :: (y, w2) :: rest ∧ w % 2 = 0 ∧ w2 % 2 = 0

/-- Sizes of the blocks of a block list. -/
def sizes (bl : List (Int × Int)) : List Int := bl.map (fun b => shifted b.2)

/-- Sum of the sizes of the allocated blocks of a block list. -/
def usedSum : List (Int × Int) → Int
  | [] => 0
  | (_, w) :: bl => (if w % 2 ≠ 0 then shifted w else 0) + usedSum bl

/-- Sum of the sizes of the free blocks of a block list. -/
def freeSum : List (Int × Int) → Int
  | [] => 0
  | (_, w) :: bl => (if w % 2 ≠ 0 then 0 else shifted w) + freeSum bl

/-- The row that `disp_heap` prints for the block `(x, w)`. -/
def dispRowOf (b : Int × Int) : DispRow :=
  ⟨decide (b.2 % 2 ≠ 0), decide (b.2 / 2 % 2 ≠ 0), b.1, b.1 + shifted b.2 - 1, shifted b.2⟩

/-- Example heap after `init_heap(4096)` and `balloc(4080)`: the single block is allocated
by a perfect fit. -/
def exHeapFull : Heap := perfectHeap exHeap 4100 4090

/-- Example heap after `init_heap(4096)` and four calls `balloc(20)`. -/
def exHeapB : Heap :=
  splitHeap (splitHeap (splitHeap exHeapA 32 4132 4058) 32 4164 4026) 32 4196 3994

/-- Example heap after `exHeapB` and `bfree` of its first three blocks: three adjacent free
blocks of 32 bytes, then one allocated block and the free rest. -/
def exHeapF : Heap := freeHeap (freeHeap (freeHeap exHeapB 4100 35) 4132 33) 4164 33

/-- The heap after `init_heap(4096)` and `p = balloc(20)`, once the client has stored the
odd value 1 in `p[1]`, the payload word at 4108. -/
def exHeapUsed : Heap := ⟨exHeapA.heap_start, exHeapA.alloc_size, write exHeapA.mem 4108 1⟩

/-- The heap with three adjacent free blocks of 32 bytes, with the odd value 7 stored in
the payload word at 4204 of the allocated block at 4196. -/
def exHeapFUsed : Heap := ⟨exHeapF.heap_start, exHeapF.alloc_size, write exHeapF.mem 4204 7⟩

/-- Every allocated block of `bl` whose address satisfies `keep` is still a block of `bl1`
at the same address, allocated and with the same size. -/
def KeptAlloc (keep : Int → Prop) (bl bl1 : List (Int × Int)) : Prop :=
  ∀ x w, (x, w) ∈ bl → w % 2 ≠ 0 → keep x →
    ∃ w1, (x, w1) ∈ bl1 ∧ w1 % 2 ≠ 0 ∧ shifted w1 = shifted w

/-- Predicate `PChain a bl`: the p bit of the first block of `bl` is `a`, and the p bit of
every later block equals the a bit of the block before it. -/
def PChain : Int → List (Int × Int) → Prop
  | _, [] => True
  | a, (_, w) :: bl => w / 2 % 2 = a ∧ PChain (w % 2) bl

/-- The a bit of the last block of a list, or `a` for the empty list. -/
def lastBit : Int → List (Int × Int) → Int
  | a, [] => a
  | _, (_, w) :: bl => lastBit (w % 2) bl

/-- Operating system answers with 8-byte pages (no real system has them). -/
def exOS8 : OS := ⟨8, 3, 4096⟩

end CHeap

/-! ## SudokuBoard.c : `valid_board`

The board `int **board` is a function from row and column index to the cell value; every
`for` loop is a function of the number of iterations left and the loop index, and yields
`true` when the C loop reaches `return 0`.
-/

namespace SudokuBoard

/-- The loop `for (b = k + 1; b < size; b++)` of `valid_board` with `n` iterations left:
true when it reaches `return 0`, that is when `board[u][k] == board[u][b]` for some `b`. -/
def rowScan (board : Nat → Nat → Int) (u k : Nat) : Nat → Nat → Bool
  | 0, _ => false
  | n + 1, b => if board u k = board u b then true else rowScan board u k n (b + 1)

/-- The loop `for (c = u + 1; c < size; c++)` of `valid_board` with `n` iterations left:
true when it reaches `return 0`, that is when `board[c][k] == board[u][k]` for some `c`. -/
def colScan (board : Nat → Nat → Int) (u k : Nat) : Nat → Nat → Bool
  | 0, _ => false
  | n + 1, c => if board c k = board u k then true else colScan board u k n (c + 1)

/-- The loop `for (k = 0; k < size; k++)` of `valid_board` for the row `u`, with `n`
iterations left: true when one of the inner loops reaches `return 0`. -/
def cellLoop (board : Nat → Nat → Int) (size u : Nat) : Nat → Nat → Bool
  | 0, _ => false
  | n + 1, k =>
    if board u k = 0 then cellLoop board size u n (k + 1)
    else if rowScan board u k (size - (k + 1)) (k + 1) then true
    else if colScan board u k (size - (u + 1)) (u + 1) then true
    else cellLoop board size u n (k + 1)

/-- The loop `for (u = 0; u < size; u++)` of `valid_board` with `n` iterations left. -/
def boardLoop (board : Nat → Nat → Int) (size : Nat) : Nat → Nat → Bool
  | 0, _ => false
  | n + 1, u => if cellLoop board size u size 0 then true else boardLoop board size n (u + 1)

/-- The function `valid_board(board, size)`; `board u k` is `*(*(board + u) + k)`. -/
def valid_board (board : Nat → Nat → Int) (size : Nat) : Int :=
  if boardLoop board size size 0 then 0 else 1

/-- Valid state as the header comment of `valid_board` words it: every cell is blank
or a digit 1..size, and no digit occurs twice in a row or in a column. -/
def ValidState (board : Nat → Nat → Int) (size : Nat) : Prop :=
  (∀ u k, u < size → k < size → 0 ≤ board u k ∧ board u k ≤ size) ∧
  (∀ u k b, u < size → k < b → b < size → board u k ≠ 0 → board u k ≠ board u b) ∧
  (∀ u c k, k < size → u < c → c < size → board u k ≠ 0 → board u k ≠ board c k)

/-- A 2 x 2 board with the rows `1,2` and `2,9`. -/
def exBoard : Nat → Nat → Int :=
  fun u k => if u = 0 then (if k = 0 then 1 else 2) else (if k = 0 then 2 else 9)

end SudokuBoard

/-! ## CacheSimulator.c : `access_data`

The globals of the simulator are passed as a state; `cache[set][line]` is a function of
the two indices.  A memory address is a natural number below `2 ^ 64`.
-/

namespace CacheSimulator

/-- The C type `cache_line_t`. -/
structure cache_line_t where
  valid : Char
  tag : Int
  lruCounter : Int

/-- The globals of the simulator: the geometry `s`, `E`, `b`, the three counters,
`currMax`, and the cache as `cache[set][line]`. -/
structure Sim where
  s : Int
  E : Int
  b : Int
  hit_cnt : Int
  miss_cnt : Int
  evict_cnt : Int
  currMax : Int
  cache : Int → Int → cache_line_t

/-- Assignment to `cache[i][j]`. -/
def setLine (cache : Int → Int → cache_line_t) (i j : Int) (l : cache_line_t) :
    Int → Int → cache_line_t :=
  fun x y => if x = i ∧ y = j then l else cache x y

/-- Globals after `init_cache()` for the geometry given on the command line. -/
def init_cache (s E b : Int) : Sim :=
  ⟨s, E, b, 0, 0, 0, 1, fun _ _ => ⟨'0', 0, 0⟩⟩

/-- The first loop of `access_data` (lines 128-136) with `n` iterations left: the index
of the first line that is valid and holds the tag, if there is one. -/
def hitLoop (set : Int → cache_line_t) (tNum : Int) : Nat → Int → Option Int
  | 0, _ => none
  | n + 1, t =>
    if (set t).tag = tNum ∧ (set t).valid = '1' then some t
    else hitLoop set tNum n (t + 1)

/-- The second loop of `access_data` (lines 143-152) with `n` iterations left: the index
of the first line whose valid byte is `'0'`, if there is one. -/
def freeLoop (set : Int → cache_line_t) : Nat → Int → Option Int
  | 0, _ => none
  | n + 1, t => if (set t).valid = '0' then some t else freeLoop set n (t + 1)

/-- The third loop of `access_data` (lines 164-172) with `n` iterations left, from the
locals `leastUsed` and `lruIndex`: the final `lruIndex`. -/
def lruLoop (set : Int → cache_line_t) : Nat → Int → Int → Int → Int
  | 0, _, _, lruIndex => lruIndex
  | n + 1, y, leastUsed, lruIndex =>
    if (set y).lruCounter < leastUsed then lruLoop set n (y + 1) (set y).lruCounter y
    else lruLoop set n (y + 1) leastUsed lruIndex

/-- The function `access_data(addr)`.  The result is `none` where a shift of the `int`
constant 1 is undefined (a count outside 0..30) or of the 64-bit address (a count outside 0..63). -/
def access_data (g : Sim) (addr : Nat) : Option Sim :=
  if g.s < 0 ∨ 30 < g.s ∨ g.b < 0 ∨ 63 < g.b + g.s ∨ 30 < 64 - g.s - g.b then none
  else
    let setMask : Nat := 2 ^ g.s.toNat - 1
    let tMask : Nat := 2 ^ (64 - g.s - g.b).toNat - 1
    let setNum : Int := ((addr >>> g.b.toNat) &&& setMask : Nat)
    let tNum : Int := ((addr >>> (g.b + g.s).toNat) &&& tMask : Nat)
    match hitLoop (g.cache setNum) tNum g.E.toNat 0 with
    | some t =>
      some { g with
        hit_cnt := g.hit_cnt + 1
        cache := setLine g.cache setNum t
          { g.cache setNum t with lruCounter := g.currMax + 1 }
        currMax := g.currMax + 1 }
    | none =>
      match freeLoop (g.cache setNum) g.E.toNat 0 with
      | some t =>
        some { g with
          miss_cnt := g.miss_cnt + 1
          cache := setLine g.cache setNum t ⟨'1', tNum, g.currMax + 1⟩
          currMax := g.currMax + 1 }
      | none =>
        let lruIndex := lruLoop (g.cache setNum) g.E.toNat 0 900000 0
        some { g with
          miss_cnt := g.miss_cnt + 1
          evict_cnt := g.evict_cnt + 1
          cache := setLine g.cache setNum lruIndex ⟨'1', tNum, g.currMax + 1⟩
          currMax := g.currMax + 1 }

/-- A sequence of `access_data` calls, as `replay_trace` makes them. -/
def replay : List Nat → Sim → Option Sim
  | [], g => some g
  | addr :: rest, g => (access_data g addr).bind (replay rest)

/-- State of set 0 of the example run: geometry s = 4, E = 2, b = 30; line 0 holds tag 0
with counter `a`, line 1 holds tag 1 with counter `c`; both are valid. -/
structure TwoLines (g : Sim) (a c : Int) : Prop where
  hs : g.s = 4
  hE : g.E = 2
  hb : g.b = 30
  line0 : g.cache 0 0 = ⟨'1', 0, a⟩
  line1 : g.cache 0 1 = ⟨'1', 1, c⟩

end CacheSimulator

/-! ## MagicSquareGame.c : `generateMagicSquare`

The array is a function of row and column index; a read or write outside the allocated
`n` x `n` cells and the overflow of `n * n` have no defined behaviour in C and yield `none`.
-/

namespace MagicSquareGame

/-- Locals of the fill loop of `generateMagicSquare`; `sq i j` is
`*(*(magic_square + i) + j)`. -/
structure Fill where
  sq : Int → Int → Int
  number : Int
  row : Int
  column : Int
  currRow : Int
  currColumn : Int

/-- Assignment to the cell in row `r`, column `c`. -/
def setCell (sq : Int → Int → Int) (r c v : Int) : Int → Int → Int :=
  fun i j => if i = r ∧ j = c then v else sq i j

/-- One iteration of the loop `for (e = 0; e < n * n; e++)` (lines 84-101).  The result is
`none` when a cell outside the `size` x `size` array would be read or written. -/
def fillStep (size : Int) (st : Fill) : Option Fill :=
  let row := st.row - 1
  let column := st.column + 1
  let row := if row < 0 then size - 1 else row
  let column := if column ≥ size then 0 else column
  if row < 0 ∨ size ≤ row ∨ column < 0 ∨ size ≤ column then none
  else if st.sq row column = 0 then
    some ⟨setCell st.sq row column st.number, st.number + 1, row, column, row, column⟩
  else
    let column := st.currColumn
    let row := st.currRow + 1
    if row < 0 ∨ size ≤ row ∨ column < 0 ∨ size ≤ column then none
    else some ⟨setCell st.sq row column st.number, st.number + 1, row, column, row, column⟩

/-- The loop of `generateMagicSquare` with `k` iterations left. -/
def fillLoop (size : Int) : Nat → Fill → Option Fill
  | 0, st => some st
  | k + 1, st => (fillStep size st).bind (fillLoop size k)

/-- The function `generateMagicSquare(n)`: the filled array.  `u` and `v` are the
indeterminate initial values of `currRow` and `currColumn`; the result is `none` when
`n * n` overflows an `int` or a cell outside the array is accessed. -/
def generateMagicSquare (n u v : Int) : Option (Int → Int → Int) :=
  if 2 ^ 31 ≤ n * n then none
  else
    (fillLoop n (n * n).toNat ⟨fun _ _ => 0, 1, 1, Int.tdiv n 2 - 1, u, v⟩).map
      (fun st => st.sq)

/-- Sum of row `i` of an `n` x `n` square. -/
def rowSum (sq : Int → Int → Int) (n : Nat) (i : Int) : Int :=
  ∑ j ∈ Finset.range n, sq i j

/-- Sum of column `j` of an `n` x `n` square. -/
def colSum (sq : Int → Int → Int) (n : Nat) (j : Int) : Int :=
  ∑ i ∈ Finset.range n, sq i j

/-- Sum of the main diagonal of an `n` x `n` square. -/
def diagSum (sq : Int → Int → Int) (n : Nat) : Int :=
  ∑ i ∈ Finset.range n, sq i i

/-- Sum of the other diagonal of an `n` x `n` square. -/
def antiSum (sq : Int → Int → Int) (n : Nat) : Int :=
  ∑ i ∈ Finset.range n, sq i ((n : Int) - 1 - i)

/-- Number of the diagonal run (0-based) that passes through the cell `(i, j)`. -/
def cellQ (n i j : Int) : Int := (i + j - n / 2) % n

/-- Position of the cell `(i, j)` within its diagonal run (0-based). -/
def cellS (n i j : Int) : Int := (i + 2 * j + 1) % n

/-- The cell `(i, j)` is the one filled in iteration `cellIndex n i j` (0-based). -/
def cellIndex (n i j : Int) : Int := cellQ n i j * n + cellS n i j

/-- The square after `t` iterations: the cells of index below `t` hold index + 1. -/
def filled (n t : Int) : Int → Int → Int :=
  fun i j =>
    if 0 ≤ i ∧ i < n ∧ 0 ≤ j ∧ j < n ∧ cellIndex n i j < t then cellIndex n i j + 1 else 0

/-- Row index after the step `row = row - 1` with wrap-around. -/
def upRow (n r : Int) : Int := if r - 1 < 0 then n - 1 else r - 1

/-- Column index after the step `column = column + 1` with wrap-around. -/
def rightCol (n c : Int) : Int := if c + 1 ≥ n then 0 else c + 1

/-- What the next iteration will find when `t` cells are filled: the cell up and to the
right of `(r, c)` is the one of index `t`, or it is already filled and the cell below
`(cr, cc)` is the one of index `t`. -/
def NextCell (n t r c cr cc : Int) : Prop :=
  cellIndex n (upRow n r) (rightCol n c) = t ∨
    (cellIndex n (upRow n r) (rightCol n c) < t ∧ 0 ≤ cr + 1 ∧ cr + 1 < n ∧ 0 ≤ cc ∧ cc < n ∧
      cellIndex n (cr + 1) cc = t)

/-- Loop invariant of the fill loop after `t` iterations. -/
structure FillInv (n t : Int) (st : Fill) : Prop where
  sq_eq : st.sq = filled n t
  number_eq : st.number = t + 1
  pos : t < n * n → 0 ≤ st.row ∧ st.row < n ∧ 0 ≤ st.column ∧ st.column < n ∧
    NextCell n t st.row st.column st.currRow st.currColumn

end MagicSquareGame

namespace CHeap

/-! ## Lemmas -/

theorem write_same (m : Int → Int) (a v : Int) : write m a v a = v := by
  simp [write]

theorem write_other (m : Int → Int) (a v x : Int) (hx : x ≠ a) : write m a v x = m x := by
  simp [write, hx]

theorem seg_le {m : Int → Int} {bl : List (Int × Int)} {a b : Int} (hs : Seg m a bl b) :
    a ≤ b ∧ (b - a) % 8 = 0 := by
  induction bl generalizing a with
  | nil => simp only [Seg] at hs; subst hs; simp
  | cons c bl ih =>
    obtain ⟨x, w⟩ := c
    obtain ⟨_, _, hpos, hmod, _, _, htl⟩ := hs
    have := ih htl
    omega

theorem seg_nil_of_eq {m : Int → Int} {bl : List (Int × Int)} {a : Int} (hs : Seg m a bl a) :
    bl = [] := by
  cases bl with
  | nil => rfl
  | cons c bl =>
    obtain ⟨x, w⟩ := c
    obtain ⟨_, _, hpos, _, _, _, htl⟩ := hs
    have := (seg_le htl).1
    omega

theorem seg_append {m : Int → Int} {bl1 bl2 : List (Int × Int)} {a b c : Int}
    (h1 : Seg m a bl1 b) (h2 : Seg m b bl2 c) : Seg m a (bl1 ++ bl2) c := by
  induction bl1 generalizing a with
  | nil => simp only [Seg] at h1; subst h1; simpa using h2
  | cons d bl ih =>
    obtain ⟨x, w⟩ := d
    obtain ⟨hx, hw, hpos, hmod, hcl, hp, htl⟩ := h1
    exact ⟨hx, hw, hpos, hmod, hcl, hp, ih htl⟩

theorem seg_split {m : Int → Int} {bl1 bl2 : List (Int × Int)} {a c : Int}
    (hs : Seg m a (bl1 ++ bl2) c) : ∃ b, Seg m a bl1 b ∧ Seg m b bl2 c := by
  induction bl1 generalizing a with
  | nil => exact ⟨a, rfl, by simpa using hs⟩
  | cons d bl ih =>
    obtain ⟨x, w⟩ := d
    obtain ⟨hx, hw, hpos, hmod, hcl, hp, htl⟩ := hs
    obtain ⟨b, hb1, hb2⟩ := ih htl
    exact ⟨b, ⟨hx, hw, hpos, hmod, hcl, hp, hb1⟩, hb2⟩

/-- A segment only depends on the words in `[a, b)` and on the p bit of the word at `b`. -/
theorem seg_congr {m m1 : Int → Int} {bl : List (Int × Int)} {a b : Int}
    (heq : ∀ x, a ≤ x → x < b → m1 x = m x)
    (hend : m b / 2 % 2 = 0 → m1 b / 2 % 2 = 0)
    (hs : Seg m a bl b) : Seg m1 a bl b := by
  induction bl generalizing a with
  | nil => exact hs
  | cons d bl ih =>
    obtain ⟨x, w⟩ := d
    obtain ⟨hx, hw, hpos, hmod, hcl, hp, htl⟩ := hs
    have hle := (seg_le htl).1
    refine ⟨hx, ?_, hpos, hmod, ?_, ?_, ih (fun y hy1 hy2 => heq y (by omega) hy2) htl⟩
    · rw [heq a (le_refl a) (by omega)]; exact hw
    · intro k hk1 hk2 hk3
      rw [heq (a + k) (by omega) (by omega)]
      exact hcl k hk1 hk2 hk3
    · intro hfree
      rcases lt_or_eq_of_le hle with hlt | heq2
      · rw [heq _ (by omega) hlt]; exact hp hfree
      · rw [heq2]; rw [heq2] at hp; exact hend (hp hfree)

theorem seg_mem {m : Int → Int} {bl : List (Int × Int)} {a b x w : Int}
    (hs : Seg m a bl b) (hmem : (x, w) ∈ bl) :
    ∃ bl1 bl2, bl = bl1 ++ (x, w) :: bl2 ∧ Seg m a bl1 x ∧ Seg m x ((x, w) :: bl2) b := by
  obtain ⟨bl1, bl2, rfl⟩ := List.append_of_mem hmem
  obtain ⟨c, h1, h2⟩ := seg_split hs
  have hc : x = c := h2.1
  subst hc
  exact ⟨bl1, bl2, rfl, h1, h2⟩

theorem seg_mem_bounds {m : Int → Int} {bl : List (Int × Int)} {a b x w : Int}
    (hs : Seg m a bl b) (hmem : (x, w) ∈ bl) :
    a ≤ x ∧ x + shifted w ≤ b ∧ m x = w ∧ 0 < shifted w ∧ shifted w % 8 = 0 ∧
      (x - a) % 8 = 0 := by
  obtain ⟨bl1, bl2, _, h1, h2⟩ := seg_mem hs hmem
  obtain ⟨_, hw, hpos, hmod, _, _, htl⟩ := h2
  have := seg_le h1
  have := seg_le htl
  exact ⟨by omega, by omega, hw, hpos, hmod, by omega⟩

/-- Every 8-byte step of a segment is either the start of a block or a word with bit 0 clear. -/
theorem seg_classify {m : Int → Int} {bl : List (Int × Int)} {a b x : Int}
    (hs : Seg m a bl b) (h1 : a ≤ x) (h2 : x < b) (h3 : (x - a) % 8 = 0) :
    (∃ w, (x, w) ∈ bl) ∨ m x % 2 = 0 := by
  induction bl generalizing a with
  | nil => simp only [Seg] at hs; omega
  | cons d bl ih =>
    obtain ⟨y, w⟩ := d
    obtain ⟨hx, hw, hpos, hmod, hcl, hp, htl⟩ := hs
    subst hx
    by_cases hxa : x = y
    · subst hxa; subst hw; exact Or.inl ⟨_, List.mem_cons_self _ _⟩
    · by_cases hin : x < y + shifted w
      · right
        have := hcl (x - y) (by omega) (by omega) h3
        simpa using this
      · rcases ih htl (by omega) (by omega) with ⟨w1, hw1⟩ | hr
        · exact Or.inl ⟨w1, List.mem_cons_of_mem _ hw1⟩
        · exact Or.inr hr

theorem mapped_of_inv {h : Heap} {bl : List (Int × Int)} (hI : Inv h bl) {x : Int}
    (h1 : h.heap_start ≤ x) (h2 : x ≤ h.heap_start + h.alloc_size)
    (h3 : (x - h.heap_start) % 8 = 0) : h.mapped x := by
  have := hI.start_pos
  have := hI.start_mod
  unfold Heap.mapped
  omega

theorem load_of_mapped {h : Heap} {x : Int} (hm : h.mapped x) : h.load x = some (h.mem x) := by
  simp [Heap.load, hm]

theorem store_of_mapped {h : Heap} {x : Int} (v : Int) (hm : h.mapped x) :
    h.store x v = some ⟨h.heap_start, h.alloc_size, write h.mem x v⟩ := by
  simp [Heap.store, hm]

theorem load_mk {h : Heap} {x : Int} (hm : h.mapped x) (m : Int → Int) :
    (Heap.mk h.heap_start h.alloc_size m).load x = some (m x) := by
  have : (Heap.mk h.heap_start h.alloc_size m).mapped x := hm
  simp [Heap.load, this]

theorem store_mk {h : Heap} {x : Int} (hm : h.mapped x) (m : Int → Int) (v : Int) :
    (Heap.mk h.heap_start h.alloc_size m).store x v =
      some ⟨h.heap_start, h.alloc_size, write m x v⟩ := by
  have : (Heap.mk h.heap_start h.alloc_size m).mapped x := hm
  simp [Heap.store, this]

theorem ballocScan_stuck {need : Int} (hneed : 0 < need) (h : Heap) (e : Int)
    (hm : h.mem e = 0 ∨ h.mem e = 2 ∨ h.mem e = 3) :
    ∀ (fuel : Nat) (s : Scan), ballocScan need fuel h e s = none := by
  intro fuel
  induction fuel with
  | zero => intro s; rfl
  | succ n ih =>
    intro s
    unfold ballocScan
    cases hl : h.load e with
    | none => rfl
    | some w =>
      have hw : w = h.mem e := by
        unfold Heap.load at hl
        split at hl <;> simp_all
      have hsh : shifted w = 0 := by unfold shifted; omega
      have hne : w ≠ 1 := by omega
      simp only [hne, hsh, if_false, add_zero]
      split
      · exact ih s
      · split
        · omega
        · split
          · omega
          · exact ih s

theorem ballocScan_seg {need : Int} (hneed : 0 < need) {h : Heap} {bl0 : List (Int × Int)}
    (hI : Inv h bl0) {bl : List (Int × Int)} :
    ∀ (a : Int), Seg h.mem a bl (h.heap_start + h.alloc_size) → h.heap_start ≤ a →
      (a - h.heap_start) % 8 = 0 →
      ∀ (fuel : Nat) (s : Scan) (out : ScanOut), ballocScan need fuel h a s = some out →
        (∃ x w, scanList need bl s = .inl (x, w) ∧ out = .returned (perfectHeap h x w) (x + 4)) ∨
        (∃ s1, scanList need bl s = .inr s1 ∧ h.mem (h.heap_start + h.alloc_size) = 1 ∧
          out = .exited s1) := by
  induction bl with
  | nil =>
    intro a hseg ha ha8 fuel s out hout
    simp only [Seg] at hseg
    subst hseg
    by_cases h1 : h.mem (h.heap_start + h.alloc_size) = 1
    · right
      cases fuel with
      | zero => simp [ballocScan] at hout
      | succ n =>
        unfold ballocScan at hout
        rw [load_of_mapped (mapped_of_inv hI ha (le_refl _) ha8)] at hout
        simp only [h1, if_true] at hout
        exact ⟨s, rfl, h1, by simpa using hout.symm⟩
    · have := hI.end_lo
      have := hI.end_hi
      rw [ballocScan_stuck hneed h _ (by omega)] at hout
      simp at hout
  | cons d bl ih =>
    intro a hseg ha ha8 fuel s out hout
    obtain ⟨x, w⟩ := d
    obtain ⟨hx, hw, hpos, hmod, hcl, hp, htl⟩ := hseg
    subst hx
    have hle := seg_le htl
    have hmx : h.mapped x := mapped_of_inv hI ha (by omega) ha8
    have hmn : h.mapped (x + shifted w) := mapped_of_inv hI (by omega) hle.1 (by omega)
    cases fuel with
    | zero => simp [ballocScan] at hout
    | succ n =>
      unfold ballocScan at hout
      rw [load_of_mapped hmx, hw] at hout
      have hne : w ≠ 1 := by unfold shifted at hpos; omega
      dsimp only at hout
      rw [if_neg hne] at hout
      unfold scanList
      split at hout
      · rename_i hodd
        rw [if_pos hodd]
        exact ih _ htl (by omega) (by omega) n s out hout
      · rename_i hev
        rw [if_neg hev]
        split at hout
        · rename_i hperf
          rw [if_pos hperf]
          left
          refine ⟨x, w, rfl, ?_⟩
          rw [store_of_mapped _ hmx] at hout
          dsimp only at hout
          rw [load_mk hmn] at hout
          dsimp only at hout
          rw [store_mk hmn] at hout
          simp only [Option.some.injEq] at hout
          rw [← hout]
          have hne2 : x + shifted w ≠ x := by omega
          simp [perfectHeap, write, hne2]
        · rename_i hnp
          rw [if_neg hnp]
          split at hout
          · rename_i hgt
            rw [if_pos hgt]
            exact ih _ htl (by omega) (by omega) n _ out hout
          · rename_i hngt
            rw [if_neg hngt]
            exact ih _ htl (by omega) (by omega) n s out hout

theorem good_start (need : Int) : Good need [] Scan.start := by
  refine ⟨?_, ?_, ?_, ?_, ?_, ?_⟩ <;> simp [Scan.start]

theorem good_skip {need : Int} {pre : List (Int × Int)} {s : Scan} (hg : Good need pre s)
    (a w : Int) (hskip : w % 2 = 0 → shifted w ≠ need ∧ (need < shifted w → s.currBestFitSize ≤ shifted w)) :
    Good need (pre ++ [(a, w)]) s := by
  refine ⟨?_, hg.bound, hg.unset, hg.below, ?_, ?_⟩
  · intro x1 w1 hmem hfree
    rcases List.mem_append.1 hmem with h1 | h1
    · exact hg.noPerfect x1 w1 h1 hfree
    · simp only [List.mem_singleton, Prod.mk.injEq] at h1
      obtain ⟨_, rfl⟩ := h1
      exact (hskip hfree).1
  · intro x1 w1 hmem hfree hfit
    rcases List.mem_append.1 hmem with h1 | h1
    · exact hg.least x1 w1 h1 hfree hfit
    · simp only [List.mem_singleton, Prod.mk.injEq] at h1
      obtain ⟨_, rfl⟩ := h1
      exact (hskip hfree).2 hfit
  · intro hsf
    obtain ⟨w0, bl1, bl2, hpre, h1, h2, h3, h4, h5⟩ := hg.chosen hsf
    exact ⟨w0, bl1, bl2 ++ [(a, w)], by simp [hpre], h1, h2, h3, h4, h5⟩

theorem good_take {need : Int} {pre : List (Int × Int)} {s : Scan} (hg : Good need pre s)
    (a w : Int) (hfree : w % 2 = 0) (hfit : need < shifted w)
    (hlt : shifted w < s.currBestFitSize) :
    Good need (pre ++ [(a, w)])
      { currBestFit := a
        currBestFitSize := shifted w
        splitFit := 1
        prevPBit := if w / 2 % 2 ≠ 0 then 1 else 0 } := by
  have hb := hg.bound
  refine ⟨?_, ?_, ?_, ?_, ?_, ?_⟩
  · intro x1 w1 hmem hfree1
    rcases List.mem_append.1 hmem with h1 | h1
    · exact hg.noPerfect x1 w1 h1 hfree1
    · simp only [List.mem_singleton, Prod.mk.injEq] at h1
      obtain ⟨_, rfl⟩ := h1
      omega
  · show shifted w ≤ 2000000000
    omega
  · intro h0
    simp at h0
  · intro _
    show shifted w < 2000000000
    omega
  · intro x1 w1 hmem hfree1 hfit1
    show shifted w ≤ shifted w1
    rcases List.mem_append.1 hmem with h1 | h1
    · have := hg.least x1 w1 h1 hfree1 hfit1
      omega
    · simp only [List.mem_singleton, Prod.mk.injEq] at h1
      obtain ⟨_, rfl⟩ := h1
      exact le_refl _
  · intro _
    refine ⟨w, pre, [], rfl, hfree, rfl, hfit, rfl, ?_⟩
    intro x1 w1 h1 hfree1 hfit1
    have := hg.least x1 w1 h1 hfree1 hfit1
    omega

/-- Specification of the replayed scan: a perfect fit is the first free block of exactly
the needed size; otherwise the final locals describe the best oversized candidate. -/
theorem scanList_spec (need : Int) (bl : List (Int × Int)) :
    ∀ (pre : List (Int × Int)) (s : Scan), Good need pre s →
      (∃ x w bl1 bl2, scanList need bl s = .inl (x, w) ∧ bl = bl1 ++ (x, w) :: bl2 ∧
        w % 2 = 0 ∧ shifted w = need ∧
        ∀ x1 w1, (x1, w1) ∈ pre ++ bl1 → w1 % 2 = 0 → shifted w1 ≠ need) ∨
      (∃ s1, scanList need bl s = .inr s1 ∧ Good need (pre ++ bl) s1) := by
  induction bl with
  | nil =>
    intro pre s hg
    right
    exact ⟨s, rfl, by simpa using hg⟩
  | cons d bl ih =>
    intro pre s hg
    obtain ⟨a, w⟩ := d
    have hstep : ∀ s2, Good need (pre ++ [(a, w)]) s2 →
        (∃ x w0 bl1 bl2, scanList need bl s2 = .inl (x, w0) ∧
          (a, w) :: bl = bl1 ++ (x, w0) :: bl2 ∧
          w0 % 2 = 0 ∧ shifted w0 = need ∧
          ∀ x1 w1, (x1, w1) ∈ pre ++ bl1 → w1 % 2 = 0 → shifted w1 ≠ need) ∨
        (∃ s1, scanList need bl s2 = .inr s1 ∧ Good need (pre ++ (a, w) :: bl) s1) := by
      intro s2 hg2
      rcases ih (pre ++ [(a, w)]) s2 hg2 with ⟨x, w0, bl1, bl2, h1, h2, h3, h4, h5⟩ | ⟨s1, h1, h2⟩
      · left
        refine ⟨x, w0, (a, w) :: bl1, bl2, h1, by simp [h2], h3, h4, ?_⟩
        intro x1 w1 hmem
        apply h5
        simpa using hmem
      · right
        exact ⟨s1, h1, by simpa using h2⟩
    unfold scanList
    by_cases hodd : w % 2 ≠ 0
    · rw [if_pos hodd]
      exact hstep s (good_skip hg a w (fun h0 => absurd h0 hodd))
    · rw [if_neg hodd]
      have hfree : w % 2 = 0 := by omega
      by_cases hperf : shifted w = need
      · rw [if_pos hperf]
        left
        refine ⟨a, w, [], bl, rfl, rfl, hfree, hperf, ?_⟩
        intro x1 w1 hmem
        simp only [List.append_nil] at hmem
        exact hg.noPerfect x1 w1 hmem
      · rw [if_neg hperf]
        by_cases hgt : shifted w > need
        · rw [if_pos hgt]
          by_cases hlt : shifted w < s.currBestFitSize
          · rw [if_pos hlt]
            exact hstep _ (good_take hg a w hfree hgt hlt)
          · rw [if_neg hlt]
            exact hstep s (good_skip hg a w (fun _ => ⟨hperf, fun _ => by omega⟩))
        · rw [if_neg hgt]
          exact hstep s (good_skip hg a w (fun _ => ⟨hperf, fun h0 => absurd h0 hgt⟩))

theorem seg_head {m m1 : Int → Int} {bl : List (Int × Int)} {a b : Int} (f : Int → Int)
    (hs : Seg m a bl b)
    (heq : ∀ y, a < y → y ≤ b → m1 y = m y)
    (ha : m1 a = f (m a))
    (hsh : a < b → shifted (f (m a)) = shifted (m a))
    (hpar : a < b → f (m a) % 2 = 0 → m a % 2 = 0) :
    Seg m1 a (mapHead f bl) b := by
  cases bl with
  | nil => exact hs
  | cons d bl =>
    obtain ⟨x, w⟩ := d
    obtain ⟨hx, hw, hpos, hmod, hcl, hp, htl⟩ := hs
    have hle := (seg_le htl).1
    subst hw
    have hab : a < b := by omega
    have hsh1 := hsh hab
    refine ⟨hx, ha, by omega, by omega, ?_, ?_, ?_⟩
    · intro k hk1 hk2 hk3
      rw [heq (a + k) (by omega) (by omega)]
      exact hcl k hk1 (by omega) hk3
    · intro hfree
      rw [hsh1, heq _ (by omega) hle]
      exact hp (hpar hab hfree)
    · rw [hsh1]
      exact seg_congr (fun y hy1 hy2 => heq y (by omega) (by omega))
        (fun h0 => by rw [heq b (by omega) (le_refl b)]; exact h0) htl

/-- Rewriting the header of one block (same size, p bit not newly set) together with the
word that follows it. -/
theorem seg_update {m m1 : Int → Int} {bl1 bl2 : List (Int × Int)} {a b x w : Int}
    (v : Int) (f : Int → Int)
    (hs : Seg m a (bl1 ++ (x, w) :: bl2) b)
    (hother : ∀ y, a ≤ y → y ≤ b → y ≠ x → y ≠ x + shifted w → m1 y = m y)
    (hx : m1 x = v) (hxs : shifted v = shifted w) (hxp : w / 2 % 2 = 0 → v / 2 % 2 = 0)
    (hn : m1 (x + shifted w) = f (m (x + shifted w)))
    (hns : x + shifted w < b →
      shifted (f (m (x + shifted w))) = shifted (m (x + shifted w)))
    (hnpar : x + shifted w < b →
      f (m (x + shifted w)) % 2 = 0 → m (x + shifted w) % 2 = 0)
    (hp : v % 2 = 0 → f (m (x + shifted w)) / 2 % 2 = 0) :
    Seg m1 a (bl1 ++ (x, v) :: mapHead f bl2) b := by
  obtain ⟨c, h1, h2⟩ := seg_split hs
  obtain ⟨hc, hw, hpos, hmod, hcl, hpw, htl⟩ := h2
  subst hc
  have hle1 := (seg_le h1).1
  have hle2 := (seg_le htl).1
  refine seg_append (b := x) ?_ ⟨rfl, hx, by omega, by omega, ?_, ?_, ?_⟩
  · refine seg_congr (fun y hy1 hy2 => hother y hy1 (by omega) (by omega) (by omega)) ?_ h1
    rw [hx, hw]
    exact hxp
  · intro k hk1 hk2 hk3
    rw [hother (x + k) (by omega) (by omega) (by omega) (by omega)]
    exact hcl k hk1 (by omega) hk3
  · intro hfree
    rw [hxs, hn]
    exact hp hfree
  · rw [hxs]
    exact seg_head f htl (fun y hy1 hy2 => hother y (by omega) hy2 (by omega) (by omega))
      hn hns hnpar

theorem write_self (m : Int → Int) (a : Int) : write m a (m a) = m := by
  funext x
  unfold write
  split
  · rename_i hx; rw [hx]
  · rfl

theorem shifted_bump {u : Int} (hp : u / 2 % 2 = 0) : shifted (u + 2) = shifted u := by
  unfold shifted; omega

theorem shifted_allocWord (w : Int) :
    shifted (shifted w + 1 + (if w / 2 % 2 ≠ 0 then 2 else 0)) = shifted w := by
  unfold shifted; split <;> omega

theorem allocWord_odd (w : Int) :
    (shifted w + 1 + (if w / 2 % 2 ≠ 0 then 2 else 0)) % 2 = 1 := by
  unfold shifted; split <;> omega

theorem allocWord_pbit {w : Int} (hp : w / 2 % 2 = 0) :
    (shifted w + 1 + (if w / 2 % 2 ≠ 0 then 2 else 0)) / 2 % 2 = 0 := by
  unfold shifted; split <;> omega

theorem perfect_inv {h : Heap} {bl1 bl2 : List (Int × Int)} {x w : Int}
    (hI : Inv h (bl1 ++ (x, w) :: bl2)) (hfree : w % 2 = 0) :
    Inv (perfectHeap h x w)
      (bl1 ++ (x, shifted w + 1 + (if w / 2 % 2 ≠ 0 then 2 else 0)) ::
        mapHead (fun u => u + 2) bl2) := by
  obtain ⟨c, h1, h2⟩ := seg_split hI.seg
  obtain ⟨hc, hw, hpos, hmod, hcl, hpw, htl⟩ := h2
  subst hc
  have hle1 := (seg_le h1).1
  have hle2 := (seg_le htl).1
  have hpn := hpw hfree
  have hlo := hI.end_lo
  have hhi := hI.end_hi
  have hne : x + shifted w ≠ x := by omega
  refine ⟨hI.start_pos, hI.start_mod, hI.size_nonneg, hI.size_lt, ?_, ?_, ?_⟩
  · refine seg_update (m := h.mem) _ (fun u => u + 2) hI.seg ?_ ?_ ?_ ?_ ?_ ?_ ?_ ?_
    · intro y _ _ hy1 hy2
      simp [perfectHeap, write, hy1, hy2]
    · simp [perfectHeap, write, hne.symm]
    · exact shifted_allocWord w
    · exact allocWord_pbit
    · simp [perfectHeap, write]
    · intro _; exact shifted_bump hpn
    · intro _ h0; dsimp only at h0; omega
    · intro h0; have := allocWord_odd w; omega
  · show 0 ≤ write (write h.mem x _) (x + shifted w) _ (h.heap_start + h.alloc_size)
    unfold write
    split
    · rename_i he; rw [he] at hlo; omega
    · split
      · have := allocWord_odd w; omega
      · exact hlo
  · show write (write h.mem x _) (x + shifted w) _ (h.heap_start + h.alloc_size) ≤ 3
    unfold write
    split
    · rename_i he; rw [he] at hhi hlo; rw [← he] at hpn; omega
    · split
      · rename_i he; omega
      · exact hhi

theorem split_inv {h : Heap} {bl1 bl2 : List (Int × Int)} {need x w : Int}
    (hI : Inv h (bl1 ++ (x, w) :: bl2)) (hfree : w % 2 = 0)
    (hneed : 0 < need) (hneed8 : need % 8 = 0) (hfit : need < shifted w) :
    Inv (splitHeap h need x w)
      (bl1 ++ (x, need + 1 + (if w / 2 % 2 ≠ 0 then 2 else 0)) ::
        (x + need, shifted w - need + 2) :: bl2) := by
  obtain ⟨c, h1, h2⟩ := seg_split hI.seg
  obtain ⟨hc, hw, hpos, hmod, hcl, hpw, htl⟩ := h2
  subst hc
  have hle1 := (seg_le h1).1
  have hle2 := (seg_le htl).1
  have hpn := hpw hfree
  have hv2s : shifted (need + 1 + (if w / 2 % 2 ≠ 0 then 2 else 0)) = need := by
    unfold shifted; split <;> omega
  have hrs : shifted (shifted w - need + 2) = shifted w - need := by
    generalize shifted w = sw at *
    unfold shifted; omega
  have hmx : (splitHeap h need x w).mem x = need + 1 + (if w / 2 % 2 ≠ 0 then 2 else 0) := by
    have : x ≠ x + need := by omega
    simp [splitHeap, write, this]
  have hmr : (splitHeap h need x w).mem (x + need) = shifted w - need + 2 := by
    simp [splitHeap, write]
  have hmo : ∀ y, y ≠ x → y ≠ x + need → (splitHeap h need x w).mem y = h.mem y := by
    intro y hy1 hy2
    simp [splitHeap, write, hy1, hy2]
  refine ⟨hI.start_pos, hI.start_mod, hI.size_nonneg, hI.size_lt, ?_, ?_, ?_⟩
  · show Seg (splitHeap h need x w).mem h.heap_start _ (h.heap_start + h.alloc_size)
    refine seg_append (b := x) ?_ ?_
    · refine seg_congr (fun y hy1 hy2 => hmo y (by omega) (by omega)) ?_ h1
      rw [hmx, hw]
      intro h0; split <;> omega
    · simp only [Seg]
      rw [hv2s, hrs]
      have e1 : x + need + (shifted w - need) = x + shifted w := by ring
      rw [e1]
      refine ⟨trivial, hmx, hneed, hneed8, ?_, ?_, rfl, hmr, by omega, by omega, ?_, ?_, ?_⟩
      · intro k hk1 hk2 hk3
        rw [hmo _ (by omega) (by omega)]
        exact hcl k hk1 (by omega) hk3
      · intro h0; exfalso; revert h0; split <;> omega
      · intro k hk1 hk2 hk3
        rw [hmo _ (by omega) (by omega)]
        have := hcl (need + k) (by omega) (by omega) (by omega)
        rwa [← add_assoc] at this
      · intro _
        rw [hmo _ (by omega) (by omega)]
        exact hpn
      · exact seg_congr (fun y hy1 hy2 => hmo y (by omega) (by omega))
          (fun h0 => by rw [hmo _ (by omega) (by omega)]; exact h0) htl
  · show 0 ≤ (splitHeap h need x w).mem (h.heap_start + h.alloc_size)
    rw [hmo _ (by omega) (by omega)]; exact hI.end_lo
  · show (splitHeap h need x w).mem (h.heap_start + h.alloc_size) ≤ 3
    rw [hmo _ (by omega) (by omega)]; exact hI.end_hi

theorem load_some {h : Heap} {x w : Int} (hl : h.load x = some w) : h.mapped x ∧ w = h.mem x := by
  unfold Heap.load at hl
  split at hl
  · rename_i hm; exact ⟨hm, by simpa using hl.symm⟩
  · simp at hl

theorem store_some {h h1 : Heap} {x v : Int} (hl : h.store x v = some h1) :
    h.mapped x ∧ h1 = ⟨h.heap_start, h.alloc_size, write h.mem x v⟩ := by
  unfold Heap.store at hl
  split at hl
  · rename_i hm; exact ⟨hm, by simpa using hl.symm⟩
  · simp at hl

/-- The mutation part of `bfree`, once the checks have passed. -/
theorem bfree_run {h : Heap} {ptr : Int} (h0 : ptr ≠ 0) (h8 : ptr % 8 = 0)
    (hm : h.mapped (ptr - 4)) (hodd : h.mem (ptr - 4) % 2 ≠ 0)
    (hlo : h.heap_start ≤ ptr - 4) (hhi : ptr - 4 ≤ h.heap_start + 4 * (h.alloc_size - 8))
    (hmn : h.mapped (ptr - 4 + shifted (h.mem (ptr - 4)))) :
    bfree h ptr = some (freeHeap h (ptr - 4) (h.mem (ptr - 4)), 0) := by
  unfold bfree
  rw [if_neg h0]
  have h8a : ¬ (ptr % 2 ^ 32 % 8 ≠ 0) := by omega
  dsimp only
  rw [if_neg h8a, load_of_mapped hm]
  dsimp only
  rw [if_neg (by simpa using hodd), if_neg (by omega), store_of_mapped _ hm]
  dsimp only
  rw [load_mk hmn]
  dsimp only
  split
  · rename_i hc
    rw [store_mk hmn]
    simp only [freeHeap, clearP, if_pos hc]
  · rename_i hc
    simp only [freeHeap, clearP, if_neg hc, write_self]

/-- Inversion of `bfree`: it either fails without touching the state, or all checks
passed and the mutation part ran. -/
theorem bfree_inv {h h1 : Heap} {ptr r : Int} (hb : bfree h ptr = some (h1, r)) :
    (r = -1 ∧ h1 = h) ∨
    (r = 0 ∧ ptr ≠ 0 ∧ ptr % 8 = 0 ∧ h.mapped (ptr - 4) ∧ h.mem (ptr - 4) % 2 ≠ 0 ∧
      h.heap_start ≤ ptr - 4 ∧ ptr - 4 ≤ h.heap_start + 4 * (h.alloc_size - 8) ∧
      h.mapped (ptr - 4 + shifted (h.mem (ptr - 4))) ∧
      h1 = freeHeap h (ptr - 4) (h.mem (ptr - 4))) := by
  by_cases h0 : ptr = 0
  · left; unfold bfree at hb; rw [if_pos h0] at hb; simp at hb; exact ⟨hb.2.symm, hb.1.symm⟩
  by_cases h8 : ptr % 8 = 0
  swap
  · left; unfold bfree at hb
    rw [if_neg h0] at hb
    dsimp only at hb
    rw [if_pos (by omega)] at hb
    simp at hb; exact ⟨hb.2.symm, hb.1.symm⟩
  cases hl : h.load (ptr - 4) with
  | none =>
    unfold bfree at hb
    rw [if_neg h0] at hb
    dsimp only at hb
    rw [if_neg (by omega), hl] at hb
    simp at hb
  | some w =>
    obtain ⟨hm, hw⟩ := load_some hl
    subst hw
    by_cases hodd : h.mem (ptr - 4) % 2 ≠ 0
    swap
    · left; unfold bfree at hb
      rw [if_neg h0] at hb
      dsimp only at hb
      rw [if_neg (by omega), hl] at hb
      dsimp only at hb
      rw [if_pos hodd] at hb
      simp at hb; exact ⟨hb.2.symm, hb.1.symm⟩
    by_cases hbd : ptr - 4 < h.heap_start ∨ ptr - 4 > h.heap_start + 4 * (h.alloc_size - 8)
    · left; unfold bfree at hb
      rw [if_neg h0] at hb
      dsimp only at hb
      rw [if_neg (by omega), hl] at hb
      dsimp only at hb
      rw [if_neg (by simpa using hodd), if_pos hbd] at hb
      simp at hb; exact ⟨hb.2.symm, hb.1.symm⟩
    · by_cases hmn : h.mapped (ptr - 4 + shifted (h.mem (ptr - 4)))
      · right
        rw [bfree_run h0 h8 hm hodd (by omega) (by omega) hmn] at hb
        simp at hb
        exact ⟨hb.2.symm, h0, h8, hm, hodd, by omega, by omega, hmn, hb.1.symm⟩
      · exfalso
        unfold bfree at hb
        rw [if_neg h0] at hb
        dsimp only at hb
        rw [if_neg (by omega), hl] at hb
        dsimp only at hb
        rw [if_neg (by simpa using hodd), if_neg hbd, store_of_mapped _ hm] at hb
        dsimp only at hb
        have : (Heap.mk h.heap_start h.alloc_size (write h.mem (ptr - 4) (h.mem (ptr - 4) - 1))).load
            (ptr - 4 + shifted (h.mem (ptr - 4))) = none := by
          unfold Heap.load
          exact if_neg hmn
        rw [this] at hb
        simp at hb

theorem clearP_shifted (u : Int) : shifted (clearP u) = shifted u := by
  unfold clearP shifted; split <;> omega

theorem clearP_parity (u : Int) : clearP u % 2 = u % 2 := by
  unfold clearP; split <;> omega

theorem clearP_pbit (u : Int) : clearP u / 2 % 2 = 0 := by
  unfold clearP; split <;> omega

theorem clearP_range {u : Int} (h0 : 0 ≤ u) (h3 : u ≤ 3) : 0 ≤ clearP u ∧ clearP u ≤ 3 := by
  unfold clearP; split <;> omega

/-- Freeing an allocated block of the list keeps the invariant. -/
theorem free_block_inv {h : Heap} {bl1 bl2 : List (Int × Int)} {x w : Int}
    (hI : Inv h (bl1 ++ (x, w) :: bl2)) (hodd : w % 2 ≠ 0) :
    Inv (freeHeap h x w) (bl1 ++ (x, w - 1) :: mapHead clearP bl2) := by
  obtain ⟨c, h1, h2⟩ := seg_split hI.seg
  obtain ⟨hc, hw, hpos, hmod, hcl, hpw, htl⟩ := h2
  subst hc
  have hle1 := (seg_le h1).1
  have hle2 := (seg_le htl).1
  have hne : x + shifted w ≠ x := by omega
  have hmn : (freeHeap h x w).mem (x + shifted w) = clearP (h.mem (x + shifted w)) := by
    simp [freeHeap, write, hne]
  have hmo : ∀ y, y ≠ x → y ≠ x + shifted w → (freeHeap h x w).mem y = h.mem y := by
    intro y hy1 hy2
    simp [freeHeap, write, hy1, hy2]
  refine ⟨hI.start_pos, hI.start_mod, hI.size_nonneg, hI.size_lt, ?_, ?_, ?_⟩
  · show Seg (freeHeap h x w).mem h.heap_start _ (h.heap_start + h.alloc_size)
    refine seg_update (m := h.mem) _ clearP hI.seg (fun y _ _ hy1 hy2 => hmo y hy1 hy2)
      ?_ ?_ ?_ hmn (fun _ => clearP_shifted _) ?_ (fun _ => clearP_pbit _)
    · simp [freeHeap, write, hne.symm]
    · unfold shifted; omega
    · intro h0; omega
    · intro _ h0; rw [clearP_parity] at h0; exact h0
  · show 0 ≤ (freeHeap h x w).mem (h.heap_start + h.alloc_size)
    rcases lt_or_eq_of_le hle2 with hlt | heq
    · rw [hmo _ (by omega) (by omega)]; exact hI.end_lo
    · rw [← heq, hmn]
      exact (clearP_range (by have := hI.end_lo; rwa [← heq] at this)
        (by have := hI.end_hi; rwa [← heq] at this)).1
  · show (freeHeap h x w).mem (h.heap_start + h.alloc_size) ≤ 3
    rcases lt_or_eq_of_le hle2 with hlt | heq
    · rw [hmo _ (by omega) (by omega)]; exact hI.end_hi
    · rw [← heq, hmn]
      exact (clearP_range (by have := hI.end_lo; rwa [← heq] at this)
        (by have := hI.end_hi; rwa [← heq] at this)).2

/-- Running `bfree` on the end mark leaves the block list alone and zeroes the mark. -/
theorem free_end_inv {h : Heap} {bl : List (Int × Int)} (hI : Inv h bl)
    (hodd : h.mem (h.heap_start + h.alloc_size) % 2 ≠ 0) :
    Inv (freeHeap h (h.heap_start + h.alloc_size) (h.mem (h.heap_start + h.alloc_size))) bl ∧
    (freeHeap h (h.heap_start + h.alloc_size) (h.mem (h.heap_start + h.alloc_size))).mem
      (h.heap_start + h.alloc_size) = 0 := by
  have hlo := hI.end_lo
  have hhi := hI.end_hi
  generalize he : h.heap_start + h.alloc_size = e at *
  generalize hw : h.mem e = w at *
  have hsh : shifted w = 0 := by unfold shifted; omega
  have hme : (freeHeap h e w).mem e = 0 := by
    simp only [freeHeap, hsh, add_zero, write, if_true]
    unfold clearP; split <;> omega
  have hmo : ∀ y, y ≠ e → (freeHeap h e w).mem y = h.mem y := by
    intro y hy
    simp [freeHeap, hsh, write, hy]
  refine ⟨⟨hI.start_pos, hI.start_mod, hI.size_nonneg, hI.size_lt, ?_, ?_, ?_⟩, hme⟩
  · show Seg (freeHeap h e w).mem h.heap_start bl (h.heap_start + h.alloc_size)
    rw [he]
    have hseg := hI.seg
    rw [he] at hseg
    refine seg_congr (fun y _ hy => hmo y (by omega)) ?_ hseg
    intro _; rw [hme]; rfl
  · show 0 ≤ (freeHeap h e w).mem (h.heap_start + h.alloc_size)
    rw [he, hme]
  · show (freeHeap h e w).mem (h.heap_start + h.alloc_size) ≤ 3
    rw [he, hme]; decide

/-- Under the invariant, an address that passes the checks of `bfree` is the start of an
allocated block of the list, or the end mark. -/
theorem bfree_target {h : Heap} {bl : List (Int × Int)} (hI : Inv h bl) {ptr : Int}
    (h8 : ptr % 8 = 0) (hm : h.mapped (ptr - 4)) (hodd : h.mem (ptr - 4) % 2 ≠ 0)
    (hlo : h.heap_start ≤ ptr - 4) :
    (∃ bl1 bl2, bl = bl1 ++ (ptr - 4, h.mem (ptr - 4)) :: bl2) ∨
      ptr - 4 = h.heap_start + h.alloc_size := by
  have hsm := hI.start_mod
  have hsz := (seg_le hI.seg).2
  obtain ⟨_, _, hm3, _⟩ := hm
  by_cases he : ptr - 4 = h.heap_start + h.alloc_size
  · exact Or.inr he
  · left
    rcases seg_classify hI.seg hlo (by omega) (by omega) with ⟨w, hw⟩ | hev
    · obtain ⟨bl1, bl2, hbl, _, h2⟩ := seg_mem hI.seg hw
      have : h.mem (ptr - 4) = w := h2.2.1
      rw [this]
      exact ⟨bl1, bl2, hbl⟩
    · exact absurd hev hodd

theorem shifted_merge (w w2 : Int) : shifted (w + shifted w2) = shifted w + shifted w2 := by
  unfold shifted; omega

theorem merge_inv {h : Heap} {pre rest : List (Int × Int)} {x w y w2 : Int}
    (hI : Inv h (pre ++ (x, w) :: (y, w2) :: rest)) (hf2 : w2 % 2 = 0) :
    Inv (mergeHeap h x w w2) (pre ++ (x, w + shifted w2) :: rest) := by
  obtain ⟨c, h1, h2⟩ := seg_split hI.seg
  obtain ⟨hc, hw, hpos, hmod, hcl, hpw, hy, hw2, hpos2, hmod2, hcl2, hpw2, htl⟩ := h2
  subst hc
  subst hy
  have hle1 := (seg_le h1).1
  have hle2 := (seg_le htl).1
  have hmx : (mergeHeap h x w w2).mem x = w + shifted w2 := by
    have : x ≠ x + shifted w := by omega
    simp [mergeHeap, write, this]
  have hmn : (mergeHeap h x w w2).mem (x + shifted w) = 0 := by
    simp [mergeHeap, write]
  have hmo : ∀ z, z ≠ x → z ≠ x + shifted w → (mergeHeap h x w w2).mem z = h.mem z := by
    intro z hz1 hz2
    simp [mergeHeap, write, hz1, hz2]
  refine ⟨hI.start_pos, hI.start_mod, hI.size_nonneg, hI.size_lt, ?_, ?_, ?_⟩
  · show Seg (mergeHeap h x w w2).mem h.heap_start _ (h.heap_start + h.alloc_size)
    refine seg_append (b := x) ?_ ?_
    · refine seg_congr (fun z hz1 hz2 => hmo z (by omega) (by omega)) ?_ h1
      rw [hmx, hw]
      intro h0; generalize shifted w2 = s2 at *; omega
    · simp only [Seg]
      rw [shifted_merge]
      have e1 : x + (shifted w + shifted w2) = x + shifted w + shifted w2 := by ring
      rw [e1]
      refine ⟨trivial, hmx, by omega, by omega, ?_, ?_, ?_⟩
      · intro k hk1 hk2 hk3
        by_cases hk : k < shifted w
        · rw [hmo _ (by omega) (by omega)]
          exact hcl k hk1 hk hk3
        · by_cases hk4 : k = shifted w
          · rw [hk4, hmn]; rfl
          · rw [hmo _ (by omega) (by omega)]
            have := hcl2 (k - shifted w) (by omega) (by omega) (by omega)
            have e2 : x + shifted w + (k - shifted w) = x + k := by ring
            rwa [e2] at this
      · intro _
        rw [hmo _ (by omega) (by omega)]
        exact hpw2 hf2
      · exact seg_congr (fun z hz1 hz2 => hmo z (by omega) (by omega))
          (fun h0 => by rw [hmo _ (by omega) (by omega)]; exact h0) htl
  · show 0 ≤ (mergeHeap h x w w2).mem (h.heap_start + h.alloc_size)
    rw [hmo _ (by omega) (by omega)]; exact hI.end_lo
  · show (mergeHeap h x w w2).mem (h.heap_start + h.alloc_size) ≤ 3
    rw [hmo _ (by omega) (by omega)]; exact hI.end_hi

/-- Once the cursor of `coalesce` stands on an end mark different from 1, the loop never
leaves it. -/
theorem coalesceLoop_stuck (e : Int) :
    ∀ (fuel : Nat) (h : Heap) (counter : Int),
      (h.mem e = 0 ∨ h.mem e = 2 ∨ h.mem e = 3) → coalesceLoop fuel h e counter = none := by
  intro fuel
  induction fuel with
  | zero => intro h counter _; rfl
  | succ n ih =>
    intro h counter hm
    unfold coalesceLoop
    cases hl : h.load e with
    | none => rfl
    | some w =>
      obtain ⟨hmap, hw⟩ := load_some hl
      subst hw
      have hsh : shifted (h.mem e) = 0 := by unfold shifted; omega
      have hne : h.mem e ≠ 1 := by omega
      dsimp only
      rw [if_neg hne, hsh, add_zero, hl]
      dsimp only
      rw [if_neg hne, hsh, add_zero]
      by_cases hodd : h.mem e % 2 ≠ 0
      · rw [if_pos hodd]
        exact ih h counter hm
      · rw [if_neg hodd, if_neg hodd, store_of_mapped _ hmap]
        dsimp only
        rw [store_mk hmap]
        dsimp only
        have hsh2 : shifted (h.mem e + 0) = 0 := by rw [add_zero]; exact hsh
        rw [hsh2]
        simp only [add_zero]
        apply ih
        left
        simp [write]

theorem seg_snoc {m : Int → Int} {pre rest : List (Int × Int)} {a x w e : Int}
    (h1 : Seg m a pre x) (h2 : Seg m x ((x, w) :: rest) e) :
    Seg m a (pre ++ [(x, w)]) (x + shifted w) ∧ Seg m (x + shifted w) rest e := by
  obtain ⟨hx, hw, hpos, hmod, hcl, hp, htl⟩ := h2
  exact ⟨seg_append h1 ⟨hx, hw, hpos, hmod, hcl, hp, rfl⟩, htl⟩

theorem coalesceLoop_spec :
    ∀ (fuel : Nat) (h : Heap) (pre post : List (Int × Int)) (curr counter : Int)
      (h1 : Heap) (c1 : Int),
      Inv h (pre ++ post) → Seg h.mem h.heap_start pre curr →
      Seg h.mem curr post (h.heap_start + h.alloc_size) →
      coalesceLoop fuel h curr counter = some (h1, c1) →
      Inv h1 (pre ++ coalesceList post) ∧ h1.heap_start = h.heap_start ∧
        h1.alloc_size = h.alloc_size ∧ h.mem (h.heap_start + h.alloc_size) = 1 ∧
        h1.mem (h.heap_start + h.alloc_size) = 1 ∧ c1 = counter + mergeCount post := by
  intro fuel
  induction fuel with
  | zero =>
    intro h pre post curr counter h1 c1 _ _ _ hc
    simp [coalesceLoop] at hc
  | succ n ih =>
    intro h pre post curr counter h1 c1 hI hpre hpost hc
    have hlo := hI.end_lo
    have hhi := hI.end_hi
    have hsm := hI.start_mod
    have hle0 := seg_le hpre
    have hle1 := seg_le hpost
    have hmc : h.mapped curr := mapped_of_inv hI hle0.1 hle1.1 hle0.2
    have hme : h.mapped (h.heap_start + h.alloc_size) :=
      mapped_of_inv hI (by omega) (le_refl _) (by omega)
    match post, hI, hpost with
    | [], hI, hpost =>
      simp only [Seg] at hpost
      subst hpost
      by_cases h1e : h.mem (h.heap_start + h.alloc_size) = 1
      · unfold coalesceLoop at hc
        rw [load_of_mapped hmc] at hc
        dsimp only at hc
        rw [if_pos h1e] at hc
        simp only [Option.some.injEq, Prod.mk.injEq] at hc
        obtain ⟨rfl, rfl⟩ := hc
        exact ⟨by simpa [coalesceList] using hI, rfl, rfl, h1e, h1e, by simp [mergeCount]⟩
      · rw [coalesceLoop_stuck _ _ _ _ (by omega)] at hc
        simp at hc
    | [(x, w)], hI, hpost =>
      obtain ⟨hx, hw, hpos, hmod, hcl, hp, htl⟩ := hpost
      simp only [Seg] at htl
      subst hx
      have hne : w ≠ 1 := by unfold shifted at hpos; omega
      unfold coalesceLoop at hc
      rw [load_of_mapped hmc, hw] at hc
      dsimp only at hc
      rw [if_neg hne, htl, load_of_mapped hme] at hc
      dsimp only at hc
      by_cases h1e : h.mem (h.heap_start + h.alloc_size) = 1
      · rw [if_pos h1e] at hc
        simp only [Option.some.injEq, Prod.mk.injEq] at hc
        obtain ⟨rfl, rfl⟩ := hc
        exact ⟨by simpa [coalesceList] using hI, rfl, rfl, h1e, h1e, by simp [mergeCount]⟩
      · exfalso
        rw [if_neg h1e] at hc
        have hsh : shifted (h.mem (h.heap_start + h.alloc_size)) = 0 := by
          unfold shifted; omega
        by_cases ho1 : w % 2 ≠ 0
        · rw [if_pos ho1, coalesceLoop_stuck _ _ _ _ (by omega)] at hc
          simp at hc
        · rw [if_neg ho1] at hc
          by_cases ho2 : h.mem (h.heap_start + h.alloc_size) % 2 ≠ 0
          · rw [if_pos ho2, hsh, add_zero, coalesceLoop_stuck _ _ _ _ (by omega)] at hc
            simp at hc
          · rw [if_neg ho2, store_of_mapped _ hmc] at hc
            dsimp only at hc
            rw [store_mk hme, hsh, add_zero, htl] at hc
            dsimp only at hc
            rw [coalesceLoop_stuck _ _ _ _ (by left; simp [write])] at hc
            simp at hc
    | (x, w) :: (y, w2) :: rest, hI, hpost =>
      obtain ⟨hx, hw, hpos, hmod, hcl, hp, hy, hw2, hpos2, hmod2, hcl2, hp2, htl⟩ := hpost
      subst hx
      have hle2 := seg_le htl
      have hne : w ≠ 1 := by unfold shifted at hpos; omega
      have hne2 : w2 ≠ 1 := by unfold shifted at hpos2; omega
      have hmn : h.mapped (x + shifted w) :=
        mapped_of_inv hI (by omega) (by omega) (by omega)
      have hpost0 : Seg h.mem x ((x, w) :: (y, w2) :: rest) (h.heap_start + h.alloc_size) :=
        ⟨rfl, hw, hpos, hmod, hcl, hp, hy, hw2, hpos2, hmod2, hcl2, hp2, htl⟩
      have hpost1 : Seg h.mem (x + shifted w) ((y, w2) :: rest) (h.heap_start + h.alloc_size) :=
        ⟨hy, hw2, hpos2, hmod2, hcl2, hp2, htl⟩
      unfold coalesceLoop at hc
      rw [load_of_mapped hmc, hw] at hc
      dsimp only at hc
      rw [if_neg hne, load_of_mapped hmn, hw2] at hc
      dsimp only at hc
      rw [if_neg hne2] at hc
      by_cases ho1 : w % 2 ≠ 0
      · rw [if_pos ho1] at hc
        have hs1 := seg_snoc hpre hpost0
        have := ih h (pre ++ [(x, w)]) ((y, w2) :: rest) _ counter h1 c1
          (by simpa using hI) hs1.1 hs1.2 hc
        simpa [coalesceList, mergeCount, ho1] using this
      · rw [if_neg ho1] at hc
        by_cases ho2 : w2 % 2 ≠ 0
        · rw [if_pos ho2] at hc
          have hs1 := seg_snoc hpre hpost0
          have hy2 : y = x + shifted w := hy
          have hs2 := seg_snoc hs1.1 (by rw [← hy2]; rw [← hy2] at hpost1; exact hpost1)
          subst hy2
          have := ih h (pre ++ [(x, w)] ++ [(x + shifted w, w2)]) rest _ counter h1 c1
            (by simpa using hI) hs2.1 hs2.2 hc
          simpa [coalesceList, mergeCount, ho1, ho2] using this
        · rw [if_neg ho2, store_of_mapped _ hmc] at hc
          dsimp only at hc
          rw [store_mk hmn] at hc
          dsimp only at hc
          have hIm : Inv (mergeHeap h x w w2) (pre ++ (x, w + shifted w2) :: rest) :=
            merge_inv hI (by omega)
          obtain ⟨c, hm1, hm2⟩ := seg_split hIm.seg
          have hcx : x = c := hm2.1
          subst hcx
          have hs1 := seg_snoc hm1 hm2
          have := ih (mergeHeap h x w w2) (pre ++ [(x, w + shifted w2)]) rest _
            (counter + 1) h1 c1 (by simpa using hIm) hs1.1 hs1.2 hc
          have hmE : (mergeHeap h x w w2).mem (h.heap_start + h.alloc_size) =
              h.mem (h.heap_start + h.alloc_size) := by
            have e1 : h.heap_start + h.alloc_size ≠ x := by omega
            have e2 : h.heap_start + h.alloc_size ≠ x + shifted w := by omega
            simp [mergeHeap, write, e1, e2]
          obtain ⟨t1, t2, t3, t4, t5, t6⟩ := this
          change (mergeHeap h x w w2).mem (h.heap_start + h.alloc_size) = 1 at t4
          change h1.mem (h.heap_start + h.alloc_size) = 1 at t5
          rw [hmE] at t4
          refine ⟨by simpa [coalesceList, ho1, ho2] using t1, t2, t3, t4, t5, ?_⟩
          rw [t6]
          simp [mergeCount, ho1, ho2]
          ring

theorem need_pos (size : Int) (h1 : 1 ≤ size) :
    0 < blockSizeNeed size ∧ blockSizeNeed size % 8 = 0 ∧ size + 4 < blockSizeNeed size ∧
      blockSizeNeed size ≤ size + 12 := by
  unfold blockSizeNeed
  dsimp only
  omega

/-- The code after the scan loop, when a candidate `(x, w)` of the block list was recorded. -/
theorem ballocFinish_split {h : Heap} {bl1 bl2 : List (Int × Int)} {need x w : Int} {s : Scan}
    (hI : Inv h (bl1 ++ (x, w) :: bl2)) (hneed : 0 < need) (hneed8 : need % 8 = 0)
    (hsf : s.splitFit ≠ 0) (hx : s.currBestFit = x) (hsz : shifted w = s.currBestFitSize)
    (hfit : need < shifted w) (hpb : s.prevPBit = (if w / 2 % 2 ≠ 0 then 1 else 0)) :
    ballocFinish need h s = some (splitHeap h need x w, x + 4) := by
  obtain ⟨c, h1, h2⟩ := seg_split hI.seg
  obtain ⟨hc, hw, hpos, hmod, hcl, hpw, htl⟩ := h2
  subst hc
  have hle1 := seg_le h1
  have hle2 := seg_le htl
  have hmx : h.mapped x := mapped_of_inv hI hle1.1 (by omega) hle1.2
  have hmn : h.mapped (x + need) := mapped_of_inv hI (by omega) (by omega) (by omega)
  unfold ballocFinish
  rw [if_pos hsf, hx, ← hsz, hpb]
  dsimp only
  have hv : (if (if w / 2 % 2 ≠ 0 then (1 : Int) else 0) ≠ 0 ∧ ¬ ((need + 1) / 2 % 2 ≠ 0)
      then need + 1 + 2 else need + 1) = need + 1 + (if w / 2 % 2 ≠ 0 then 2 else 0) := by
    by_cases hp : w / 2 % 2 ≠ 0
    · rw [if_pos hp, if_pos hp, if_pos ⟨by decide, by omega⟩]
    · rw [if_neg hp, if_neg hp, if_neg (by simp)]; simp
  have hr : shifted w - need ≠ 1 := by omega
  rw [hv, store_of_mapped _ hmx]
  dsimp only
  rw [store_mk hmn, if_pos hr]
  rfl

/-- Case analysis of a returning `balloc` on a heap that satisfies the invariant. -/
theorem balloc_cases {h h1 : Heap} {bl : List (Int × Int)} {fuel : Nat} {size p : Int}
    (hI : Inv h bl) (hb : balloc fuel h size = some (h1, p)) :
    (p = 0 ∧ h1 = h) ∨
    (1 ≤ size ∧ size + 4 ≤ h.alloc_size ∧ ∃ x w bl1 bl2, bl = bl1 ++ (x, w) :: bl2 ∧ w % 2 = 0 ∧
      shifted w = blockSizeNeed size ∧
      (∀ x1 w1, (x1, w1) ∈ bl1 → w1 % 2 = 0 → shifted w1 ≠ blockSizeNeed size) ∧
      h1 = perfectHeap h x w ∧ p = x + 4) ∨
    (1 ≤ size ∧ size + 4 ≤ h.alloc_size ∧ h.mem (h.heap_start + h.alloc_size) = 1 ∧
      ∃ x w bl1 bl2, bl = bl1 ++ (x, w) :: bl2 ∧ w % 2 = 0 ∧
      blockSizeNeed size < shifted w ∧ shifted w < 2000000000 ∧
      (∀ x1 w1, (x1, w1) ∈ bl → w1 % 2 = 0 → shifted w1 ≠ blockSizeNeed size) ∧
      (∀ x1 w1, (x1, w1) ∈ bl1 → w1 % 2 = 0 → blockSizeNeed size < shifted w1 →
        shifted w < shifted w1) ∧
      (∀ x1 w1, (x1, w1) ∈ bl → w1 % 2 = 0 → blockSizeNeed size < shifted w1 →
        shifted w ≤ shifted w1) ∧
      h1 = splitHeap h (blockSizeNeed size) x w ∧ p = x + 4) := by
  have hsz0 := hI.size_nonneg
  have hsz1 := hI.size_lt
  unfold balloc at hb
  by_cases hchk : size < 1 ∨ size + 4 > h.alloc_size % 2 ^ 64
  · rw [if_pos hchk] at hb
    simp only [Option.some.injEq, Prod.mk.injEq] at hb
    exact Or.inl ⟨hb.2.symm, hb.1.symm⟩
  · rw [if_neg hchk] at hb
    have hs1 : 1 ≤ size := by omega
    have hs2 : size + 4 ≤ h.alloc_size := by omega
    obtain ⟨hn0, hn8, _, _⟩ := need_pos size hs1
    cases hscan : ballocScan (blockSizeNeed size) fuel h h.heap_start Scan.start with
    | none => rw [hscan] at hb; simp at hb
    | some out =>
      rw [hscan] at hb
      rcases ballocScan_seg hn0 hI _ hI.seg (le_refl _) (by simp) fuel _ out hscan with
        ⟨x, w, hsl, hout⟩ | ⟨s1, hsl, hend, hout⟩
      · subst hout
        simp only [Option.some.injEq, Prod.mk.injEq] at hb
        right; left
        rcases scanList_spec (blockSizeNeed size) bl [] Scan.start (good_start _) with
          ⟨x2, w2, bl1, bl2, hsl2, hbl, hfree, hperf, hfirst⟩ | ⟨s2, hsl2, _⟩
        · rw [hsl] at hsl2
          simp only [Sum.inl.injEq, Prod.mk.injEq] at hsl2
          obtain ⟨rfl, rfl⟩ := hsl2
          exact ⟨hs1, hs2, x, w, bl1, bl2, hbl, hfree, hperf,
            fun x1 w1 hm => hfirst x1 w1 (by simpa using hm), hb.1.symm, hb.2.symm⟩
        · rw [hsl] at hsl2; simp at hsl2
      · subst hout
        dsimp only at hb
        rcases scanList_spec (blockSizeNeed size) bl [] Scan.start (good_start _) with
          ⟨x2, w2, bl1, bl2, hsl2, _⟩ | ⟨s2, hsl2, hg⟩
        · rw [hsl] at hsl2; simp at hsl2
        · rw [hsl] at hsl2
          simp only [Sum.inr.injEq] at hsl2
          subst hsl2
          simp only [List.nil_append] at hg
          by_cases hsf : s1.splitFit ≠ 0
          · right; right
            obtain ⟨w, bl1, bl2, hbl, hfree, hsz, hfit, hpb, hstrict⟩ := hg.chosen hsf
            subst hbl
            rw [ballocFinish_split hI hn0 hn8 hsf rfl hsz hfit hpb] at hb
            simp only [Option.some.injEq, Prod.mk.injEq] at hb
            have hlt : shifted w < 2000000000 := by
              have := hg.below hsf
              omega
            refine ⟨hs1, hs2, hend, s1.currBestFit, w, bl1, bl2, rfl, hfree, hfit, hlt,
              hg.noPerfect, hstrict, ?_, hb.1.symm, hb.2.symm⟩
            intro x1 w1 hm hf1 hfit1
            have := hg.least x1 w1 hm hf1 hfit1
            omega
          · left
            unfold ballocFinish at hb
            rw [if_neg hsf] at hb
            simp only [Option.some.injEq, Prod.mk.injEq] at hb
            exact ⟨hb.2.symm, hb.1.symm⟩

theorem init_heap_some {os : OS} {p0 p1 : Proc} {r : Int}
    (hi : init_heap os p0 r = some (p1, 0)) :
    p1.heap = initHeap os r ∧ p1.allocated_once = 1 ∧ p0.allocated_once = 0 ∧ 0 < r := by
  unfold init_heap at hi
  split at hi
  · simp at hi
  · rename_i h0
    split at hi
    · simp at hi
    · rename_i hr
      dsimp only at hi
      split at hi
      · simp at hi
      · split at hi
        · simp at hi
        · split at hi
          · simp at hi
          · rename_i ha hs1
            split at hi
            · simp at hi
            · rename_i hb hs2
              split at hi
              · simp at hi
              · rename_i hc hs3
                obtain ⟨_, rfl⟩ := store_some hs1
                obtain ⟨_, rfl⟩ := store_some hs2
                obtain ⟨_, rfl⟩ := store_some hs3
                simp only [Option.some.injEq, Prod.mk.injEq, and_true] at hi
                subst hi
                exact ⟨rfl, rfl, by omega, by omega⟩

theorem padded_dvd (P r : Int) : P ∣ r + (P - r % P) % P := by
  apply Int.dvd_of_emod_eq_zero
  rw [Int.add_emod, Int.emod_emod, ← Int.add_emod]
  have : r + (P - r % P) = P + P * (r / P) := by
    have := Int.emod_add_ediv r P
    omega
  rw [this]
  simp

theorem init_inv {os : OS} {r : Int} (hs : os.sane r) (hr : 0 < r) :
    Inv (initHeap os r) (initBlocks os r) := by
  obtain ⟨hP, hP8, hbase, hbaseP, hfit⟩ := hs
  have h8P : (8 : Int) ∣ os.pagesize := Int.dvd_of_emod_eq_zero hP8
  have hb8 : os.mmap_ptr % 8 = 0 :=
    Int.emod_eq_zero_of_dvd (dvd_trans h8P (Int.dvd_of_emod_eq_zero hbaseP))
  have hdv := padded_dvd os.pagesize r
  have ha8 : (r + (os.pagesize - r % os.pagesize) % os.pagesize) % 8 = 0 :=
    Int.emod_eq_zero_of_dvd (dvd_trans h8P hdv)
  have hpad : 0 ≤ (os.pagesize - r % os.pagesize) % os.pagesize := Int.emod_nonneg _ (by omega)
  have hge : os.pagesize ≤ r + (os.pagesize - r % os.pagesize) % os.pagesize :=
    Int.le_of_dvd (by omega) hdv
  unfold initBlocks
  generalize hL : r + (os.pagesize - r % os.pagesize) % os.pagesize - 8 = L at *
  have hLdef : initHeap os r = ⟨os.mmap_ptr + 4, L,
      write (write (write (fun _ => 0) (os.mmap_ptr + 4 + L) 1) (os.mmap_ptr + 4) (L + 2))
        (os.mmap_ptr + 4 + L - 4) L⟩ := by
    unfold initHeap; rw [hL]
  rw [hLdef]
  dsimp only
  have hL0 : 0 ≤ L := by omega
  have hL8 : L % 8 = 0 := by omega
  refine ⟨by dsimp only; omega, by dsimp only; omega, hL0, by dsimp only; omega, ?_, ?_, ?_⟩
  · dsimp only
    split
    · rename_i hz
      simp only [Seg]; omega
    · rename_i hz
      have hsh : shifted (L + 2) = L := by unfold shifted; omega
      simp only [Seg]
      rw [hsh]
      refine ⟨trivial, ?_, by omega, hL8, ?_, ?_, rfl⟩
      · have e1 : os.mmap_ptr + 4 ≠ os.mmap_ptr + 4 + L - 4 := by omega
        simp [write, e1]
      · intro k hk1 hk2 hk3
        have e1 : os.mmap_ptr + 4 + k ≠ os.mmap_ptr + 4 + L - 4 := by omega
        have e2 : os.mmap_ptr + 4 + k ≠ os.mmap_ptr + 4 := by omega
        have e3 : os.mmap_ptr + 4 + k ≠ os.mmap_ptr + 4 + L := by omega
        simp [write, e1, e2, e3]
      · intro _
        have e1 : os.mmap_ptr + 4 + L ≠ os.mmap_ptr + 4 + L - 4 := by omega
        have e2 : os.mmap_ptr + 4 + L ≠ os.mmap_ptr + 4 := by omega
        simp [write, e1, e2]
  · dsimp only
    unfold write
    split
    · omega
    · split
      · omega
      · simp
  · dsimp only
    unfold write
    split
    · omega
    · split
      · omega
      · simp

theorem isLive_append (a b : List (Int × Int)) (q : Int) :
    IsLive (a ++ b) q ↔ IsLive a q ∨ IsLive b q := by
  unfold IsLive
  constructor
  · rintro ⟨w, hm, hw⟩
    rcases List.mem_append.1 hm with h1 | h1
    · exact Or.inl ⟨w, h1, hw⟩
    · exact Or.inr ⟨w, h1, hw⟩
  · rintro (⟨w, hm, hw⟩ | ⟨w, hm, hw⟩)
    · exact ⟨w, List.mem_append_left _ hm, hw⟩
    · exact ⟨w, List.mem_append_right _ hm, hw⟩

theorem isLive_cons (x w : Int) (t : List (Int × Int)) (q : Int) :
    IsLive ((x, w) :: t) q ↔ (q - 4 = x ∧ w % 2 ≠ 0) ∨ IsLive t q := by
  unfold IsLive
  constructor
  · rintro ⟨w1, hm, hw⟩
    rcases List.mem_cons.1 hm with h1 | h1
    · simp only [Prod.mk.injEq] at h1
      obtain ⟨h2, rfl⟩ := h1
      exact Or.inl ⟨h2, hw⟩
    · exact Or.inr ⟨w1, h1, hw⟩
  · rintro (⟨h1, hw⟩ | ⟨w1, hm, hw⟩)
    · exact ⟨w, by rw [h1]; exact List.mem_cons_self _ _, hw⟩
    · exact ⟨w1, List.mem_cons_of_mem _ hm, hw⟩

theorem isLive_nil (q : Int) : ¬ IsLive [] q := by
  rintro ⟨w, hm, _⟩
  simp at hm

theorem isLive_mapHead (f : Int → Int) (hf : ∀ u, f u % 2 = u % 2) (bl : List (Int × Int))
    (q : Int) : IsLive (mapHead f bl) q ↔ IsLive bl q := by
  cases bl with
  | nil => rfl
  | cons d t =>
    obtain ⟨x, w⟩ := d
    show IsLive ((x, f w) :: t) q ↔ IsLive ((x, w) :: t) q
    rw [isLive_cons, isLive_cons, hf]

theorem isLive_coalesceList (q : Int) :
    ∀ (n : Nat) (bl : List (Int × Int)), bl.length ≤ n →
      (IsLive (coalesceList bl) q ↔ IsLive bl q) := by
  intro n
  induction n with
  | zero =>
    intro bl hl
    have : bl = [] := List.length_eq_zero.1 (by omega)
    subst this
    rfl
  | succ n ih =>
    intro bl hl
    match bl, hl with
    | [], _ => rfl
    | [b], _ => rfl
    | (x, w) :: (y, w2) :: rest, hl =>
      simp only [List.length_cons] at hl
      unfold coalesceList
      by_cases ho1 : w % 2 ≠ 0
      · rw [if_pos ho1, isLive_cons, isLive_cons (x := x), ih _ (by simp; omega)]
      · rw [if_neg ho1]
        by_cases ho2 : w2 % 2 ≠ 0
        · rw [if_pos ho2, isLive_cons, isLive_cons, isLive_cons (x := x), isLive_cons (x := y),
            ih _ (by omega)]
        · rw [if_neg ho2, isLive_cons, isLive_cons (x := x), isLive_cons (x := y),
            ih _ (by omega)]
          have : ¬ ((w + shifted w2) % 2 ≠ 0) := by unfold shifted; omega
          simp [ho1, ho2, this]

theorem isLive_bounds {m : Int → Int} {bl : List (Int × Int)} {a b q : Int}
    (hs : Seg m a bl b) (hq : IsLive bl q) :
    a ≤ q - 4 ∧ q - 4 + shifted (m (q - 4)) ≤ b ∧ 0 < shifted (m (q - 4)) ∧
      m (q - 4) % 2 ≠ 0 := by
  obtain ⟨w, hm, hw⟩ := hq
  obtain ⟨h1, h2, h3, h4, _, _⟩ := seg_mem_bounds hs hm
  rw [h3]
  exact ⟨h1, h2, h4, hw⟩

/-- Effect of a returning `coalesce` on a heap that satisfies the invariant. -/
theorem coalesce_spec {h h1 : Heap} {bl : List (Int × Int)} {fuel : Nat} {r : Int}
    (hI : Inv h bl) (hc : coalesce fuel h = some (h1, r)) :
    Inv h1 (coalesceList bl) ∧ h1.heap_start = h.heap_start ∧ h1.alloc_size = h.alloc_size ∧
      h.mem (h.heap_start + h.alloc_size) = 1 ∧ h1.mem (h.heap_start + h.alloc_size) = 1 ∧
      r = (if mergeCount bl < 1 then 0 else 1) := by
  unfold coalesce at hc
  cases hl : coalesceLoop fuel h h.heap_start 0 with
  | none => rw [hl] at hc; simp at hc
  | some res =>
    obtain ⟨h2, c⟩ := res
    rw [hl] at hc
    dsimp only at hc
    obtain ⟨t1, t2, t3, t4, t5, t6⟩ :=
      coalesceLoop_spec fuel h [] bl h.heap_start 0 h2 c (by simpa using hI) rfl hI.seg hl
    simp only [zero_add] at t6
    simp only [List.nil_append] at t1
    subst t6
    split at hc
    · rename_i hlt
      simp only [Option.some.injEq, Prod.mk.injEq] at hc
      obtain ⟨rfl, rfl⟩ := hc
      exact ⟨t1, t2, t3, t4, t5, by rw [if_pos hlt]⟩
    · rename_i hlt
      simp only [Option.some.injEq, Prod.mk.injEq] at hc
      obtain ⟨rfl, rfl⟩ := hc
      exact ⟨t1, t2, t3, t4, t5, by rw [if_neg hlt]⟩

theorem isLive_perfect {bl1 bl2 : List (Int × Int)} {x w : Int} (q : Int) :
    IsLive (bl1 ++ (x, shifted w + 1 + (if w / 2 % 2 ≠ 0 then 2 else 0)) ::
      mapHead (fun u => u + 2) bl2) q ↔ (q = x + 4 ∨ IsLive bl1 q ∨ IsLive bl2 q) := by
  rw [isLive_append, isLive_cons, isLive_mapHead _ (fun u => by omega)]
  have := allocWord_odd w
  constructor
  · rintro (h1 | ⟨h1, _⟩ | h1)
    · exact Or.inr (Or.inl h1)
    · exact Or.inl (by omega)
    · exact Or.inr (Or.inr h1)
  · rintro (h1 | h1 | h1)
    · exact Or.inr (Or.inl ⟨by omega, by omega⟩)
    · exact Or.inl h1
    · exact Or.inr (Or.inr h1)

theorem isLive_split {bl1 bl2 : List (Int × Int)} {need x w : Int} (hneed8 : need % 8 = 0)
    (q : Int) :
    IsLive (bl1 ++ (x, need + 1 + (if w / 2 % 2 ≠ 0 then 2 else 0)) ::
      (x + need, shifted w - need + 2) :: bl2) q ↔ (q = x + 4 ∨ IsLive bl1 q ∨ IsLive bl2 q) := by
  rw [isLive_append, isLive_cons, isLive_cons]
  have h1 : (need + 1 + (if w / 2 % 2 ≠ 0 then 2 else 0)) % 2 ≠ 0 := by split <;> omega
  have h2 : ¬ ((shifted w - need + 2) % 2 ≠ 0) := by unfold shifted; omega
  constructor
  · rintro (h | ⟨h, _⟩ | ⟨_, h⟩ | h)
    · exact Or.inr (Or.inl h)
    · exact Or.inl (by omega)
    · exact absurd h h2
    · exact Or.inr (Or.inr h)
  · rintro (h | h | h)
    · exact Or.inr (Or.inl ⟨by omega, h1⟩)
    · exact Or.inl h
    · exact Or.inr (Or.inr (Or.inr h))

theorem isLive_old {bl1 bl2 : List (Int × Int)} {x w : Int} (q : Int) :
    IsLive (bl1 ++ (x, w) :: bl2) q ↔ ((q = x + 4 ∧ w % 2 ≠ 0) ∨ IsLive bl1 q ∨ IsLive bl2 q) := by
  rw [isLive_append, isLive_cons]
  constructor
  · rintro (h | ⟨h, h2⟩ | h)
    · exact Or.inr (Or.inl h)
    · exact Or.inl ⟨by omega, h2⟩
    · exact Or.inr (Or.inr h)
  · rintro (⟨h, h2⟩ | h | h)
    · exact Or.inr (Or.inl ⟨by omega, h2⟩)
    · exact Or.inl h
    · exact Or.inr (Or.inr h)

/-- In a tiled list the blocks before `(x, w)` lie below `x` and those after it above. -/
theorem isLive_sides {m : Int → Int} {a b : Int} {bl1 bl2 : List (Int × Int)} {x w : Int}
    (hs : Seg m a (bl1 ++ (x, w) :: bl2) b) (q : Int) :
    (IsLive bl1 q → q - 4 + shifted (m (q - 4)) ≤ x) ∧
      (IsLive bl2 q → x + shifted w ≤ q - 4) := by
  obtain ⟨c, h1, h2⟩ := seg_split hs
  obtain ⟨hc, _, _, _, _, _, htl⟩ := h2
  subst hc
  exact ⟨fun hq => (isLive_bounds h1 hq).2.1, fun hq => (isLive_bounds htl hq).1⟩

/-- Every reachable state satisfies the block-list invariant, and its live pointers are
exactly the payload addresses of the allocated blocks. -/
theorem reach_inv {h : Heap} {live : List Int} (hr : Reach h live) :
    ∃ bl, Inv h bl ∧ ∀ q, q ∈ live ↔ IsLive bl q := by
  induction hr with
  | init os p0 p1 r hs hi =>
    obtain ⟨hh, _, _, hr0⟩ := init_heap_some hi
    rw [hh]
    refine ⟨initBlocks os r, init_inv hs hr0, ?_⟩
    intro q
    simp only [List.not_mem_nil, false_iff]
    unfold initBlocks
    split
    · exact isLive_nil q
    · rw [isLive_cons]
      rintro (⟨_, h2⟩ | h2)
      · have hI := init_inv hs hr0
        have h8 := (seg_le hI.seg).2
        revert h2; simp only [ne_eq, not_not]; omega
      · exact isLive_nil q h2
  | @balloc h live fuel size h1 p _ hb ih =>
    obtain ⟨bl, hI, hlive⟩ := ih
    rcases balloc_cases hI hb with ⟨hp, hh⟩ | ⟨hs1, _, x, w, bl1, bl2, hbl, hfree, hperf, _, hh, hp⟩ |
      ⟨hs1, _, _, x, w, bl1, bl2, hbl, hfree, hfit, _, _, _, _, hh, hp⟩
    · subst hh
      rw [if_pos hp]
      exact ⟨bl, hI, hlive⟩
    · subst hbl hh
      have hx : 0 < x := by
        have := (seg_mem_bounds hI.seg (List.mem_append_right _ (List.mem_cons_self _ _))).1
        have := hI.start_pos
        omega
      rw [if_neg (by omega)]
      refine ⟨_, perfect_inv hI hfree, ?_⟩
      intro q
      rw [isLive_perfect, List.mem_cons, hlive, isLive_old, hp]
      have : ¬ (w % 2 ≠ 0) := by omega
      simp [this]
    · subst hbl hh
      have hx : 0 < x := by
        have := (seg_mem_bounds hI.seg (List.mem_append_right _ (List.mem_cons_self _ _))).1
        have := hI.start_pos
        omega
      obtain ⟨hn0, hn8, _, _⟩ := need_pos size hs1
      rw [if_neg (by omega)]
      refine ⟨_, split_inv hI hfree hn0 hn8 hfit, ?_⟩
      intro q
      rw [isLive_split hn8, List.mem_cons, hlive, isLive_old, hp]
      have : ¬ (w % 2 ≠ 0) := by omega
      simp [this]
  | @bfree h live ptr h1 r _ hb ih =>
    obtain ⟨bl, hI, hlive⟩ := ih
    rcases bfree_inv hb with ⟨hr, hh⟩ | ⟨hr, h0, h8, hm, hodd, hlo, _, _, hh⟩
    · subst hh
      rw [if_neg (by omega)]
      exact ⟨bl, hI, hlive⟩
    · subst hh
      rw [if_pos hr]
      rcases bfree_target hI h8 hm hodd hlo with ⟨bl1, bl2, hbl⟩ | hend
      · subst hbl
        refine ⟨_, free_block_inv hI hodd, ?_⟩
        intro q
        have hsides := isLive_sides hI.seg q
        have hpos := (seg_mem_bounds hI.seg
          (List.mem_append_right bl1 (List.mem_cons_self _ bl2))).2.2.2.1
        rw [isLive_append, isLive_cons, isLive_mapHead _ clearP_parity, List.mem_filter, hlive,
          isLive_old]
        have hev : ¬ ((h.mem (ptr - 4) - 1) % 2 ≠ 0) := by omega
        simp only [decide_eq_true_eq]
        constructor
        · rintro ⟨(⟨h1, _⟩ | h1 | h1), h2⟩
          · omega
          · exact Or.inl h1
          · exact Or.inr (Or.inr h1)
        · rintro (h1 | ⟨_, h1⟩ | h1)
          · refine ⟨Or.inr (Or.inl h1), ?_⟩
            have := hsides.1 h1
            have := (isLive_bounds (seg_split hI.seg).choose_spec.1 h1).2.2.1
            omega
          · exact absurd h1 hev
          · refine ⟨Or.inr (Or.inr h1), ?_⟩
            have := hsides.2 h1
            omega
      · rw [hend]
        refine ⟨bl, (free_end_inv hI (by rw [← hend]; exact hodd)).1, ?_⟩
        intro q
        rw [List.mem_filter, hlive]
        simp only [decide_eq_true_eq]
        constructor
        · exact fun h1 => h1.1
        · intro h1
          refine ⟨h1, ?_⟩
          have := (isLive_bounds hI.seg h1)
          omega
  | @coalesce h live fuel h1 r _ hc ih =>
    obtain ⟨bl, hI, hlive⟩ := ih
    refine ⟨coalesceList bl, (coalesce_spec hI hc).1, ?_⟩
    intro q
    rw [hlive, isLive_coalesceList q bl.length bl (le_refl _)]

/-- With more fuel than blocks, the scan loop of `balloc` returns what the replayed scan
says, provided the end mark is 1 whenever the scan gets that far. -/
theorem ballocScan_run {need : Int} {h : Heap} {bl0 : List (Int × Int)} (hI : Inv h bl0)
    {bl : List (Int × Int)} :
    ∀ (a : Int), Seg h.mem a bl (h.heap_start + h.alloc_size) → h.heap_start ≤ a →
      (a - h.heap_start) % 8 = 0 →
      ∀ (fuel : Nat) (s : Scan), bl.length < fuel →
        ballocScan need fuel h a s =
          match scanList need bl s with
          | .inl (x, w) => some (.returned (perfectHeap h x w) (x + 4))
          | .inr s1 =>
            if h.mem (h.heap_start + h.alloc_size) = 1 then some (.exited s1)
            else ballocScan need (fuel - bl.length) h (h.heap_start + h.alloc_size) s1 := by
  induction bl with
  | nil =>
    intro a hseg ha ha8 fuel s hf
    simp only [Seg] at hseg
    subst hseg
    cases fuel with
    | zero => simp at hf
    | succ n =>
      simp only [scanList, List.length_nil, Nat.sub_zero]
      split
      · rename_i h1
        conv_lhs => unfold ballocScan
        rw [load_of_mapped (mapped_of_inv hI ha (le_refl _) ha8)]
        dsimp only
        rw [if_pos h1]
      · rfl
  | cons d bl ih =>
    intro a hseg ha ha8 fuel s hf
    obtain ⟨x, w⟩ := d
    obtain ⟨hx, hw, hpos, hmod, hcl, hp, htl⟩ := hseg
    subst hx
    have hle := seg_le htl
    have hmx : h.mapped x := mapped_of_inv hI ha (by omega) ha8
    have hmn : h.mapped (x + shifted w) := mapped_of_inv hI (by omega) hle.1 (by omega)
    cases fuel with
    | zero => simp at hf
    | succ n =>
      simp only [List.length_cons] at hf
      have hsub : n + 1 - (bl.length + 1) = n - bl.length := by omega
      simp only [List.length_cons, hsub]
      conv_lhs => unfold ballocScan
      unfold scanList
      rw [load_of_mapped hmx, hw]
      have hne : w ≠ 1 := by unfold shifted at hpos; omega
      dsimp only
      rw [if_neg hne]
      by_cases hodd : w % 2 ≠ 0
      · rw [if_pos hodd, if_pos hodd]
        exact ih _ htl (by omega) (by omega) n s (by omega)
      · rw [if_neg hodd, if_neg hodd]
        by_cases hperf : shifted w = need
        · rw [if_pos hperf, if_pos hperf, store_of_mapped _ hmx]
          dsimp only
          rw [load_mk hmn]
          dsimp only
          rw [store_mk hmn]
          have hne2 : x + shifted w ≠ x := by omega
          simp [perfectHeap, write, hne2]
        · rw [if_neg hperf, if_neg hperf]
          by_cases hgt : shifted w > need
          · rw [if_pos hgt, if_pos hgt]
            exact ih _ htl (by omega) (by omega) n _ (by omega)
          · rw [if_neg hgt, if_neg hgt]
            exact ih _ htl (by omega) (by omega) n s (by omega)

/-- In a tiled list the blocks before `(x, w)` end at or below `x` and those after it
start at or above its end. -/
theorem seg_sides {m : Int → Int} {a b : Int} {bl1 bl2 : List (Int × Int)} {x w : Int}
    (hs : Seg m a (bl1 ++ (x, w) :: bl2) b) (x1 w1 : Int) :
    ((x1, w1) ∈ bl1 → x1 + shifted w1 ≤ x ∧ 0 < shifted w1) ∧
      ((x1, w1) ∈ bl2 → x + shifted w ≤ x1) := by
  obtain ⟨c, h1, h2⟩ := seg_split hs
  obtain ⟨hc, _, _, _, _, _, htl⟩ := h2
  subst hc
  refine ⟨fun hq => ?_, fun hq => (seg_mem_bounds htl hq).1⟩
  have := seg_mem_bounds h1 hq
  exact ⟨this.2.1, this.2.2.2.1⟩

theorem exOS_sane : exOS.sane 4096 := ⟨by decide, by decide, by decide, by decide, by decide⟩

theorem ballocScan_returned_pos {need : Int} {h : Heap} :
    ∀ (fuel : Nat) (a : Int) (s : Scan) (h2 : Heap) (p : Int),
      ballocScan need fuel h a s = some (.returned h2 p) → 0 < p := by
  intro fuel
  induction fuel with
  | zero => intro a s h2 p hb; simp [ballocScan] at hb
  | succ n ih =>
    intro a s h2 p hb
    unfold ballocScan at hb
    cases hl : h.load a with
    | none => rw [hl] at hb; simp at hb
    | some w =>
      obtain ⟨hm, _⟩ := load_some hl
      rw [hl] at hb
      dsimp only at hb
      split at hb
      · simp at hb
      · split at hb
        · exact ih _ _ _ _ hb
        · split at hb
          · rw [store_of_mapped _ hm] at hb
            dsimp only at hb
            split at hb
            · simp at hb
            · split at hb
              · simp at hb
              · simp only [Option.some.injEq, ScanOut.returned.injEq] at hb
                have := hm.1
                omega
          · split at hb
            · exact ih _ _ _ _ hb
            · exact ih _ _ _ _ hb

theorem ballocFinish_null {need : Int} {h h1 : Heap} {s : Scan}
    (hb : ballocFinish need h s = some (h1, 0)) : h1 = h := by
  unfold ballocFinish at hb
  split at hb
  · dsimp only at hb
    split at hb
    · simp at hb
    · rename_i hs1
      obtain ⟨hm, _⟩ := store_some hs1
      split at hb
      · simp at hb
      · simp only [Option.some.injEq, Prod.mk.injEq] at hb
        have := hm.1
        omega
  · simp only [Option.some.injEq, Prod.mk.injEq] at hb
    exact hb.1.symm

/-- The allocated block that a non-null `balloc` result points to, in the state after the
call: its header address, header word and the needed length. -/
theorem balloc_block {h h1 : Heap} {bl : List (Int × Int)} {fuel : Nat} {size p : Int}
    (hI : Inv h bl) (hb : balloc fuel h size = some (h1, p)) (hp : p ≠ 0) :
    1 ≤ size ∧ h1.heap_start = h.heap_start ∧ h1.alloc_size = h.alloc_size ∧
    ∃ w bl1 bl2, bl = bl1 ++ (p - 4, w) :: bl2 ∧ w % 2 = 0 ∧ blockSizeNeed size ≤ shifted w ∧
      h1.mem (p - 4) = blockSizeNeed size + 1 + (if w / 2 % 2 ≠ 0 then 2 else 0) := by
  rcases balloc_cases hI hb with ⟨hp0, _⟩ | ⟨hs1, _, x, w, bl1, bl2, hbl, hfree, hperf, _, hh, hpx⟩ |
    ⟨hs1, _, _, x, w, bl1, bl2, hbl, hfree, hfit, _, _, _, _, hh, hpx⟩
  · exact absurd hp0 hp
  · subst hh hpx
    have hb := seg_mem_bounds hI.seg (by rw [hbl]; exact List.mem_append_right _ (List.mem_cons_self _ _))
    refine ⟨hs1, rfl, rfl, w, bl1, bl2, by rw [hbl]; simp, hfree, by omega, ?_⟩
    have hne : x ≠ x + shifted w := by omega
    have hxx : x + 4 - 4 = x := by ring
    rw [hxx, ← hperf]
    simp only [perfectHeap, write, if_neg hne, if_true]
  · subst hh hpx
    obtain ⟨hn0, _, _, _⟩ := need_pos size hs1
    refine ⟨hs1, rfl, rfl, w, bl1, bl2, by rw [hbl]; simp, hfree, by omega, ?_⟩
    have hne : x ≠ x + blockSizeNeed size := by omega
    have hxx : x + 4 - 4 = x := by ring
    rw [hxx]
    simp only [splitHeap, write, if_neg hne, if_true]

/-- With more fuel than blocks, `balloc` takes the first free block of exactly the needed
size when there is one. -/
theorem balloc_perfect_run {h : Heap} {bl : List (Int × Int)} {fuel : Nat} {size : Int}
    (hI : Inv h bl) (hs1 : 1 ≤ size) (hs2 : size + 4 ≤ h.alloc_size) (hf : bl.length < fuel)
    {x0 w0 : Int} (hm0 : (x0, w0) ∈ bl) (hfree0 : w0 % 2 = 0)
    (hsz0 : shifted w0 = blockSizeNeed size) :
    ∃ x w bl1 bl2, bl = bl1 ++ (x, w) :: bl2 ∧ w % 2 = 0 ∧ shifted w = blockSizeNeed size ∧
      balloc fuel h size = some (perfectHeap h x w, x + 4) := by
  have hsz0a := hI.size_nonneg
  have hsz1 := hI.size_lt
  have hrun := @ballocScan_run (blockSizeNeed size) h bl hI bl _ hI.seg (le_refl _) (by simp)
    fuel Scan.start hf
  rcases scanList_spec (blockSizeNeed size) bl [] Scan.start (good_start _) with
    ⟨x, w, bl1, bl2, hsl, hbl, hfree, hperf, _⟩ | ⟨s1, _, hg⟩
  · refine ⟨x, w, bl1, bl2, hbl, hfree, hperf, ?_⟩
    rw [hsl] at hrun
    unfold balloc
    rw [if_neg (by omega), hrun]
  · exact absurd hsz0 (hg.noPerfect x0 w0 (by simpa using hm0) hfree0)

/-! ## Claims -/

/-- C1: in every state reachable from a successful `init_heap` (page-aligned mapping,
`heap_start = base + 4`) by returning calls of `balloc`, `bfree` and `coalesce`, a non-null
pointer returned by `balloc` is a multiple of 8, and its offset from `heap_start` is
congruent to 4 modulo 8. -/
theorem C1_balloc_aligned (h h1 : Heap) (live : List Int) (fuel : Nat) (size p : Int)
    (hr : Reach h live) (hb : balloc fuel h size = some (h1, p)) (hp : p ≠ 0) :
    p % 8 = 0 ∧ (p - h.heap_start) % 8 = 4 := by
  obtain ⟨bl, hI, _⟩ := reach_inv hr
  obtain ⟨_, _, _, w, bl1, bl2, hbl, _, _, _⟩ := balloc_block hI hb hp
  have hbd := seg_mem_bounds hI.seg
    (by rw [hbl]; exact List.mem_append_right _ (List.mem_cons_self _ _))
  have := hI.start_mod
  omega

/-- Witness for C1: `balloc(20)` on the heap made by `init_heap(4096)` returns 4104. -/
theorem C1_balloc_aligned_witness :
    (4104 : Int) % 8 = 0 ∧ (4104 - exHeap.heap_start) % 8 = 4 :=
  C1_balloc_aligned exHeap (splitHeap exHeap 32 4100 4090) [] 2 20 4104
    (Reach.init exOS exProc ⟨1, exHeap⟩ 4096 exOS_sane (by rfl)) (by rfl) (by decide)

/-- C2: on a heap that satisfies the block-list invariant (as every reachable and every
well-formed state does), if `balloc(size)` with `size >= 1` returns a non-null `p`, then
afterwards the header at `p - 4` is readable and marked allocated, its size field `s`
satisfies `s - 4 >= size`, and `[p - 4, p - 4 + s)` lies inside
`[heap_start, heap_start + alloc_size)`. -/
theorem C2_balloc_payload (h h1 : Heap) (bl : List (Int × Int)) (fuel : Nat) (size p : Int)
    (hI : Inv h bl) (hs : 1 ≤ size) (hb : balloc fuel h size = some (h1, p)) (hp : p ≠ 0) :
    ∃ w, h1.load (p - 4) = some w ∧ w % 2 = 1 ∧ size ≤ shifted w - 4 ∧
      h1.heap_start = h.heap_start ∧ h1.alloc_size = h.alloc_size ∧
      h1.heap_start ≤ p - 4 ∧ p - 4 + shifted w ≤ h1.heap_start + h1.alloc_size := by
  obtain ⟨_, e1, e2, w, bl1, bl2, hbl, _, hfit, hmem⟩ := balloc_block hI hb hp
  obtain ⟨hn0, hn8, hn1, _⟩ := need_pos size hs
  have hbd := seg_mem_bounds hI.seg
    (by rw [hbl]; exact List.mem_append_right _ (List.mem_cons_self _ _))
  have hmap : h1.mapped (p - 4) := by
    have := mapped_of_inv hI hbd.1 (by omega) hbd.2.2.2.2.2
    unfold Heap.mapped at this ⊢
    rw [e1, e2]
    exact this
  have hsh : shifted (h1.mem (p - 4)) = blockSizeNeed size := by
    rw [hmem]; unfold shifted; split <;> omega
  refine ⟨h1.mem (p - 4), load_of_mapped hmap, ?_, ?_, e1, e2, ?_, ?_⟩
  · rw [hmem]; split <;> omega
  · omega
  · omega
  · omega

/-- Witness for C2: `balloc(20)` on the heap made by `init_heap(4096)`. -/
theorem C2_balloc_payload_witness :
    ∃ w, (splitHeap exHeap 32 4100 4090).load (4104 - 4) = some w ∧ w % 2 = 1 ∧
      20 ≤ shifted w - 4 ∧
      (splitHeap exHeap 32 4100 4090).heap_start = exHeap.heap_start ∧
      (splitHeap exHeap 32 4100 4090).alloc_size = exHeap.alloc_size ∧
      (splitHeap exHeap 32 4100 4090).heap_start ≤ 4104 - 4 ∧
      4104 - 4 + shifted w ≤
        (splitHeap exHeap 32 4100 4090).heap_start + (splitHeap exHeap 32 4100 4090).alloc_size :=
  C2_balloc_payload exHeap (splitHeap exHeap 32 4100 4090) (initBlocks exOS 4096) 2 20 4104
    (init_inv exOS_sane (by decide)) (by decide) (by rfl) (by decide)

/-- C3 (code at the failing input): for `size = 20` the code computes a block length of
32, not 24, and `balloc(20)` on the heap made by `init_heap(4096)` writes the header
`32 + 1 + 2 = 35` at the first block and starts the free remainder 32 bytes further. -/
theorem C3_block_length_at_20 :
    blockSizeNeed 20 = 32 ∧
      (balloc 2 exHeap 20).map (fun r => (r.2, r.1.mem 4100, r.1.mem 4132)) =
        some (4104, 35, 4058) := by
  decide

/-- C4 (code at the failing input): after `init_heap(2147479552)` the single free block
has 2147479544 bytes, `balloc(8)` needs 16 bytes, and yet the call returns null and leaves
the state as it was. -/
theorem C4_null_despite_fit :
    (initHeap exOS 2147479552).alloc_size = 2147479544 ∧
      (initHeap exOS 2147479552).mem 4100 = 2147479546 ∧
      blockSizeNeed 8 = 16 ∧
      balloc 3 (initHeap exOS 2147479552) 8 = some (initHeap exOS 2147479552, 0) :=
  ⟨by decide, by decide, by decide, by rfl⟩

/-- C5: for every heap state and every size, if `balloc(size)` returns null then the state
after the call is the state before it. -/
theorem C5_balloc_null_unchanged (h h1 : Heap) (fuel : Nat) (size : Int)
    (hb : balloc fuel h size = some (h1, 0)) : h1 = h := by
  unfold balloc at hb
  split at hb
  · simp only [Option.some.injEq, Prod.mk.injEq] at hb
    exact hb.1.symm
  · split at hb
    · simp at hb
    · rename_i h2 p hscan
      simp only [Option.some.injEq, Prod.mk.injEq] at hb
      have := ballocScan_returned_pos _ _ _ _ _ hscan
      omega
    · exact ballocFinish_null hb

/-- Witness for C5: `balloc(4084)` on the heap made by `init_heap(4096)` needs 4096 bytes,
scans the single free block of 4088 bytes and returns null. -/
theorem C5_balloc_null_unchanged_witness :
    balloc 3 exHeap 4084 = some (exHeap, 0) ∧ exHeap = exHeap :=
  ⟨by rfl, C5_balloc_null_unchanged exHeap exHeap 3 4084 (by rfl)⟩

theorem exHeapA_reach : Reach exHeapA [4104] :=
  Reach.balloc 2 20 exHeapA 4104
    (Reach.init exOS exProc ⟨1, exHeap⟩ 4096 exOS_sane (by rfl)) (by rfl)

/-- C8: no double use.  In every reachable state, a non-null pointer `p` returned by
`balloc` points to a block whose header at `p - 4` had its allocated bit clear before the
call, `p` is none of the live pointers (returned by an earlier `balloc` and not freed
since), and the byte range of the new block is disjoint from the block of every live
pointer. -/
theorem C8_no_double_use (h h1 : Heap) (live : List Int) (fuel : Nat) (size p : Int)
    (hr : Reach h live) (hb : balloc fuel h size = some (h1, p)) (hp : p ≠ 0) :
    (∃ w, h.load (p - 4) = some w ∧ w % 2 = 0) ∧ p ∉ live ∧
      ∀ q, q ∈ live →
        q - 4 + shifted (h.mem (q - 4)) ≤ p - 4 ∨ p - 4 + shifted (h1.mem (p - 4)) ≤ q - 4 := by
  obtain ⟨bl, hI, hlive⟩ := reach_inv hr
  obtain ⟨hs1, _, _, w, bl1, bl2, hbl, hfree, hfit, hmem⟩ := balloc_block hI hb hp
  subst hbl
  obtain ⟨hn0, hn8, _, _⟩ := need_pos size hs1
  have hbd := seg_mem_bounds hI.seg (List.mem_append_right bl1 (List.mem_cons_self _ bl2))
  have hmap : h.mapped (p - 4) := mapped_of_inv hI hbd.1 (by omega) hbd.2.2.2.2.2
  have hsh : shifted (h1.mem (p - 4)) = blockSizeNeed size := by
    rw [hmem]; unfold shifted; split <;> omega
  have hcase : ∀ q, q ∈ live → IsLive bl1 q ∨ IsLive bl2 q := by
    intro q hq
    rcases (isLive_old q).1 ((hlive q).1 hq) with ⟨_, hodd⟩ | h1q | h2q
    · exact absurd hfree hodd
    · exact Or.inl h1q
    · exact Or.inr h2q
  have hsides := fun q => isLive_sides hI.seg q
  refine ⟨⟨h.mem (p - 4), load_of_mapped hmap, by rw [hbd.2.2.1]; exact hfree⟩, ?_, ?_⟩
  · intro hq
    rcases hcase p hq with h1q | h2q
    · have := (hsides p).1 h1q
      have := (isLive_bounds (seg_split hI.seg).choose_spec.1 h1q).2.2.1
      omega
    · have := (hsides p).2 h2q
      omega
  · intro q hq
    rcases hcase q hq with h1q | h2q
    · exact Or.inl ((hsides q).1 h1q)
    · right
      have := (hsides q).2 h2q
      omega

/-- Witness for C8: a second `balloc(20)` after the first one returned 4104. -/
theorem C8_no_double_use_witness :
    (∃ w, exHeapA.load (4136 - 4) = some w ∧ w % 2 = 0) ∧ (4136 : Int) ∉ [(4104 : Int)] ∧
      ∀ q, q ∈ [(4104 : Int)] →
        q - 4 + shifted (exHeapA.mem (q - 4)) ≤ 4136 - 4 ∨
          4136 - 4 + shifted ((splitHeap exHeapA 32 4132 4058).mem (4136 - 4)) ≤ q - 4 :=
  C8_no_double_use exHeapA (splitHeap exHeapA 32 4132 4058) [4104] 3 20 4136
    exHeapA_reach (by rfl) (by decide)

/-- C9: in every reachable state, `bfree(p)` returns 0 for every live pointer `p`
(returned by an earlier `balloc` and not freed since). -/
theorem C9_live_pointer_freed (h : Heap) (live : List Int) (p : Int)
    (hr : Reach h live) (hp : p ∈ live) :
    bfree h p = some (freeHeap h (p - 4) (h.mem (p - 4)), 0) := by
  obtain ⟨bl, hI, hlive⟩ := reach_inv hr
  have hq := (hlive p).1 hp
  obtain ⟨hb1, hb2, hb3, hb4⟩ := isLive_bounds hI.seg hq
  obtain ⟨w, hm, _⟩ := hq
  have hb5 := seg_mem_bounds hI.seg hm
  have hsp := hI.start_pos
  have hsm := hI.start_mod
  have hmap : h.mapped (p - 4) := mapped_of_inv hI hb1 (by omega) hb5.2.2.2.2.2
  have hmn : h.mapped (p - 4 + shifted (h.mem (p - 4))) :=
    mapped_of_inv hI (by omega) hb2 (by rw [hb5.2.2.1]; omega)
  have h8 : shifted (h.mem (p - 4)) % 8 = 0 := by rw [hb5.2.2.1]; exact hb5.2.2.2.2.1
  exact bfree_run (by omega) (by omega) hmap hb4 hb1 (by omega) hmn

/-- Witness for C9: freeing the pointer 4104 returned by `balloc(20)`. -/
theorem C9_live_pointer_freed_witness :
    bfree exHeapA 4104 = some (freeHeap exHeapA (4104 - 4) (exHeapA.mem (4104 - 4)), 0) :=
  C9_live_pointer_freed exHeapA [4104] 4104 exHeapA_reach (by decide)

/-- C10: for every heap state and pointer, if `ptr` is null, or not a multiple of 8, or
the header before `ptr` is readable with its allocated bit 0, then `bfree(ptr)` returns -1
and the state (hence every header word) is the same after the call. -/
theorem C10_invalid_free (h : Heap) (ptr : Int)
    (hbad : ptr = 0 ∨ ptr % 8 ≠ 0 ∨ ∃ w, h.load (ptr - 4) = some w ∧ w % 2 = 0) :
    bfree h ptr = some (h, -1) := by
  unfold bfree
  by_cases h0 : ptr = 0
  · rw [if_pos h0]
  · rw [if_neg h0]
    dsimp only
    by_cases h8 : ptr % 8 = 0
    · rw [if_neg (by omega)]
      rcases hbad with hb | hb | ⟨w, hl, hw⟩
      · exact absurd hb h0
      · exact absurd h8 hb
      · rw [hl]
        dsimp only
        rw [if_pos (by omega)]
    · rw [if_pos (by omega)]

/-- Witness for C10: `bfree(4104)` on the fresh heap, whose first block is free. -/
theorem C10_invalid_free_witness : bfree exHeap 4104 = some (exHeap, -1) :=
  C10_invalid_free exHeap 4104 (Or.inr (Or.inr ⟨4090, by rfl, by decide⟩))

/-- With more fuel than blocks and the end mark at 1, the loop of `coalesce` returns the
replayed heap and the replayed number of merges. -/
theorem coalesceLoop_run :
    ∀ (fuel : Nat) (h : Heap) (pre post : List (Int × Int)) (curr counter : Int),
      Inv h (pre ++ post) → Seg h.mem h.heap_start pre curr →
      Seg h.mem curr post (h.heap_start + h.alloc_size) →
      h.mem (h.heap_start + h.alloc_size) = 1 → post.length < fuel →
      coalesceLoop fuel h curr counter =
        some (coalesceHeap h post, counter + mergeCount post) := by
  intro fuel
  induction fuel with
  | zero =>
    intro h pre post curr counter _ _ _ _ hf
    simp at hf
  | succ n ih =>
    intro h pre post curr counter hI hpre hpost hend hf
    have hsm := hI.start_mod
    have hle0 := seg_le hpre
    have hle1 := seg_le hpost
    have hmc : h.mapped curr := mapped_of_inv hI hle0.1 hle1.1 hle0.2
    have hme : h.mapped (h.heap_start + h.alloc_size) :=
      mapped_of_inv hI (by omega) (le_refl _) (by omega)
    match post, hI, hpost, hf with
    | [], hI, hpost, _ =>
      simp only [Seg] at hpost
      subst hpost
      unfold coalesceLoop
      rw [load_of_mapped hmc]
      dsimp only
      rw [if_pos hend]
      simp [coalesceHeap, mergeCount]
    | [(x, w)], hI, hpost, _ =>
      obtain ⟨hx, hw, hpos, hmod, hcl, hp, htl⟩ := hpost
      simp only [Seg] at htl
      subst hx
      have hne : w ≠ 1 := by unfold shifted at hpos; omega
      unfold coalesceLoop
      rw [load_of_mapped hmc, hw]
      dsimp only
      rw [if_neg hne, htl, load_of_mapped hme]
      dsimp only
      rw [if_pos hend]
      simp [coalesceHeap, mergeCount]
    | (x, w) :: (y, w2) :: rest, hI, hpost, hf =>
      obtain ⟨hx, hw, hpos, hmod, hcl, hp, hy, hw2, hpos2, hmod2, hcl2, hp2, htl⟩ := hpost
      subst hx
      simp only [List.length_cons] at hf
      have hle2 := seg_le htl
      have hne : w ≠ 1 := by unfold shifted at hpos; omega
      have hne2 : w2 ≠ 1 := by unfold shifted at hpos2; omega
      have hmn : h.mapped (x + shifted w) :=
        mapped_of_inv hI (by omega) (by omega) (by omega)
      have hpost0 : Seg h.mem x ((x, w) :: (y, w2) :: rest) (h.heap_start + h.alloc_size) :=
        ⟨rfl, hw, hpos, hmod, hcl, hp, hy, hw2, hpos2, hmod2, hcl2, hp2, htl⟩
      have hpost1 : Seg h.mem (x + shifted w) ((y, w2) :: rest) (h.heap_start + h.alloc_size) :=
        ⟨hy, hw2, hpos2, hmod2, hcl2, hp2, htl⟩
      unfold coalesceLoop
      rw [load_of_mapped hmc, hw]
      dsimp only
      rw [if_neg hne, load_of_mapped hmn, hw2]
      dsimp only
      rw [if_neg hne2]
      by_cases ho1 : w % 2 ≠ 0
      · rw [if_pos ho1]
        have hs1 := seg_snoc hpre hpost0
        rw [ih h (pre ++ [(x, w)]) ((y, w2) :: rest) _ counter
          (by simpa using hI) hs1.1 hs1.2 hend (by simp; omega)]
        simp [coalesceHeap, mergeCount, ho1]
      · rw [if_neg ho1]
        by_cases ho2 : w2 % 2 ≠ 0
        · rw [if_pos ho2]
          have hs1 := seg_snoc hpre hpost0
          have hy2 : y = x + shifted w := hy
          subst hy2
          have hs2 := seg_snoc hs1.1 hpost1
          rw [ih h (pre ++ [(x, w)] ++ [(x + shifted w, w2)]) rest _ counter
            (by simpa using hI) hs2.1 hs2.2 hend (by omega)]
          simp [coalesceHeap, mergeCount, ho1, ho2]
        · rw [if_neg ho2, store_of_mapped _ hmc]
          dsimp only
          rw [store_mk hmn]
          dsimp only
          have hIm : Inv (mergeHeap h x w w2) (pre ++ (x, w + shifted w2) :: rest) :=
            merge_inv hI (by omega)
          obtain ⟨c, hm1, hm2⟩ := seg_split hIm.seg
          have hcx : x = c := hm2.1
          subst hcx
          have hs1 := seg_snoc hm1 hm2
          have hmE : (mergeHeap h x w w2).mem (h.heap_start + h.alloc_size) = 1 := by
            have e1 : h.heap_start + h.alloc_size ≠ x := by omega
            have e2 : h.heap_start + h.alloc_size ≠ x + shifted w := by omega
            simp [mergeHeap, write, e1, e2, hend]
          have := ih (mergeHeap h x w w2) (pre ++ [(x, w + shifted w2)]) rest _
            (counter + 1) (by simpa using hIm) hs1.1 hs1.2 hmE (by omega)
          rw [show (Heap.mk h.heap_start h.alloc_size
              (write (write h.mem x (w + shifted w2)) (x + shifted w) 0)) = mergeHeap h x w w2
            from rfl, this]
          simp [coalesceHeap, mergeCount, ho1, ho2]
          ring

theorem adjFree_cons {bl : List (Int × Int)} (b : Int × Int) (ha : AdjFree bl) :
    AdjFree (b :: bl) := by
  obtain ⟨pre, x, w, y, w2, rest, hbl, h1, h2⟩ := ha
  exact ⟨b :: pre, x, w, y, w2, rest, by rw [hbl]; rfl, h1, h2⟩

theorem adjFree_append {bl : List (Int × Int)} (pre : List (Int × Int)) (ha : AdjFree bl) :
    AdjFree (pre ++ bl) := by
  induction pre with
  | nil => exact ha
  | cons b t ih => exact adjFree_cons b ih

theorem adjFree_cons_inv {x w y w2 : Int} {rest : List (Int × Int)}
    (ha : AdjFree ((x, w) :: (y, w2) :: rest)) :
    (w % 2 = 0 ∧ w2 % 2 = 0) ∨ AdjFree ((y, w2) :: rest) := by
  obtain ⟨pre, x1, w1, y1, w3, rest1, hbl, h1, h2⟩ := ha
  cases pre with
  | nil =>
    simp only [List.nil_append, List.cons.injEq, Prod.mk.injEq] at hbl
    obtain ⟨⟨_, rfl⟩, ⟨_, rfl⟩, _⟩ := hbl
    exact Or.inl ⟨h1, h2⟩
  | cons b t =>
    simp only [List.cons_append, List.cons.injEq] at hbl
    exact Or.inr ⟨t, x1, w1, y1, w3, rest1, hbl.2, h1, h2⟩

theorem adjFree_single (b : Int × Int) : ¬ AdjFree [b] := by
  rintro ⟨pre, x, w, y, w2, rest, hbl, _, _⟩
  have := congrArg List.length hbl
  simp at this
  omega

theorem adjFree_nil : ¬ AdjFree [] := by
  rintro ⟨pre, x, w, y, w2, rest, hbl, _, _⟩
  have := congrArg List.length hbl
  simp at this
  omega

theorem mergeCount_nonneg : ∀ (n : Nat) (bl : List (Int × Int)), bl.length ≤ n →
    0 ≤ mergeCount bl := by
  intro n
  induction n with
  | zero =>
    intro bl hl
    have : bl = [] := List.length_eq_zero.1 (by omega)
    subst this
    simp [mergeCount]
  | succ n ih =>
    intro bl hl
    match bl, hl with
    | [], _ => simp [mergeCount]
    | [_], _ => simp [mergeCount]
    | (x, w) :: (y, w2) :: rest, hl =>
      simp only [List.length_cons] at hl
      unfold mergeCount
      split
      · exact ih _ (by simp; omega)
      · split
        · exact ih _ (by omega)
        · have := ih rest (by omega)
          omega

/-- The pass of `coalesce` performs a merge exactly when two adjacent blocks are free. -/
theorem mergeCount_pos_iff : ∀ (n : Nat) (bl : List (Int × Int)), bl.length ≤ n →
    (1 ≤ mergeCount bl ↔ AdjFree bl) := by
  intro n
  induction n with
  | zero =>
    intro bl hl
    have : bl = [] := List.length_eq_zero.1 (by omega)
    subst this
    simp [mergeCount, adjFree_nil]
  | succ n ih =>
    intro bl hl
    match bl, hl with
    | [], _ => simp [mergeCount, adjFree_nil]
    | [b], _ => simp [mergeCount, adjFree_single]
    | (x, w) :: (y, w2) :: rest, hl =>
      simp only [List.length_cons] at hl
      unfold mergeCount
      by_cases ho1 : w % 2 ≠ 0
      · rw [if_pos ho1, ih _ (by simp; omega)]
        constructor
        · exact adjFree_cons _
        · intro ha
          rcases adjFree_cons_inv ha with ⟨h1, _⟩ | h1
          · exact absurd h1 ho1
          · exact h1
      · rw [if_neg ho1]
        by_cases ho2 : w2 % 2 ≠ 0
        · rw [if_pos ho2, ih _ (by omega)]
          constructor
          · exact fun ha => adjFree_cons _ (adjFree_cons _ ha)
          · intro ha
            rcases adjFree_cons_inv ha with ⟨_, h2⟩ | h1
            · exact absurd h2 ho2
            · cases rest with
              | nil => exact absurd h1 (adjFree_single _)
              | cons c t =>
                obtain ⟨z, w3⟩ := c
                rcases adjFree_cons_inv h1 with ⟨h2, _⟩ | h3
                · exact absurd h2 ho2
                · exact h3
        · rw [if_neg ho2]
          have := mergeCount_nonneg rest.length rest (le_refl _)
          constructor
          · intro _
            exact ⟨[], x, w, y, w2, rest, rfl, by omega, by omega⟩
          · intro _; omega

/-- Without a merge the pass of `coalesce` changes neither the heap nor the block list. -/
theorem coalesce_noop (h : Heap) : ∀ (n : Nat) (bl : List (Int × Int)), bl.length ≤ n →
    mergeCount bl < 1 → coalesceHeap h bl = h ∧ coalesceList bl = bl := by
  intro n
  induction n with
  | zero =>
    intro bl hl _
    have : bl = [] := List.length_eq_zero.1 (by omega)
    subst this
    exact ⟨rfl, rfl⟩
  | succ n ih =>
    intro bl hl hm
    match bl, hl, hm with
    | [], _, _ => exact ⟨rfl, rfl⟩
    | [b], _, _ => exact ⟨rfl, rfl⟩
    | (x, w) :: (y, w2) :: rest, hl, hm =>
      simp only [List.length_cons] at hl
      unfold mergeCount at hm
      unfold coalesceHeap coalesceList
      by_cases ho1 : w % 2 ≠ 0
      · rw [if_pos ho1] at hm
        rw [if_pos ho1, if_pos ho1]
        have := ih _ (by simp; omega) hm
        exact ⟨this.1, by rw [this.2]⟩
      · rw [if_neg ho1] at hm
        rw [if_neg ho1, if_neg ho1]
        by_cases ho2 : w2 % 2 ≠ 0
        · rw [if_pos ho2] at hm
          rw [if_pos ho2, if_pos ho2]
          have := ih _ (by omega) hm
          exact ⟨this.1, by rw [this.2]⟩
        · rw [if_neg ho2] at hm
          have := mergeCount_nonneg rest.length rest (le_refl _)
          omega

theorem seg_sum {m : Int → Int} {bl : List (Int × Int)} {a b : Int} (hs : Seg m a bl b) :
    (sizes bl).sum = b - a := by
  induction bl generalizing a with
  | nil => simp only [Seg] at hs; subst hs; simp [sizes]
  | cons c bl ih =>
    obtain ⟨x, w⟩ := c
    obtain ⟨_, _, _, _, _, _, htl⟩ := hs
    have := ih htl
    simp only [sizes, List.map_cons, List.sum_cons] at this ⊢
    omega

theorem used_free_sum (bl : List (Int × Int)) : usedSum bl + freeSum bl = (sizes bl).sum := by
  induction bl with
  | nil => rfl
  | cons c bl ih =>
    obtain ⟨x, w⟩ := c
    simp only [usedSum, freeSum, sizes, List.map_cons, List.sum_cons] at ih ⊢
    split <;> omega

/-- A tiled segment determines its block list. -/
theorem seg_unique {m : Int → Int} {bl bl1 : List (Int × Int)} {a b : Int}
    (hs : Seg m a bl b) (hs1 : Seg m a bl1 b) : bl = bl1 := by
  induction bl generalizing a bl1 with
  | nil =>
    simp only [Seg] at hs
    subst hs
    exact (seg_nil_of_eq hs1).symm
  | cons c bl ih =>
    obtain ⟨x, w⟩ := c
    obtain ⟨hx, hw, hpos, _, _, _, htl⟩ := hs
    cases bl1 with
    | nil =>
      simp only [Seg] at hs1
      have := (seg_le htl).1
      omega
    | cons c1 bl1 =>
      obtain ⟨x1, w1⟩ := c1
      obtain ⟨hx1, hw1, _, _, _, _, htl1⟩ := hs1
      have e1 : w = w1 := by rw [← hw, ← hw1]
      subst e1
      rw [hx, hx1, ih htl htl1]

theorem dispLoop_stuck (h : Heap) (e : Int)
    (hm : h.mem e = 0 ∨ h.mem e = 2 ∨ h.mem e = 3) :
    ∀ (fuel : Nat) (rows : List DispRow) (u f : Int), dispLoop fuel h e rows u f = none := by
  intro fuel
  induction fuel with
  | zero => intro rows u f; rfl
  | succ n ih =>
    intro rows u f
    unfold dispLoop
    cases hl : h.load e with
    | none => rfl
    | some w =>
      obtain ⟨_, hw⟩ := load_some hl
      subst hw
      have hne : h.mem e ≠ 1 := by omega
      dsimp only
      rw [if_neg hne]
      rcases hm with hm | hm | hm <;> rw [hm] <;> simp <;> exact ih _ _ _

/-- The size `disp_heap` computes for a header word is the word without its two flag bits. -/
theorem disp_size (w : Int) :
    (if decide ((if decide (w % 2 ≠ 0) then w - 1 else w) / 2 % 2 ≠ 0) = true
      then (if decide (w % 2 ≠ 0) then w - 1 else w) - 2
      else (if decide (w % 2 ≠ 0) then w - 1 else w)) = shifted w := by
  unfold shifted
  by_cases h1 : w % 2 = 0
  · by_cases h2 : w / 2 % 2 = 0
    · simp [h1, h2]; omega
    · simp [h1, h2]; omega
  · by_cases h2 : (w - 1) / 2 % 2 = 0
    · simp [h1, h2]; omega
    · simp [h1, h2]; omega

theorem disp_pbit (w : Int) :
    decide ((if decide (w % 2 ≠ 0) then w - 1 else w) / 2 % 2 ≠ 0) = decide (w / 2 % 2 ≠ 0) := by
  by_cases h1 : w % 2 = 0
  · simp [h1]
  · have : (w - 1) / 2 = w / 2 := by omega
    simp [h1, this]

/-- On a tiled heap the loop of `disp_heap` returns exactly when the end mark is 1 and the
fuel exceeds the number of blocks; it then has printed one row per block and added every
block size to one of the two totals. -/
theorem dispLoop_seg {h : Heap} {bl0 : List (Int × Int)} (hI : Inv h bl0)
    {bl : List (Int × Int)} :
    ∀ (a : Int), Seg h.mem a bl (h.heap_start + h.alloc_size) → h.heap_start ≤ a →
      (a - h.heap_start) % 8 = 0 →
      ∀ (fuel : Nat) (rows : List DispRow) (u f : Int),
        dispLoop fuel h a rows u f =
          if bl.length < fuel ∧ h.mem (h.heap_start + h.alloc_size) = 1 then
            some (rows ++ bl.map dispRowOf, u + usedSum bl, f + freeSum bl)
          else none := by
  induction bl with
  | nil =>
    intro a hseg ha ha8 fuel rows u f
    simp only [Seg] at hseg
    subst hseg
    cases fuel with
    | zero => simp [dispLoop]
    | succ n =>
      by_cases h1 : h.mem (h.heap_start + h.alloc_size) = 1
      · unfold dispLoop
        rw [load_of_mapped (mapped_of_inv hI ha (le_refl _) ha8)]
        dsimp only
        rw [if_pos h1]
        simp [h1, usedSum, freeSum]
      · have := hI.end_lo
        have := hI.end_hi
        rw [dispLoop_stuck h _ (by omega)]
        simp [h1]
  | cons d bl ih =>
    intro a hseg ha ha8 fuel rows u f
    obtain ⟨x, w⟩ := d
    obtain ⟨hx, hw, hpos, hmod, hcl, hp, htl⟩ := hseg
    subst hx
    have hle := seg_le htl
    have hmx : h.mapped x := mapped_of_inv hI ha (by omega) ha8
    cases fuel with
    | zero => simp [dispLoop]
    | succ n =>
      have hne : w ≠ 1 := by unfold shifted at hpos; omega
      unfold dispLoop
      rw [load_of_mapped hmx, hw]
      dsimp only
      rw [if_neg hne, disp_size w, disp_pbit w, ih _ htl (by omega) (by omega)]
      have e1 : (bl.length < n ∧ h.mem (h.heap_start + h.alloc_size) = 1) ↔
          (((x, w) :: bl).length < n + 1 ∧ h.mem (h.heap_start + h.alloc_size) = 1) := by
        simp only [List.length_cons]
        constructor
        · rintro ⟨h1, h2⟩; exact ⟨by omega, h2⟩
        · rintro ⟨h1, h2⟩; exact ⟨by omega, h2⟩
      by_cases hc : bl.length < n ∧ h.mem (h.heap_start + h.alloc_size) = 1
      · rw [if_pos hc, if_pos (e1.1 hc)]
        by_cases hodd : w % 2 ≠ 0
        · simp [usedSum, freeSum, dispRowOf, hodd]
          try ring
        · simp [usedSum, freeSum, dispRowOf, hodd]
          try ring
      · rw [if_neg hc, if_neg (fun h0 => hc (e1.2 h0))]

/-- The function `bfree` succeeds on the payload pointer of an allocated block of the list. -/
theorem bfree_block_run {h : Heap} {bl1 bl2 : List (Int × Int)} {x w : Int}
    (hI : Inv h (bl1 ++ (x, w) :: bl2)) (hodd : w % 2 ≠ 0) :
    bfree h (x + 4) = some (freeHeap h x w, 0) := by
  have hb := seg_mem_bounds hI.seg (List.mem_append_right bl1 (List.mem_cons_self _ bl2))
  obtain ⟨hb1, hb2, hb3, hb4, hb5, hb6⟩ := hb
  have hsp := hI.start_pos
  have hsm := hI.start_mod
  have hxx : x + 4 - 4 = x := by ring
  have hmap : h.mapped x := mapped_of_inv hI hb1 (by omega) hb6
  have hmn : h.mapped (x + shifted w) := mapped_of_inv hI (by omega) hb2 (by omega)
  have := @bfree_run h (x + 4) (by omega) (by omega) (by rw [hxx]; exact hmap)
    (by rw [hxx, hb3]; exact hodd) (by omega) (by omega) (by rw [hxx, hb3]; exact hmn)
  rw [hxx, hb3] at this
  exact this

/-- The word that follows a block of the list is not negative. -/
theorem seg_next_nonneg {h : Heap} {bl1 bl2 : List (Int × Int)} {x w : Int}
    (hI : Inv h (bl1 ++ (x, w) :: bl2)) : 0 ≤ h.mem (x + shifted w) := by
  obtain ⟨c, _, h2⟩ := seg_split hI.seg
  obtain ⟨hc, _, _, _, _, _, htl⟩ := h2
  subst hc
  cases bl2 with
  | nil =>
    simp only [Seg] at htl
    rw [htl]
    exact hI.end_lo
  | cons d t =>
    obtain ⟨y, u⟩ := d
    obtain ⟨_, hu, hpos, _⟩ := htl
    rw [hu]
    unfold shifted at hpos
    omega

/-- Freeing a block right after a perfect-fit allocation restores every word. -/
theorem free_perfect_restores {h : Heap} {bl1 bl2 : List (Int × Int)} {x w : Int}
    (hI : Inv h (bl1 ++ (x, w) :: bl2)) (hfree : w % 2 = 0) :
    freeHeap (perfectHeap h x w) x (shifted w + 1 + (if w / 2 % 2 ≠ 0 then 2 else 0)) = h := by
  obtain ⟨c, _, h2⟩ := seg_split hI.seg
  obtain ⟨hc, hw, hpos, _, _, hpw, _⟩ := h2
  subst hc
  have hpn := hpw hfree
  have hnn := seg_next_nonneg hI
  have hne : x + shifted w ≠ x := by omega
  have hv : shifted w + 1 + (if w / 2 % 2 ≠ 0 then 2 else 0) - 1 = w := by
    unfold shifted; split <;> omega
  have hcp : clearP (h.mem (x + shifted w) + 2) = h.mem (x + shifted w) := by
    unfold clearP
    rw [if_pos ⟨by omega, by omega⟩]
    omega
  obtain ⟨hs, sz, m⟩ := h
  simp only [freeHeap, perfectHeap, shifted_allocWord, hv]
  congr 1
  funext y
  simp only [write] at hcp hw ⊢
  by_cases hy1 : y = x + shifted w
  · subst hy1
    simp only [if_true, if_neg hne]
    exact hcp
  · by_cases hy2 : y = x
    · subst hy2
      simp only [if_neg hy1, if_true]
      exact hw.symm
    · simp only [if_neg hy1, if_neg hy2]

/-- Pure list form of the round trip: when no two adjacent blocks were free, the pass of
`coalesce` merges the freed block with the remainder of the split and nothing else. -/
theorem coalesceList_roundtrip : ∀ (n : Nat) (bl1 : List (Int × Int)), bl1.length ≤ n →
    ∀ (x a y r w : Int) (bl2 : List (Int × Int)), ¬ AdjFree (bl1 ++ (x, w) :: bl2) →
      w % 2 = 0 → a % 2 = 0 → r % 2 = 0 →
      coalesceList (bl1 ++ (x, a) :: (y, r) :: bl2) = bl1 ++ (x, a + shifted r) :: bl2 := by
  intro n
  induction n with
  | zero =>
    intro bl1 hl x a y r w bl2 hna hw ha hr
    have : bl1 = [] := List.length_eq_zero.1 (by omega)
    subst this
    have hna2 : ¬ AdjFree bl2 := fun h0 => hna (adjFree_cons _ h0)
    have hmc : mergeCount bl2 < 1 := by
      have := (mergeCount_pos_iff bl2.length bl2 (le_refl _)).not.2 hna2
      omega
    simp only [List.nil_append]
    unfold coalesceList
    rw [if_neg (by omega), if_neg (by omega), (coalesce_noop ⟨0, 0, fun _ => 0⟩ _ bl2 (le_refl _) hmc).2]
  | succ n ih =>
    intro bl1 hl x a y r w bl2 hna hw ha hr
    match bl1, hl, hna with
    | [], _, hna => exact ih [] (by simp) x a y r w bl2 hna hw ha hr
    | [(q, wq)], _, hna =>
      have hq : wq % 2 ≠ 0 := by
        intro h0
        exact hna ⟨[], q, wq, x, w, bl2, rfl, h0, hw⟩
      have hna2 : ¬ AdjFree ([] ++ (x, w) :: bl2) := fun h0 => hna (adjFree_cons _ h0)
      have := ih [] (by simp) x a y r w bl2 hna2 hw ha hr
      simp only [List.nil_append] at this
      show coalesceList ((q, wq) :: (x, a) :: (y, r) :: bl2) = _
      unfold coalesceList
      rw [if_pos hq, this]
      rfl
    | (q1, w1) :: (q2, w2) :: t, hl, hna =>
      simp only [List.length_cons] at hl
      show coalesceList ((q1, w1) :: (q2, w2) :: (t ++ (x, a) :: (y, r) :: bl2)) = _
      unfold coalesceList
      by_cases ho1 : w1 % 2 ≠ 0
      · have hna2 : ¬ AdjFree (((q2, w2) :: t) ++ (x, w) :: bl2) :=
          fun h0 => hna (adjFree_cons _ h0)
        have := ih ((q2, w2) :: t) (by simp; omega) x a y r w bl2 hna2 hw ha hr
        rw [if_pos ho1]
        simp only [List.cons_append] at this
        rw [this]
        rfl
      · have ho2 : w2 % 2 ≠ 0 := by
          intro h0
          exact hna ⟨[], q1, w1, q2, w2, t ++ (x, w) :: bl2, rfl, by omega, h0⟩
        have hna2 : ¬ AdjFree (t ++ (x, w) :: bl2) :=
          fun h0 => hna (adjFree_cons _ (adjFree_cons _ h0))
        have := ih t (by omega) x a y r w bl2 hna2 hw ha hr
        rw [if_neg ho1, if_pos ho2, this]
        rfl

theorem exHeapB_reach : Reach exHeapB [4200, 4168, 4136, 4104] :=
  Reach.balloc 5 20 exHeapB 4200
    (Reach.balloc 4 20 (splitHeap (splitHeap exHeapA 32 4132 4058) 32 4164 4026) 4168
      (Reach.balloc 3 20 (splitHeap exHeapA 32 4132 4058) 4136 exHeapA_reach (by rfl))
      (by rfl))
    (by rfl)

theorem exHeapF_reach : Reach exHeapF [4200] :=
  Reach.bfree 4168 exHeapF 0
    (Reach.bfree 4136 (freeHeap (freeHeap exHeapB 4100 35) 4132 33) 0
      (Reach.bfree 4104 (freeHeap exHeapB 4100 35) 0 exHeapB_reach (by rfl))
      (by rfl))
    (by rfl)

theorem exHeap_wf : WellFormed exHeap (initBlocks exOS 4096) :=
  ⟨init_inv exOS_sane (by decide), by decide⟩

/-- On a well-formed heap without two adjacent free blocks, `coalesce()` returns 0 and
changes nothing. -/
theorem coalesce_run_noop {h : Heap} {bl : List (Int × Int)} {fuel : Nat}
    (hW : WellFormed h bl) (hna : ¬ AdjFree bl) (hf : bl.length < fuel) :
    coalesce fuel h = some (h, 0) := by
  obtain ⟨hI, hend⟩ := hW
  have hrun := coalesceLoop_run fuel h [] bl h.heap_start 0 (by simpa using hI) rfl hI.seg
    hend hf
  have hm : mergeCount bl < 1 := by
    have := (mergeCount_pos_iff bl.length bl (le_refl _)).not.2 hna
    omega
  have hz : mergeCount bl = 0 := by
    have := mergeCount_nonneg bl.length bl (le_refl _)
    omega
  unfold coalesce
  rw [hrun, (coalesce_noop h _ bl (le_refl _) hm).1, hz]
  simp

/-- The state after `balloc` split the block `(x, w)` and `bfree` released the new block. -/
theorem free_split_inv {h : Heap} {bl1 bl2 : List (Int × Int)} {need x w : Int}
    (hI : Inv h (bl1 ++ (x, w) :: bl2)) (hfree : w % 2 = 0)
    (hneed : 0 < need) (hneed8 : need % 8 = 0) (hfit : need < shifted w) :
    Inv (freeHeap (splitHeap h need x w) x (need + 1 + (if w / 2 % 2 ≠ 0 then 2 else 0)))
        (bl1 ++ (x, need + (if w / 2 % 2 ≠ 0 then 2 else 0)) ::
          (x + need, shifted w - need) :: bl2) ∧
      (freeHeap (splitHeap h need x w) x
        (need + 1 + (if w / 2 % 2 ≠ 0 then 2 else 0))).mem (h.heap_start + h.alloc_size) =
        h.mem (h.heap_start + h.alloc_size) := by
  have h1 := split_inv hI hfree hneed hneed8 hfit
  have hodd : (need + 1 + (if w / 2 % 2 ≠ 0 then 2 else 0)) % 2 ≠ 0 := by split <;> omega
  have h2 := free_block_inv h1 hodd
  have hb := seg_mem_bounds hI.seg (List.mem_append_right bl1 (List.mem_cons_self _ bl2))
  have e1 : need + 1 + (if w / 2 % 2 ≠ 0 then 2 else 0) - 1 =
      need + (if w / 2 % 2 ≠ 0 then 2 else 0) := by ring
  have e2 : clearP (shifted w - need + 2) = shifted w - need := by
    unfold clearP
    rw [if_pos ⟨by omega, by omega⟩]
    ring
  have hsh : shifted (need + 1 + (if w / 2 % 2 ≠ 0 then 2 else 0)) = need := by
    unfold shifted; split <;> omega
  simp only [mapHead, e1, e2] at h2
  refine ⟨h2, ?_⟩
  have n1 : h.heap_start + h.alloc_size ≠ x := by omega
  have n2 : h.heap_start + h.alloc_size ≠ x + need := by omega
  simp only [freeHeap, splitHeap, hsh, write, if_neg n1, if_neg n2]

theorem exHeapA_wf : WellFormed exHeapA [(4100, 35), (4132, 4058)] :=
  ⟨@split_inv exHeap [] [] 32 4100 4090 (init_inv exOS_sane (by decide)) (by decide) (by decide)
    (by decide) (by decide), by decide⟩

/-- C11 (code): on every well-formed heap of at least 16 usable bytes, `bfree` of the
address right after the end mark passes the bounds test (`heap_start + alloc_size - 8` is
pointer arithmetic on 4-byte headers), returns 0 and leaves 0 in the end mark. -/
theorem C11_free_end_mark (h : Heap) (bl : List (Int × Int)) (hW : WellFormed h bl)
    (hL : 16 ≤ h.alloc_size) :
    bfree h (h.heap_start + h.alloc_size + 4) =
        some (freeHeap h (h.heap_start + h.alloc_size) 1, 0) ∧
      (freeHeap h (h.heap_start + h.alloc_size) 1).mem (h.heap_start + h.alloc_size) = 0 := by
  obtain ⟨hI, hend⟩ := hW
  have hsp := hI.start_pos
  have hsm := hI.start_mod
  have hsz := seg_le hI.seg
  have hme : h.mapped (h.heap_start + h.alloc_size) :=
    mapped_of_inv hI (by omega) (le_refl _) (by omega)
  have hxx : h.heap_start + h.alloc_size + 4 - 4 = h.heap_start + h.alloc_size := by ring
  have hs1 : shifted 1 = 0 := by decide
  have hrun := @bfree_run h (h.heap_start + h.alloc_size + 4) (by omega) (by omega)
    (by rw [hxx]; exact hme) (by rw [hxx, hend]; decide) (by omega) (by omega)
    (by rw [hxx, hend, hs1, add_zero]; exact hme)
  rw [hxx, hend] at hrun
  refine ⟨hrun, ?_⟩
  have := (free_end_inv hI (by rw [hend]; decide)).2
  rw [hend] at this
  exact this

/-- Witness for C11: `bfree(8192)` on the heap made by `init_heap(4096)`, whose end mark
is at 8188. -/
theorem C11_free_end_mark_witness :
    bfree exHeap (exHeap.heap_start + exHeap.alloc_size + 4) =
        some (freeHeap exHeap (exHeap.heap_start + exHeap.alloc_size) 1, 0) ∧
      (freeHeap exHeap (exHeap.heap_start + exHeap.alloc_size) 1).mem
        (exHeap.heap_start + exHeap.alloc_size) = 0 :=
  C11_free_end_mark exHeap (initBlocks exOS 4096) exHeap_wf (by decide)

/-- C12 (code at the failing input): on the well-formed heap after `init_heap(4096)` and
`balloc(20)`, `bfree(8192)` returns 0 although 8192 - 4 is the end mark and no block; the
end mark changes from 1 to 0, while both block headers stay as they were. -/
theorem C12_free_changes_end_mark :
    WellFormed exHeapA [(4100, 35), (4132, 4058)] ∧ exHeapA.mem 8188 = 1 ∧
      (bfree exHeapA 8192).map (fun r => (r.2, r.1.mem 8188, r.1.mem 4100, r.1.mem 4132)) =
        some (0, 0, 35, 4058) :=
  ⟨exHeapA_wf, by decide, by decide⟩

/-- C13 (code at the failing input): after `init_heap(4096)` and `p = balloc(20)`, the call
`bfree(p)` returns 0 and frees the 32-byte block at 4100 (header 34), but the last word of
that block, at 4128, holds 0 and not 32: no footer is written. -/
theorem C13_free_writes_no_footer :
    (balloc 2 exHeap 20).map (fun r => r.2) = some 4104 ∧
      (bfree exHeapA 4104).map (fun r => (r.2, r.1.mem 4100, r.1.mem (4100 + 32 - 4))) =
        some (0, 34, 0) :=
  ⟨by decide, by decide⟩

/-- C15 (code at the failing input): the heap `exHeapF`, reached by `init_heap(4096)`,
four `balloc(20)` and `bfree` of the first three pointers, has three adjacent free blocks
of 32 bytes.  One `coalesce()` returns 1 and leaves a free block of 64 bytes at 4100
directly followed by a free block of 32 bytes at 4164. -/
theorem C15_free_run_not_merged :
    (disp_heap 10 exHeapF).map (fun r => r.1.map (fun d => (d.used, d.t_begin, d.t_size))) =
        some [(false, 4100, 32), (false, 4132, 32), (false, 4164, 32), (true, 4196, 32),
          (false, 4228, 3960)] ∧
      (coalesce 10 exHeapF).map (fun r => r.2) = some 1 ∧
      ((coalesce 10 exHeapF).bind (fun r => disp_heap 10 r.1)).map
          (fun r => r.1.map (fun d => (d.used, d.t_begin, d.t_size))) =
        some [(false, 4100, 64), (false, 4164, 32), (true, 4196, 32), (false, 4228, 3960)] :=
  ⟨by decide, by decide, by decide⟩

/-- C16 (code at the failing input): on the heap `exHeapF` with three adjacent free blocks,
a second `coalesce()` right after the first returns 1 again and changes the heap: the
first block grows from 64 to 96 bytes. -/
theorem C16_second_coalesce_merges :
    (coalesce 10 exHeapF).map (fun r => (r.2, r.1.mem 4100)) = some (1, 66) ∧
      ((coalesce 10 exHeapF).bind (fun r => coalesce 10 r.1)).map
        (fun r => (r.2, r.1.mem 4100)) = some (1, 98) :=
  ⟨by decide, by decide⟩

/-- C17: in every reachable state the blocks tile the usable region: there is exactly one
block list from `heap_start` to `heap_start + alloc_size`, the sum of its size fields is
`alloc_size`, and whenever `disp_heap` returns, its two totals add up to `alloc_size`. -/
theorem C17_conservation (h : Heap) (live : List Int) (hr : Reach h live) :
    (∃ bl, Seg h.mem h.heap_start bl (h.heap_start + h.alloc_size) ∧
      (sizes bl).sum = h.alloc_size ∧
      ∀ bl1, Seg h.mem h.heap_start bl1 (h.heap_start + h.alloc_size) → bl1 = bl) ∧
    ∀ fuel rows u f, disp_heap fuel h = some (rows, u, f) → u + f = h.alloc_size := by
  obtain ⟨bl, hI, _⟩ := reach_inv hr
  have hsum : (sizes bl).sum = h.alloc_size := by
    rw [seg_sum hI.seg]; ring
  refine ⟨⟨bl, hI.seg, hsum, fun bl1 h1 => seg_unique h1 hI.seg⟩, ?_⟩
  intro fuel rows u f hd
  unfold disp_heap at hd
  rw [dispLoop_seg hI _ hI.seg (le_refl _) (by simp)] at hd
  split at hd
  · simp only [Option.some.injEq, Prod.mk.injEq] at hd
    obtain ⟨_, rfl, rfl⟩ := hd
    have := used_free_sum bl
    omega
  · simp at hd

/-- Witness for C17: the heap after `init_heap(4096)` and `balloc(20)`. -/
theorem C17_conservation_witness :
    (∃ bl, Seg exHeapA.mem exHeapA.heap_start bl (exHeapA.heap_start + exHeapA.alloc_size) ∧
      (sizes bl).sum = exHeapA.alloc_size ∧
      ∀ bl1, Seg exHeapA.mem exHeapA.heap_start bl1
        (exHeapA.heap_start + exHeapA.alloc_size) → bl1 = bl) ∧
    ∀ fuel rows u f, disp_heap fuel exHeapA = some (rows, u, f) → u + f = exHeapA.alloc_size :=
  C17_conservation exHeapA [4104] exHeapA_reach

/-- On a well-formed heap `coalesce()` returns, given more fuel than blocks. -/
theorem coalesce_returns {h : Heap} {bl : List (Int × Int)} {fuel : Nat}
    (hW : WellFormed h bl) (hf : bl.length < fuel) :
    ∃ h3 r, coalesce fuel h = some (h3, r) := by
  obtain ⟨hI, hend⟩ := hW
  have hrun := coalesceLoop_run fuel h [] bl h.heap_start 0 (by simpa using hI) rfl hI.seg
    hend hf
  unfold coalesce
  rw [hrun]
  dsimp only
  split
  · exact ⟨_, _, rfl⟩
  · exact ⟨_, _, rfl⟩

/-- C19 (code at the failing input): after `init_heap(4096)`, `balloc(4080)` is a perfect
fit for the single block; it leaves that block allocated (header 4091) and the end mark
at 3, so no free block remains, and then `balloc(1)` never returns: the scan loop has no
result for any amount of fuel. -/
theorem C19_exhausted_scan_never_ends :
    balloc 3 exHeap 4080 = some (exHeapFull, 4104) ∧ exHeapFull.mem 4100 = 4091 ∧
      exHeapFull.mem (exHeapFull.heap_start + exHeapFull.alloc_size) = 3 ∧
      ∀ fuel, balloc fuel exHeapFull 1 = none := by
  refine ⟨by rfl, by decide, by decide, ?_⟩
  intro fuel
  have hst := @ballocScan_stuck (blockSizeNeed 1) (by decide) exHeapFull 8188
    (Or.inr (Or.inr (by decide)))
  unfold balloc
  rw [if_neg (by decide)]
  cases fuel with
  | zero => rfl
  | succ k =>
    have : ballocScan (blockSizeNeed 1) (k + 1) exHeapFull exHeapFull.heap_start Scan.start =
        ballocScan (blockSizeNeed 1) k exHeapFull 8188 Scan.start := by
      conv_lhs => unfold ballocScan
      rfl
    rw [this, hst]

/-- C20 (counterexample): a first call `init_heap(0)` returns -1 and a second call
`init_heap(4096)` then returns 0; likewise after a first call whose mapping fails, which
also changes `alloc_size`. -/
theorem C20_counterexample :
    init_heap exOS exProc 0 = some (exProc, -1) ∧
      init_heap exOS exProc 4096 = some (⟨1, exHeap⟩, 0) ∧
      (init_heap ⟨4096, 3, -1⟩ exProc 4096).map
          (fun r => (r.2, r.1.allocated_once, r.1.heap.alloc_size)) = some (-1, 0, 4096) ∧
      ((init_heap ⟨4096, 3, -1⟩ exProc 4096).bind (fun r => init_heap exOS r.1 4096)).map
          (fun r => r.2) = some 0 :=
  ⟨by rfl, by rfl, by decide, by decide⟩

/-- C20 (amended): once a call of `init_heap` has returned 0, every later call returns -1
and leaves the allocator state unchanged; a call made while the guard is set does the
same; and a call that returns -1 while the guard is clear leaves the guard clear. -/
theorem C20_one_shot_after_success (os : OS) (p p1 : Proc) (r rv : Int)
    (hi : init_heap os p r = some (p1, rv)) :
    (rv = 0 → ∀ os2 r2, init_heap os2 p1 r2 = some (p1, -1)) ∧
      (p.allocated_once ≠ 0 → rv = -1 ∧ p1 = p) ∧
      (p.allocated_once = 0 → rv = -1 → p1.allocated_once = 0) := by
  refine ⟨?_, ?_, ?_⟩
  · intro h0 os2 r2
    subst h0
    have h1 := (init_heap_some hi).2.1
    unfold init_heap
    rw [if_pos (by omega)]
  · intro h0
    unfold init_heap at hi
    rw [if_pos (fun h1 => h0 h1.symm)] at hi
    simp only [Option.some.injEq, Prod.mk.injEq] at hi
    exact ⟨hi.2.symm, hi.1.symm⟩
  · intro h0 h1
    subst h1
    unfold init_heap at hi
    rw [if_neg (by omega)] at hi
    split at hi
    · simp only [Option.some.injEq, Prod.mk.injEq] at hi
      rw [← hi.1]; exact h0
    · dsimp only at hi
      split at hi
      · simp only [Option.some.injEq, Prod.mk.injEq] at hi
        rw [← hi.1]; exact h0
      · split at hi
        · simp only [Option.some.injEq, Prod.mk.injEq] at hi
          rw [← hi.1]
        · split at hi
          · simp at hi
          · split at hi
            · simp at hi
            · split at hi
              · simp at hi
              · simp at hi

/-- Witness for C20 (amended): a second `init_heap` after the successful `init_heap(4096)`. -/
theorem C20_one_shot_after_success_witness :
    ((0 : Int) = 0 → ∀ os2 r2, init_heap os2 ⟨1, exHeap⟩ r2 = some (⟨1, exHeap⟩, -1)) ∧
      (exProc.allocated_once ≠ 0 → (0 : Int) = -1 ∧ (⟨1, exHeap⟩ : Proc) = exProc) ∧
      (exProc.allocated_once = 0 → (0 : Int) = -1 → (⟨1, exHeap⟩ : Proc).allocated_once = 0) :=
  C20_one_shot_after_success exOS exProc ⟨1, exHeap⟩ 4096 0 (by rfl)

/-- The heap after `init_heap(4096)` and the perfect-fit `balloc(4080)` is reachable. -/
theorem exHeapFull_reach : Reach exHeapFull [4104] :=
  Reach.balloc 3 4080 exHeapFull 4104
    (Reach.init exOS exProc ⟨1, exHeap⟩ 4096 exOS_sane (by rfl)) (by rfl)

/-- The heap after `init_heap(4096)` and the perfect-fit `balloc(4080)` satisfies the
block-list invariant with one allocated block. -/
theorem exHeapFull_inv : Inv exHeapFull [(4100, 4091)] :=
  @perfect_inv exHeap [] [] 4100 4090 (init_inv exOS_sane (by decide)) (by decide)

/-- After `init_heap(4096)`, `bfree(8192)` returns 0 on the end mark at 8188. -/
theorem exHeap_free_end :
    bfree exHeap 8192 = some (freeHeap exHeap (8192 - 4) (exHeap.mem (8192 - 4)), 0) :=
  @bfree_run exHeap 8192 (by decide) (by decide) (by decide) (by decide) (by decide)
    (by decide) (by decide)

/-- C25 (code at the failing input): after `init_heap(4096)` the call `balloc(4080)`
returns 4104 and the reachable heap it leaves has 3 in the end-mark word at offset
`alloc_size`, not 1; the forward traversal of `disp_heap`, which stops only at a word
equal to 1, then has no result for any amount of fuel.  Also `bfree(8192)` after
`init_heap(4096)` returns 0 and leaves a reachable heap with 0 in the end mark. -/
theorem C25_end_mark_modified :
    balloc 3 exHeap 4080 = some (exHeapFull, 4104) ∧ Reach exHeapFull [4104] ∧
      exHeapFull.mem (exHeapFull.heap_start + exHeapFull.alloc_size) = 3 ∧
      (∀ fuel, disp_heap fuel exHeapFull = none) ∧
      ∃ h1, bfree exHeap 8192 = some (h1, 0) ∧ Reach h1 [] ∧
        h1.mem (h1.heap_start + h1.alloc_size) = 0 := by
  refine ⟨by rfl, exHeapFull_reach, by decide, ?_, _, exHeap_free_end, ?_, by decide⟩
  · intro fuel
    unfold disp_heap
    rw [dispLoop_seg exHeapFull_inv exHeapFull.heap_start exHeapFull_inv.seg (le_refl _)
      (by decide) fuel [] 0 0]
    rw [if_neg]
    rintro ⟨_, h⟩
    exact absurd h (by decide)
  · exact Reach.bfree 8192 _ 0
      (Reach.init exOS exProc ⟨1, exHeap⟩ 4096 exOS_sane (by rfl)) exHeap_free_end

/-- C27 (code at the failing input): after `init_heap(4096)` and `balloc(20)` the reachable
heap has the free remainder of the split at 4132 with size 4056 (header 4058), but the
last word of that block, at 4132 + 4056 - 4 = 8184, still holds 4088, the footer written by
`init_heap`; and after freeing three adjacent 32-byte blocks, `coalesce()` merges the first
two into a free block of 64 bytes at 4100 whose last word, at 4160, holds 0. -/
theorem C27_split_and_merge_write_no_footer :
    balloc 2 exHeap 20 = some (exHeapA, 4104) ∧ Reach exHeapA [4104] ∧
      exHeapA.mem 4132 = 4058 ∧ shifted 4058 = 4056 ∧ exHeapA.mem (4132 + 4056 - 4) = 4088 ∧
      Reach exHeapF [4200] ∧
      (coalesce 6 exHeapF).map (fun r => (r.2, r.1.mem 4100, r.1.mem (4100 + 64 - 4))) =
        some (1, 66, 0) :=
  ⟨by rfl, exHeapA_reach, by decide, by decide, by decide, exHeapF_reach, by decide⟩

theorem mem_mapHead (f : Int → Int) {bl : List (Int × Int)} {y u : Int}
    (hm : (y, u) ∈ bl) : (y, u) ∈ mapHead f bl ∨ ∃ rest, bl = (y, u) :: rest := by
  cases bl with
  | nil => simp at hm
  | cons b rest =>
    obtain ⟨x, w⟩ := b
    rcases List.mem_cons.1 hm with he | ht
    · right; exact ⟨rest, by rw [he]⟩
    · left; unfold mapHead; exact List.mem_cons_of_mem _ ht

theorem mem_coalesceList_odd {y u : Int} (hu : u % 2 ≠ 0) :
    ∀ (n : Nat) (bl : List (Int × Int)), bl.length ≤ n → (y, u) ∈ bl →
      (y, u) ∈ coalesceList bl := by
  intro n
  induction n with
  | zero =>
    intro bl hl hm
    have : bl = [] := List.length_eq_zero.1 (by omega)
    subst this
    simp at hm
  | succ n ih =>
    intro bl hl hm
    match bl, hl, hm with
    | [], _, hm => simp at hm
    | [b], _, hm => exact hm
    | (x, w) :: (z, w2) :: rest, hl, hm =>
      simp only [List.length_cons] at hl
      unfold coalesceList
      by_cases ho1 : w % 2 ≠ 0
      · rw [if_pos ho1]
        rcases List.mem_cons.1 hm with he | ht
        · rw [he]; exact List.mem_cons_self _ _
        · exact List.mem_cons_of_mem _ (ih _ (by simp; omega) ht)
      · rw [if_neg ho1]
        by_cases ho2 : w2 % 2 ≠ 0
        · rw [if_pos ho2]
          rcases List.mem_cons.1 hm with he | ht
          · rw [he]; exact List.mem_cons_self _ _
          · rcases List.mem_cons.1 ht with he | ht
            · rw [he]; exact List.mem_cons_of_mem _ (List.mem_cons_self _ _)
            · exact List.mem_cons_of_mem _ (List.mem_cons_of_mem _ (ih _ (by omega) ht))
        · rw [if_neg ho2]
          rcases List.mem_cons.1 hm with he | ht
          · simp only [Prod.mk.injEq] at he
            rw [he.2] at hu
            exact absurd hu ho1
          · rcases List.mem_cons.1 ht with he | ht
            · simp only [Prod.mk.injEq] at he
              rw [he.2] at hu
              exact absurd hu ho2
            · exact List.mem_cons_of_mem _ (ih _ (by omega) ht)

/-- The allocated blocks of a list survive the perfect-fit branch of `balloc`. -/
theorem kept_perfect {h : Heap} {bl1 bl2 : List (Int × Int)} {x w : Int}
    (hI : Inv h (bl1 ++ (x, w) :: bl2)) (hfree : w % 2 = 0) (v : Int) :
    KeptAlloc (fun _ => True) (bl1 ++ (x, w) :: bl2)
      (bl1 ++ (x, v) :: mapHead (fun u => u + 2) bl2) := by
  intro y u hm hu _
  rcases List.mem_append.1 hm with h1 | h2
  · exact ⟨u, List.mem_append_left _ h1, hu, rfl⟩
  · rcases List.mem_cons.1 h2 with he | ht
    · simp only [Prod.mk.injEq] at he
      rw [he.2] at hu
      omega
    · rcases mem_mapHead (fun u => u + 2) ht with hk | ⟨rest, hr⟩
      · exact ⟨u, List.mem_append_right _ (List.mem_cons_of_mem _ hk), hu, rfl⟩
      · subst hr
        obtain ⟨c, _, hs2⟩ := seg_split hI.seg
        obtain ⟨_, _, _, _, _, hpw, htl⟩ := hs2
        obtain ⟨hy, hmu, _⟩ := htl
        have hp := hpw hfree
        rw [hmu] at hp
        refine ⟨u + 2, List.mem_append_right _ (List.mem_cons_of_mem _ ?_), by omega,
          shifted_bump hp⟩
        unfold mapHead
        exact List.mem_cons_self _ _

/-- The allocated blocks of a list other than the freed one survive `bfree`. -/
theorem kept_free (bl1 bl2 : List (Int × Int)) (x w v : Int) :
    KeptAlloc (fun y => y ≠ x) (bl1 ++ (x, w) :: bl2) (bl1 ++ (x, v) :: mapHead clearP bl2) := by
  intro y u hm hu hk
  rcases List.mem_append.1 hm with h1 | h2
  · exact ⟨u, List.mem_append_left _ h1, hu, rfl⟩
  · rcases List.mem_cons.1 h2 with he | ht
    · simp only [Prod.mk.injEq] at he
      exact absurd he.1 hk
    · rcases mem_mapHead clearP ht with hk | ⟨rest, hr⟩
      · exact ⟨u, List.mem_append_right _ (List.mem_cons_of_mem _ hk), hu, rfl⟩
      · subst hr
        refine ⟨clearP u, List.mem_append_right _ (List.mem_cons_of_mem _ ?_),
          by rw [clearP_parity]; exact hu, clearP_shifted u⟩
        unfold mapHead
        exact List.mem_cons_self _ _

theorem pchain_append (bl1 bl2 : List (Int × Int)) :
    ∀ a, PChain a (bl1 ++ bl2) ↔ PChain a bl1 ∧ PChain (lastBit a bl1) bl2 := by
  induction bl1 with
  | nil => intro a; simp [PChain, lastBit]
  | cons b t ih =>
    intro a
    obtain ⟨x, w⟩ := b
    show _ ∧ PChain (w % 2) (t ++ bl2) ↔ (_ ∧ PChain (w % 2) t) ∧ PChain (lastBit (w % 2) t) bl2
    rw [ih, and_assoc]

theorem pchain_mapHead {f : Int → Int} {a c : Int} {bl : List (Int × Int)}
    (hf : ∀ u, u / 2 % 2 = a → f u / 2 % 2 = c ∧ f u % 2 = u % 2) (hp : PChain a bl) :
    PChain c (mapHead f bl) := by
  cases bl with
  | nil => trivial
  | cons b t =>
    obtain ⟨y, u⟩ := b
    obtain ⟨h1, h2⟩ := hp
    obtain ⟨h3, h4⟩ := hf u h1
    exact ⟨h3, by rw [h4]; exact h2⟩

theorem pchain_perfect {a : Int} {bl1 bl2 : List (Int × Int)} {x w : Int}
    (hp : PChain a (bl1 ++ (x, w) :: bl2)) (hfree : w % 2 = 0) :
    PChain a (bl1 ++ (x, shifted w + 1 + (if w / 2 % 2 ≠ 0 then 2 else 0)) ::
      mapHead (fun u => u + 2) bl2) := by
  rw [pchain_append] at hp ⊢
  obtain ⟨h1, h2, h3⟩ := hp
  refine ⟨h1, ?_, ?_⟩
  · rw [← h2]; unfold shifted; split <;> omega
  · rw [hfree] at h3
    refine pchain_mapHead ?_ h3
    intro u hu
    constructor
    · unfold shifted; split <;> omega
    · omega

theorem pchain_split {a : Int} {bl1 bl2 : List (Int × Int)} {need x w : Int}
    (hp : PChain a (bl1 ++ (x, w) :: bl2)) (hfree : w % 2 = 0) (hneed8 : need % 8 = 0) :
    PChain a (bl1 ++ (x, need + 1 + (if w / 2 % 2 ≠ 0 then 2 else 0)) ::
      (x + need, shifted w - need + 2) :: bl2) := by
  rw [pchain_append] at hp ⊢
  obtain ⟨h1, h2, h3⟩ := hp
  refine ⟨h1, ?_, ?_, ?_⟩
  · rw [← h2]; split <;> omega
  · unfold shifted; split <;> omega
  · have : (shifted w - need + 2) % 2 = w % 2 := by unfold shifted; omega
    rw [this]; exact h3

theorem pchain_free {a : Int} {bl1 bl2 : List (Int × Int)} {x w : Int}
    (hp : PChain a (bl1 ++ (x, w) :: bl2)) (hodd : w % 2 ≠ 0) :
    PChain a (bl1 ++ (x, w - 1) :: mapHead clearP bl2) := by
  rw [pchain_append] at hp ⊢
  obtain ⟨h1, h2, h3⟩ := hp
  refine ⟨h1, ?_, ?_⟩
  · rw [← h2]; omega
  · refine pchain_mapHead ?_ h3
    intro u _
    exact ⟨by rw [clearP_pbit]; omega, clearP_parity u⟩

theorem pchain_coalesceList :
    ∀ (n : Nat) (bl : List (Int × Int)) (a : Int), bl.length ≤ n → PChain a bl →
      PChain a (coalesceList bl) := by
  intro n
  induction n with
  | zero =>
    intro bl a hl hp
    have : bl = [] := List.length_eq_zero.1 (by omega)
    subst this
    exact hp
  | succ n ih =>
    intro bl a hl hp
    match bl, hl, hp with
    | [], _, hp => exact hp
    | [b], _, hp => exact hp
    | (x, w) :: (y, w2) :: rest, hl, hp =>
      simp only [List.length_cons] at hl
      obtain ⟨h1, h2, h3⟩ := hp
      unfold coalesceList
      by_cases ho1 : w % 2 ≠ 0
      · rw [if_pos ho1]
        exact ⟨h1, ih _ _ (by simp; omega) ⟨h2, h3⟩⟩
      · rw [if_neg ho1]
        by_cases ho2 : w2 % 2 ≠ 0
        · rw [if_pos ho2]
          exact ⟨h1, h2, ih _ _ (by omega) h3⟩
        · rw [if_neg ho2]
          refine ⟨by rw [← h1]; unfold shifted; omega, ?_⟩
          have : (w + shifted w2) % 2 = w2 % 2 := by unfold shifted; omega
          rw [this]
          exact ih _ _ (by omega) h3

/-- In every reachable state the block list has exact p bits. -/
theorem reach_pchain {h : Heap} {live : List Int} (hr : Reach h live) :
    ∃ bl, Inv h bl ∧ PChain 1 bl := by
  induction hr with
  | init os p0 p1 r hs hi =>
    obtain ⟨hh, _, _, hr0⟩ := init_heap_some hi
    rw [hh]
    have hI := init_inv hs hr0
    refine ⟨initBlocks os r, hI, ?_⟩
    have hseg := hI.seg
    revert hseg
    unfold initBlocks
    split
    · intro _; trivial
    · intro hseg
      obtain ⟨_, _, _, _, _, _, hnil⟩ := hseg
      have hnil : _ = _ := hnil
      refine ⟨?_, trivial⟩
      revert hnil
      generalize (initHeap os r).alloc_size = L
      generalize (initHeap os r).heap_start = s
      unfold shifted
      omega
  | @balloc h live fuel size h1 p _ hb ih =>
    obtain ⟨bl, hI, hp⟩ := ih
    rcases balloc_cases hI hb with ⟨_, hh⟩ | ⟨hs1, _, x, w, bl1, bl2, hbl, hfree, _, _, hh, _⟩ |
      ⟨hs1, _, _, x, w, bl1, bl2, hbl, hfree, hfit, _, _, _, _, hh, _⟩
    · subst hh
      exact ⟨bl, hI, hp⟩
    · subst hbl hh
      exact ⟨_, perfect_inv hI hfree, pchain_perfect hp hfree⟩
    · subst hbl hh
      obtain ⟨hn0, hn8, _, _⟩ := need_pos size hs1
      exact ⟨_, split_inv hI hfree hn0 hn8 hfit, pchain_split hp hfree hn8⟩
  | @bfree h live ptr h1 r _ hb ih =>
    obtain ⟨bl, hI, hp⟩ := ih
    rcases bfree_inv hb with ⟨_, hh⟩ | ⟨_, _, h8, hm, hodd, hlo, _, _, hh⟩
    · subst hh
      exact ⟨bl, hI, hp⟩
    · subst hh
      rcases bfree_target hI h8 hm hodd hlo with ⟨bl1, bl2, hbl⟩ | hend
      · subst hbl
        exact ⟨_, free_block_inv hI hodd, pchain_free hp hodd⟩
      · rw [hend]
        exact ⟨bl, (free_end_inv hI (by rw [← hend]; exact hodd)).1, hp⟩
  | @coalesce h live fuel h1 r _ hc ih =>
    obtain ⟨bl, hI, hp⟩ := ih
    exact ⟨coalesceList bl, (coalesce_spec hI hc).1, pchain_coalesceList _ bl 1 (le_refl _) hp⟩

/-- C26: p-bit consistency.  In every state reachable from a successful `init_heap` by
calls of `balloc`, `bfree` and `coalesce` that return (with any arguments, so in particular
by successful `balloc` calls, `bfree` of pointers returned by `balloc`, and `coalesce`
calls), the blocks that tile the usable region are such that the first block has its p bit
set and the p bit of every other block equals the a bit of the block right before it. -/
theorem C26_prev_allocated_consistent (h : Heap) (live : List Int) (hr : Reach h live) :
    ∃ bl, Inv h bl ∧ PChain 1 bl ∧
      (∀ x w rest, bl = (x, w) :: rest → w / 2 % 2 = 1) ∧
      (∀ pre x w y w2 post, bl = pre ++ (x, w) :: (y, w2) :: post → w2 / 2 % 2 = w % 2) := by
  obtain ⟨bl, hI, hp⟩ := reach_pchain hr
  refine ⟨bl, hI, hp, ?_, ?_⟩
  · intro x w rest hbl
    subst hbl
    exact hp.1
  · intro pre x w y w2 post hbl
    subst hbl
    rw [pchain_append] at hp
    exact hp.2.2.1

/-- Witness for C26: the heap after `init_heap(4096)`, four `balloc(20)` and three
`bfree`. -/
theorem C26_prev_allocated_consistent_witness :
    ∃ bl, Inv exHeapF bl ∧ PChain 1 bl ∧
      (∀ x w rest, bl = (x, w) :: rest → w / 2 % 2 = 1) ∧
      (∀ pre x w y w2 post, bl = pre ++ (x, w) :: (y, w2) :: post → w2 / 2 % 2 = w % 2) :=
  C26_prev_allocated_consistent exHeapF [4200] exHeapF_reach

/-- When `init_heap` returns 0, its three stores were inside the mapping. -/
theorem init_heap_mapped {os : OS} {p0 p1 : Proc} {r : Int}
    (hi : init_heap os p0 r = some (p1, 0)) :
    (initHeap os r).mapped ((initHeap os r).heap_start + (initHeap os r).alloc_size) ∧
      (initHeap os r).mapped (initHeap os r).heap_start := by
  unfold init_heap at hi
  split at hi
  · simp at hi
  · split at hi
    · simp at hi
    · dsimp only at hi
      split at hi
      · simp at hi
      · split at hi
        · simp at hi
        · split at hi
          · simp at hi
          · rename_i ha hs1
            split at hi
            · simp at hi
            · rename_i hb hs2
              obtain ⟨hm1, rfl⟩ := store_some hs1
              obtain ⟨hm2, _⟩ := store_some hs2
              exact ⟨hm1, hm2⟩

/-! ## Lemmas on tiled heaps (payload words arbitrary) -/

theorem tile_le {m : Int → Int} {bl : List (Int × Int)} {a b : Int} (hs : Tile m a bl b) :
    a ≤ b ∧ (b - a) % 8 = 0 := by
  induction bl generalizing a with
  | nil => simp only [Tile] at hs; subst hs; simp
  | cons c bl ih =>
    obtain ⟨x, w⟩ := c
    obtain ⟨_, _, hpos, hmod, _, htl⟩ := hs
    have := ih htl
    omega

theorem tile_nil_of_eq {m : Int → Int} {bl : List (Int × Int)} {a : Int} (hs : Tile m a bl a) :
    bl = [] := by
  cases bl with
  | nil => rfl
  | cons c bl =>
    obtain ⟨x, w⟩ := c
    obtain ⟨_, _, hpos, _, _, htl⟩ := hs
    have := (tile_le htl).1
    omega

theorem tile_append {m : Int → Int} {bl1 bl2 : List (Int × Int)} {a b c : Int}
    (h1 : Tile m a bl1 b) (h2 : Tile m b bl2 c) : Tile m a (bl1 ++ bl2) c := by
  induction bl1 generalizing a with
  | nil => simp only [Tile] at h1; subst h1; simpa using h2
  | cons d bl ih =>
    obtain ⟨x, w⟩ := d
    obtain ⟨hx, hw, hpos, hmod, hp, htl⟩ := h1
    exact ⟨hx, hw, hpos, hmod, hp, ih htl⟩

theorem tile_split {m : Int → Int} {bl1 bl2 : List (Int × Int)} {a c : Int}
    (hs : Tile m a (bl1 ++ bl2) c) : ∃ b, Tile m a bl1 b ∧ Tile m b bl2 c := by
  induction bl1 generalizing a with
  | nil => exact ⟨a, rfl, by simpa using hs⟩
  | cons d bl ih =>
    obtain ⟨x, w⟩ := d
    obtain ⟨hx, hw, hpos, hmod, hp, htl⟩ := hs
    obtain ⟨b, hb1, hb2⟩ := ih htl
    exact ⟨b, ⟨hx, hw, hpos, hmod, hp, hb1⟩, hb2⟩

theorem tile_congr {m m1 : Int → Int} {bl : List (Int × Int)} {a b : Int}
    (heq : ∀ x, a ≤ x → x < b → m1 x = m x)
    (hend : m b / 2 % 2 = 0 → m1 b / 2 % 2 = 0)
    (hs : Tile m a bl b) : Tile m1 a bl b := by
  induction bl generalizing a with
  | nil => exact hs
  | cons d bl ih =>
    obtain ⟨x, w⟩ := d
    obtain ⟨hx, hw, hpos, hmod, hp, htl⟩ := hs
    have hle := (tile_le htl).1
    refine ⟨hx, ?_, hpos, hmod, ?_, ih (fun y hy1 hy2 => heq y (by omega) hy2) htl⟩
    · rw [heq a (le_refl a) (by omega)]; exact hw
    · intro hfree
      rcases lt_or_eq_of_le hle with hlt | heq2
      · rw [heq _ (by omega) hlt]; exact hp hfree
      · rw [heq2]; rw [heq2] at hp; exact hend (hp hfree)

theorem tile_mem {m : Int → Int} {bl : List (Int × Int)} {a b x w : Int}
    (hs : Tile m a bl b) (hmem : (x, w) ∈ bl) :
    ∃ bl1 bl2, bl = bl1 ++ (x, w) :: bl2 ∧ Tile m a bl1 x ∧ Tile m x ((x, w) :: bl2) b := by
  obtain ⟨bl1, bl2, rfl⟩ := List.append_of_mem hmem
  obtain ⟨c, h1, h2⟩ := tile_split hs
  have hc : x = c := h2.1
  subst hc
  exact ⟨bl1, bl2, rfl, h1, h2⟩

theorem tile_mem_bounds {m : Int → Int} {bl : List (Int × Int)} {a b x w : Int}
    (hs : Tile m a bl b) (hmem : (x, w) ∈ bl) :
    a ≤ x ∧ x + shifted w ≤ b ∧ m x = w ∧ 0 < shifted w ∧ shifted w % 8 = 0 ∧
      (x - a) % 8 = 0 := by
  obtain ⟨bl1, bl2, _, h1, h2⟩ := tile_mem hs hmem
  obtain ⟨_, hw, hpos, hmod, _, htl⟩ := h2
  have := tile_le h1
  have := tile_le htl
  exact ⟨by omega, by omega, hw, hpos, hmod, by omega⟩

theorem mapped_of_tiled {h : Heap} {bl : List (Int × Int)} (hI : Tiled h bl) {x : Int}
    (h1 : h.heap_start ≤ x) (h2 : x ≤ h.heap_start + h.alloc_size)
    (h3 : (x - h.heap_start) % 8 = 0) : h.mapped x := by
  have := hI.start_pos
  have := hI.start_mod
  unfold Heap.mapped
  omega

theorem ballocScan_tile {need : Int} (hneed : 0 < need) {h : Heap} {bl0 : List (Int × Int)}
    (hI : Tiled h bl0) {bl : List (Int × Int)} :
    ∀ (a : Int), Tile h.mem a bl (h.heap_start + h.alloc_size) → h.heap_start ≤ a →
      (a - h.heap_start) % 8 = 0 →
      ∀ (fuel : Nat) (s : Scan) (out : ScanOut), ballocScan need fuel h a s = some out →
        (∃ x w, scanList need bl s = .inl (x, w) ∧ out = .returned (perfectHeap h x w) (x + 4)) ∨
        (∃ s1, scanList need bl s = .inr s1 ∧ h.mem (h.heap_start + h.alloc_size) = 1 ∧
          out = .exited s1) := by
  induction bl with
  | nil =>
    intro a hseg ha ha8 fuel s out hout
    simp only [Tile] at hseg
    subst hseg
    by_cases h1 : h.mem (h.heap_start + h.alloc_size) = 1
    · right
      cases fuel with
      | zero => simp [ballocScan] at hout
      | succ n =>
        unfold ballocScan at hout
        rw [load_of_mapped (mapped_of_tiled hI ha (le_refl _) ha8)] at hout
        simp only [h1, if_true] at hout
        exact ⟨s, rfl, h1, by simpa using hout.symm⟩
    · have := hI.end_lo
      have := hI.end_hi
      rw [ballocScan_stuck hneed h _ (by omega)] at hout
      simp at hout
  | cons d bl ih =>
    intro a hseg ha ha8 fuel s out hout
    obtain ⟨x, w⟩ := d
    obtain ⟨hx, hw, hpos, hmod, hp, htl⟩ := hseg
    subst hx
    have hle := tile_le htl
    have hmx : h.mapped x := mapped_of_tiled hI ha (by omega) ha8
    have hmn : h.mapped (x + shifted w) := mapped_of_tiled hI (by omega) hle.1 (by omega)
    cases fuel with
    | zero => simp [ballocScan] at hout
    | succ n =>
      unfold ballocScan at hout
      rw [load_of_mapped hmx, hw] at hout
      have hne : w ≠ 1 := by unfold shifted at hpos; omega
      dsimp only at hout
      rw [if_neg hne] at hout
      unfold scanList
      split at hout
      · rename_i hodd
        rw [if_pos hodd]
        exact ih _ htl (by omega) (by omega) n s out hout
      · rename_i hev
        rw [if_neg hev]
        split at hout
        · rename_i hperf
          rw [if_pos hperf]
          left
          refine ⟨x, w, rfl, ?_⟩
          rw [store_of_mapped _ hmx] at hout
          dsimp only at hout
          rw [load_mk hmn] at hout
          dsimp only at hout
          rw [store_mk hmn] at hout
          simp only [Option.some.injEq] at hout
          rw [← hout]
          have hne2 : x + shifted w ≠ x := by omega
          simp [perfectHeap, write, hne2]
        · rename_i hnp
          rw [if_neg hnp]
          split at hout
          · rename_i hgt
            rw [if_pos hgt]
            exact ih _ htl (by omega) (by omega) n _ out hout
          · rename_i hngt
            rw [if_neg hngt]
            exact ih _ htl (by omega) (by omega) n s out hout

theorem tile_head {m m1 : Int → Int} {bl : List (Int × Int)} {a b : Int} (f : Int → Int)
    (hs : Tile m a bl b)
    (heq : ∀ y, a < y → y ≤ b → m1 y = m y)
    (ha : m1 a = f (m a))
    (hsh : a < b → shifted (f (m a)) = shifted (m a))
    (hpar : a < b → f (m a) % 2 = 0 → m a % 2 = 0) :
    Tile m1 a (mapHead f bl) b := by
  cases bl with
  | nil => exact hs
  | cons d bl =>
    obtain ⟨x, w⟩ := d
    obtain ⟨hx, hw, hpos, hmod, hp, htl⟩ := hs
    have hle := (tile_le htl).1
    subst hw
    have hab : a < b := by omega
    have hsh1 := hsh hab
    refine ⟨hx, ha, by omega, by omega, ?_, ?_⟩
    · intro hfree
      rw [hsh1, heq _ (by omega) hle]
      exact hp (hpar hab hfree)
    · rw [hsh1]
      exact tile_congr (fun y hy1 hy2 => heq y (by omega) (by omega))
        (fun h0 => by rw [heq b (by omega) (le_refl b)]; exact h0) htl

theorem tile_update {m m1 : Int → Int} {bl1 bl2 : List (Int × Int)} {a b x w : Int}
    (v : Int) (f : Int → Int)
    (hs : Tile m a (bl1 ++ (x, w) :: bl2) b)
    (hother : ∀ y, a ≤ y → y ≤ b → y ≠ x → y ≠ x + shifted w → m1 y = m y)
    (hx : m1 x = v) (hxs : shifted v = shifted w) (hxp : w / 2 % 2 = 0 → v / 2 % 2 = 0)
    (hn : m1 (x + shifted w) = f (m (x + shifted w)))
    (hns : x + shifted w < b →
      shifted (f (m (x + shifted w))) = shifted (m (x + shifted w)))
    (hnpar : x + shifted w < b →
      f (m (x + shifted w)) % 2 = 0 → m (x + shifted w) % 2 = 0)
    (hp : v % 2 = 0 → f (m (x + shifted w)) / 2 % 2 = 0) :
    Tile m1 a (bl1 ++ (x, v) :: mapHead f bl2) b := by
  obtain ⟨c, h1, h2⟩ := tile_split hs
  obtain ⟨hc, hw, hpos, hmod, hpw, htl⟩ := h2
  subst hc
  have hle1 := (tile_le h1).1
  have hle2 := (tile_le htl).1
  refine tile_append (b := x) ?_ ⟨rfl, hx, by omega, by omega, ?_, ?_⟩
  · refine tile_congr (fun y hy1 hy2 => hother y hy1 (by omega) (by omega) (by omega)) ?_ h1
    rw [hx, hw]
    exact hxp
  · intro hfree
    rw [hxs, hn]
    exact hp hfree
  · rw [hxs]
    exact tile_head f htl (fun y hy1 hy2 => hother y (by omega) hy2 (by omega) (by omega))
      hn hns hnpar

theorem perfect_tiled {h : Heap} {bl1 bl2 : List (Int × Int)} {x w : Int}
    (hI : Tiled h (bl1 ++ (x, w) :: bl2)) (hfree : w % 2 = 0) :
    Tiled (perfectHeap h x w)
      (bl1 ++ (x, shifted w + 1 + (if w / 2 % 2 ≠ 0 then 2 else 0)) ::
        mapHead (fun u => u + 2) bl2) := by
  obtain ⟨c, h1, h2⟩ := tile_split hI.tile
  obtain ⟨hc, hw, hpos, hmod, hpw, htl⟩ := h2
  subst hc
  have hle1 := (tile_le h1).1
  have hle2 := (tile_le htl).1
  have hpn := hpw hfree
  have hlo := hI.end_lo
  have hhi := hI.end_hi
  have hne : x + shifted w ≠ x := by omega
  refine ⟨hI.start_pos, hI.start_mod, hI.size_nonneg, hI.size_lt, ?_, ?_, ?_⟩
  · refine tile_update (m := h.mem) _ (fun u => u + 2) hI.tile ?_ ?_ ?_ ?_ ?_ ?_ ?_ ?_
    · intro y _ _ hy1 hy2
      simp [perfectHeap, write, hy1, hy2]
    · simp [perfectHeap, write, hne.symm]
    · exact shifted_allocWord w
    · exact allocWord_pbit
    · simp [perfectHeap, write]
    · intro _; exact shifted_bump hpn
    · intro _ h0; dsimp only at h0; omega
    · intro h0; have := allocWord_odd w; omega
  · show 0 ≤ write (write h.mem x _) (x + shifted w) _ (h.heap_start + h.alloc_size)
    unfold write
    split
    · rename_i he; rw [he] at hlo; omega
    · split
      · have := allocWord_odd w; omega
      · exact hlo
  · show write (write h.mem x _) (x + shifted w) _ (h.heap_start + h.alloc_size) ≤ 3
    unfold write
    split
    · rename_i he; rw [he] at hhi hlo; rw [← he] at hpn; omega
    · split
      · rename_i he; omega
      · exact hhi

theorem split_tiled {h : Heap} {bl1 bl2 : List (Int × Int)} {need x w : Int}
    (hI : Tiled h (bl1 ++ (x, w) :: bl2)) (hfree : w % 2 = 0)
    (hneed : 0 < need) (hneed8 : need % 8 = 0) (hfit : need < shifted w) :
    Tiled (splitHeap h need x w)
      (bl1 ++ (x, need + 1 + (if w / 2 % 2 ≠ 0 then 2 else 0)) ::
        (x + need, shifted w - need + 2) :: bl2) := by
  obtain ⟨c, h1, h2⟩ := tile_split hI.tile
  obtain ⟨hc, hw, hpos, hmod, hpw, htl⟩ := h2
  subst hc
  have hle1 := (tile_le h1).1
  have hle2 := (tile_le htl).1
  have hpn := hpw hfree
  have hv2s : shifted (need + 1 + (if w / 2 % 2 ≠ 0 then 2 else 0)) = need := by
    unfold shifted; split <;> omega
  have hrs : shifted (shifted w - need + 2) = shifted w - need := by
    generalize shifted w = sw at *
    unfold shifted; omega
  have hmx : (splitHeap h need x w).mem x = need + 1 + (if w / 2 % 2 ≠ 0 then 2 else 0) := by
    have : x ≠ x + need := by omega
    simp [splitHeap, write, this]
  have hmr : (splitHeap h need x w).mem (x + need) = shifted w - need + 2 := by
    simp [splitHeap, write]
  have hmo : ∀ y, y ≠ x → y ≠ x + need → (splitHeap h need x w).mem y = h.mem y := by
    intro y hy1 hy2
    simp [splitHeap, write, hy1, hy2]
  refine ⟨hI.start_pos, hI.start_mod, hI.size_nonneg, hI.size_lt, ?_, ?_, ?_⟩
  · show Tile (splitHeap h need x w).mem h.heap_start _ (h.heap_start + h.alloc_size)
    refine tile_append (b := x) ?_ ?_
    · refine tile_congr (fun y hy1 hy2 => hmo y (by omega) (by omega)) ?_ h1
      rw [hmx, hw]
      intro h0; split <;> omega
    · simp only [Tile]
      rw [hv2s, hrs]
      have e1 : x + need + (shifted w - need) = x + shifted w := by ring
      rw [e1]
      refine ⟨trivial, hmx, hneed, hneed8, ?_, rfl, hmr, by omega, by omega, ?_, ?_⟩
      · intro h0; exfalso; revert h0; split <;> omega
      · intro _
        rw [hmo _ (by omega) (by omega)]
        exact hpn
      · exact tile_congr (fun y hy1 hy2 => hmo y (by omega) (by omega))
          (fun h0 => by rw [hmo _ (by omega) (by omega)]; exact h0) htl
  · show 0 ≤ (splitHeap h need x w).mem (h.heap_start + h.alloc_size)
    rw [hmo _ (by omega) (by omega)]; exact hI.end_lo
  · show (splitHeap h need x w).mem (h.heap_start + h.alloc_size) ≤ 3
    rw [hmo _ (by omega) (by omega)]; exact hI.end_hi

theorem free_block_tiled {h : Heap} {bl1 bl2 : List (Int × Int)} {x w : Int}
    (hI : Tiled h (bl1 ++ (x, w) :: bl2)) (hodd : w % 2 ≠ 0) :
    Tiled (freeHeap h x w) (bl1 ++ (x, w - 1) :: mapHead clearP bl2) := by
  obtain ⟨c, h1, h2⟩ := tile_split hI.tile
  obtain ⟨hc, hw, hpos, hmod, hpw, htl⟩ := h2
  subst hc
  have hle1 := (tile_le h1).1
  have hle2 := (tile_le htl).1
  have hne : x + shifted w ≠ x := by omega
  have hmn : (freeHeap h x w).mem (x + shifted w) = clearP (h.mem (x + shifted w)) := by
    simp [freeHeap, write, hne]
  have hmo : ∀ y, y ≠ x → y ≠ x + shifted w → (freeHeap h x w).mem y = h.mem y := by
    intro y hy1 hy2
    simp [freeHeap, write, hy1, hy2]
  refine ⟨hI.start_pos, hI.start_mod, hI.size_nonneg, hI.size_lt, ?_, ?_, ?_⟩
  · show Tile (freeHeap h x w).mem h.heap_start _ (h.heap_start + h.alloc_size)
    refine tile_update (m := h.mem) _ clearP hI.tile (fun y _ _ hy1 hy2 => hmo y hy1 hy2)
      ?_ ?_ ?_ hmn (fun _ => clearP_shifted _) ?_ (fun _ => clearP_pbit _)
    · simp [freeHeap, write, hne.symm]
    · unfold shifted; omega
    · intro h0; omega
    · intro _ h0; rw [clearP_parity] at h0; exact h0
  · show 0 ≤ (freeHeap h x w).mem (h.heap_start + h.alloc_size)
    rcases lt_or_eq_of_le hle2 with hlt | heq
    · rw [hmo _ (by omega) (by omega)]; exact hI.end_lo
    · rw [← heq, hmn]
      exact (clearP_range (by have := hI.end_lo; rwa [← heq] at this)
        (by have := hI.end_hi; rwa [← heq] at this)).1
  · show (freeHeap h x w).mem (h.heap_start + h.alloc_size) ≤ 3
    rcases lt_or_eq_of_le hle2 with hlt | heq
    · rw [hmo _ (by omega) (by omega)]; exact hI.end_hi
    · rw [← heq, hmn]
      exact (clearP_range (by have := hI.end_lo; rwa [← heq] at this)
        (by have := hI.end_hi; rwa [← heq] at this)).2

theorem merge_tiled {h : Heap} {pre rest : List (Int × Int)} {x w y w2 : Int}
    (hI : Tiled h (pre ++ (x, w) :: (y, w2) :: rest)) (hf2 : w2 % 2 = 0) :
    Tiled (mergeHeap h x w w2) (pre ++ (x, w + shifted w2) :: rest) := by
  obtain ⟨c, h1, h2⟩ := tile_split hI.tile
  obtain ⟨hc, hw, hpos, hmod, hpw, hy, hw2, hpos2, hmod2, hpw2, htl⟩ := h2
  subst hc
  subst hy
  have hle1 := (tile_le h1).1
  have hle2 := (tile_le htl).1
  have hmx : (mergeHeap h x w w2).mem x = w + shifted w2 := by
    have : x ≠ x + shifted w := by omega
    simp [mergeHeap, write, this]
  have hmn : (mergeHeap h x w w2).mem (x + shifted w) = 0 := by
    simp [mergeHeap, write]
  have hmo : ∀ z, z ≠ x → z ≠ x + shifted w → (mergeHeap h x w w2).mem z = h.mem z := by
    intro z hz1 hz2
    simp [mergeHeap, write, hz1, hz2]
  refine ⟨hI.start_pos, hI.start_mod, hI.size_nonneg, hI.size_lt, ?_, ?_, ?_⟩
  · show Tile (mergeHeap h x w w2).mem h.heap_start _ (h.heap_start + h.alloc_size)
    refine tile_append (b := x) ?_ ?_
    · refine tile_congr (fun z hz1 hz2 => hmo z (by omega) (by omega)) ?_ h1
      rw [hmx, hw]
      intro h0; generalize shifted w2 = s2 at *; omega
    · simp only [Tile]
      rw [shifted_merge]
      have e1 : x + (shifted w + shifted w2) = x + shifted w + shifted w2 := by ring
      rw [e1]
      refine ⟨trivial, hmx, by omega, by omega, ?_, ?_⟩
      · intro _
        rw [hmo _ (by omega) (by omega)]
        exact hpw2 hf2
      · exact tile_congr (fun z hz1 hz2 => hmo z (by omega) (by omega))
          (fun h0 => by rw [hmo _ (by omega) (by omega)]; exact h0) htl
  · show 0 ≤ (mergeHeap h x w w2).mem (h.heap_start + h.alloc_size)
    rw [hmo _ (by omega) (by omega)]; exact hI.end_lo
  · show (mergeHeap h x w w2).mem (h.heap_start + h.alloc_size) ≤ 3
    rw [hmo _ (by omega) (by omega)]; exact hI.end_hi

theorem tile_snoc {m : Int → Int} {pre rest : List (Int × Int)} {a x w e : Int}
    (h1 : Tile m a pre x) (h2 : Tile m x ((x, w) :: rest) e) :
    Tile m a (pre ++ [(x, w)]) (x + shifted w) ∧ Tile m (x + shifted w) rest e := by
  obtain ⟨hx, hw, hpos, hmod, hp, htl⟩ := h2
  exact ⟨tile_append h1 ⟨hx, hw, hpos, hmod, hp, rfl⟩, htl⟩

theorem coalesceLoop_spec_t :
    ∀ (fuel : Nat) (h : Heap) (pre post : List (Int × Int)) (curr counter : Int)
      (h1 : Heap) (c1 : Int),
      Tiled h (pre ++ post) → Tile h.mem h.heap_start pre curr →
      Tile h.mem curr post (h.heap_start + h.alloc_size) →
      coalesceLoop fuel h curr counter = some (h1, c1) →
      Tiled h1 (pre ++ coalesceList post) ∧ h1.heap_start = h.heap_start ∧
        h1.alloc_size = h.alloc_size ∧ h.mem (h.heap_start + h.alloc_size) = 1 ∧
        h1.mem (h.heap_start + h.alloc_size) = 1 ∧ c1 = counter + mergeCount post := by
  intro fuel
  induction fuel with
  | zero =>
    intro h pre post curr counter h1 c1 _ _ _ hc
    simp [coalesceLoop] at hc
  | succ n ih =>
    intro h pre post curr counter h1 c1 hI hpre hpost hc
    have hlo := hI.end_lo
    have hhi := hI.end_hi
    have hsm := hI.start_mod
    have hle0 := tile_le hpre
    have hle1 := tile_le hpost
    have hmc : h.mapped curr := mapped_of_tiled hI hle0.1 hle1.1 hle0.2
    have hme : h.mapped (h.heap_start + h.alloc_size) :=
      mapped_of_tiled hI (by omega) (le_refl _) (by omega)
    match post, hI, hpost with
    | [], hI, hpost =>
      simp only [Tile] at hpost
      subst hpost
      by_cases h1e : h.mem (h.heap_start + h.alloc_size) = 1
      · unfold coalesceLoop at hc
        rw [load_of_mapped hmc] at hc
        dsimp only at hc
        rw [if_pos h1e] at hc
        simp only [Option.some.injEq, Prod.mk.injEq] at hc
        obtain ⟨rfl, rfl⟩ := hc
        exact ⟨by simpa [coalesceList] using hI, rfl, rfl, h1e, h1e, by simp [mergeCount]⟩
      · rw [coalesceLoop_stuck _ _ _ _ (by omega)] at hc
        simp at hc
    | [(x, w)], hI, hpost =>
      obtain ⟨hx, hw, hpos, hmod, hp, htl⟩ := hpost
      simp only [Tile] at htl
      subst hx
      have hne : w ≠ 1 := by unfold shifted at hpos; omega
      unfold coalesceLoop at hc
      rw [load_of_mapped hmc, hw] at hc
      dsimp only at hc
      rw [if_neg hne, htl, load_of_mapped hme] at hc
      dsimp only at hc
      by_cases h1e : h.mem (h.heap_start + h.alloc_size) = 1
      · rw [if_pos h1e] at hc
        simp only [Option.some.injEq, Prod.mk.injEq] at hc
        obtain ⟨rfl, rfl⟩ := hc
        exact ⟨by simpa [coalesceList] using hI, rfl, rfl, h1e, h1e, by simp [mergeCount]⟩
      · exfalso
        rw [if_neg h1e] at hc
        have hsh : shifted (h.mem (h.heap_start + h.alloc_size)) = 0 := by
          unfold shifted; omega
        by_cases ho1 : w % 2 ≠ 0
        · rw [if_pos ho1, coalesceLoop_stuck _ _ _ _ (by omega)] at hc
          simp at hc
        · rw [if_neg ho1] at hc
          by_cases ho2 : h.mem (h.heap_start + h.alloc_size) % 2 ≠ 0
          · rw [if_pos ho2, hsh, add_zero, coalesceLoop_stuck _ _ _ _ (by omega)] at hc
            simp at hc
          · rw [if_neg ho2, store_of_mapped _ hmc] at hc
            dsimp only at hc
            rw [store_mk hme, hsh, add_zero, htl] at hc
            dsimp only at hc
            rw [coalesceLoop_stuck _ _ _ _ (by left; simp [write])] at hc
            simp at hc
    | (x, w) :: (y, w2) :: rest, hI, hpost =>
      obtain ⟨hx, hw, hpos, hmod, hp, hy, hw2, hpos2, hmod2, hp2, htl⟩ := hpost
      subst hx
      have hle2 := tile_le htl
      have hne : w ≠ 1 := by unfold shifted at hpos; omega
      have hne2 : w2 ≠ 1 := by unfold shifted at hpos2; omega
      have hmn : h.mapped (x + shifted w) :=
        mapped_of_tiled hI (by omega) (by omega) (by omega)
      have hpost0 : Tile h.mem x ((x, w) :: (y, w2) :: rest) (h.heap_start + h.alloc_size) :=
        ⟨rfl, hw, hpos, hmod, hp, hy, hw2, hpos2, hmod2, hp2, htl⟩
      have hpost1 : Tile h.mem (x + shifted w) ((y, w2) :: rest) (h.heap_start + h.alloc_size) :=
        ⟨hy, hw2, hpos2, hmod2, hp2, htl⟩
      unfold coalesceLoop at hc
      rw [load_of_mapped hmc, hw] at hc
      dsimp only at hc
      rw [if_neg hne, load_of_mapped hmn, hw2] at hc
      dsimp only at hc
      rw [if_neg hne2] at hc
      by_cases ho1 : w % 2 ≠ 0
      · rw [if_pos ho1] at hc
        have hs1 := tile_snoc hpre hpost0
        have := ih h (pre ++ [(x, w)]) ((y, w2) :: rest) _ counter h1 c1
          (by simpa using hI) hs1.1 hs1.2 hc
        simpa [coalesceList, mergeCount, ho1] using this
      · rw [if_neg ho1] at hc
        by_cases ho2 : w2 % 2 ≠ 0
        · rw [if_pos ho2] at hc
          have hs1 := tile_snoc hpre hpost0
          have hy2 : y = x + shifted w := hy
          have hs2 := tile_snoc hs1.1 (by rw [← hy2]; rw [← hy2] at hpost1; exact hpost1)
          subst hy2
          have := ih h (pre ++ [(x, w)] ++ [(x + shifted w, w2)]) rest _ counter h1 c1
            (by simpa using hI) hs2.1 hs2.2 hc
          simpa [coalesceList, mergeCount, ho1, ho2] using this
        · rw [if_neg ho2, store_of_mapped _ hmc] at hc
          dsimp only at hc
          rw [store_mk hmn] at hc
          dsimp only at hc
          have hIm : Tiled (mergeHeap h x w w2) (pre ++ (x, w + shifted w2) :: rest) :=
            merge_tiled hI (by omega)
          obtain ⟨c, hm1, hm2⟩ := tile_split hIm.tile
          have hcx : x = c := hm2.1
          subst hcx
          have hs1 := tile_snoc hm1 hm2
          have := ih (mergeHeap h x w w2) (pre ++ [(x, w + shifted w2)]) rest _
            (counter + 1) h1 c1 (by simpa using hIm) hs1.1 hs1.2 hc
          have hmE : (mergeHeap h x w w2).mem (h.heap_start + h.alloc_size) =
              h.mem (h.heap_start + h.alloc_size) := by
            have e1 : h.heap_start + h.alloc_size ≠ x := by omega
            have e2 : h.heap_start + h.alloc_size ≠ x + shifted w := by omega
            simp [mergeHeap, write, e1, e2]
          obtain ⟨t1, t2, t3, t4, t5, t6⟩ := this
          change (mergeHeap h x w w2).mem (h.heap_start + h.alloc_size) = 1 at t4
          change h1.mem (h.heap_start + h.alloc_size) = 1 at t5
          rw [hmE] at t4
          refine ⟨by simpa [coalesceList, ho1, ho2] using t1, t2, t3, t4, t5, ?_⟩
          rw [t6]
          simp [mergeCount, ho1, ho2]
          ring

theorem ballocFinish_split_t {h : Heap} {bl1 bl2 : List (Int × Int)} {need x w : Int} {s : Scan}
    (hI : Tiled h (bl1 ++ (x, w) :: bl2)) (hneed : 0 < need) (hneed8 : need % 8 = 0)
    (hsf : s.splitFit ≠ 0) (hx : s.currBestFit = x) (hsz : shifted w = s.currBestFitSize)
    (hfit : need < shifted w) (hpb : s.prevPBit = (if w / 2 % 2 ≠ 0 then 1 else 0)) :
    ballocFinish need h s = some (splitHeap h need x w, x + 4) := by
  obtain ⟨c, h1, h2⟩ := tile_split hI.tile
  obtain ⟨hc, hw, hpos, hmod, hpw, htl⟩ := h2
  subst hc
  have hle1 := tile_le h1
  have hle2 := tile_le htl
  have hmx : h.mapped x := mapped_of_tiled hI hle1.1 (by omega) hle1.2
  have hmn : h.mapped (x + need) := mapped_of_tiled hI (by omega) (by omega) (by omega)
  unfold ballocFinish
  rw [if_pos hsf, hx, ← hsz, hpb]
  dsimp only
  have hv : (if (if w / 2 % 2 ≠ 0 then (1 : Int) else 0) ≠ 0 ∧ ¬ ((need + 1) / 2 % 2 ≠ 0)
      then need + 1 + 2 else need + 1) = need + 1 + (if w / 2 % 2 ≠ 0 then 2 else 0) := by
    by_cases hp : w / 2 % 2 ≠ 0
    · rw [if_pos hp, if_pos hp, if_pos ⟨by decide, by omega⟩]
    · rw [if_neg hp, if_neg hp, if_neg (by simp)]; simp
  have hr : shifted w - need ≠ 1 := by omega
  rw [hv, store_of_mapped _ hmx]
  dsimp only
  rw [store_mk hmn, if_pos hr]
  rfl

theorem balloc_cases_t {h h1 : Heap} {bl : List (Int × Int)} {fuel : Nat} {size p : Int}
    (hI : Tiled h bl) (hb : balloc fuel h size = some (h1, p)) :
    (p = 0 ∧ h1 = h) ∨
    (1 ≤ size ∧ size + 4 ≤ h.alloc_size ∧ ∃ x w bl1 bl2, bl = bl1 ++ (x, w) :: bl2 ∧ w % 2 = 0 ∧
      shifted w = blockSizeNeed size ∧
      (∀ x1 w1, (x1, w1) ∈ bl1 → w1 % 2 = 0 → shifted w1 ≠ blockSizeNeed size) ∧
      h1 = perfectHeap h x w ∧ p = x + 4) ∨
    (1 ≤ size ∧ size + 4 ≤ h.alloc_size ∧ h.mem (h.heap_start + h.alloc_size) = 1 ∧
      ∃ x w bl1 bl2, bl = bl1 ++ (x, w) :: bl2 ∧ w % 2 = 0 ∧
      blockSizeNeed size < shifted w ∧ shifted w < 2000000000 ∧
      (∀ x1 w1, (x1, w1) ∈ bl → w1 % 2 = 0 → shifted w1 ≠ blockSizeNeed size) ∧
      (∀ x1 w1, (x1, w1) ∈ bl1 → w1 % 2 = 0 → blockSizeNeed size < shifted w1 →
        shifted w < shifted w1) ∧
      (∀ x1 w1, (x1, w1) ∈ bl → w1 % 2 = 0 → blockSizeNeed size < shifted w1 →
        shifted w ≤ shifted w1) ∧
      h1 = splitHeap h (blockSizeNeed size) x w ∧ p = x + 4) := by
  have hsz0 := hI.size_nonneg
  have hsz1 := hI.size_lt
  unfold balloc at hb
  by_cases hchk : size < 1 ∨ size + 4 > h.alloc_size % 2 ^ 64
  · rw [if_pos hchk] at hb
    simp only [Option.some.injEq, Prod.mk.injEq] at hb
    exact Or.inl ⟨hb.2.symm, hb.1.symm⟩
  · rw [if_neg hchk] at hb
    have hs1 : 1 ≤ size := by omega
    have hs2 : size + 4 ≤ h.alloc_size := by omega
    obtain ⟨hn0, hn8, _, _⟩ := need_pos size hs1
    cases hscan : ballocScan (blockSizeNeed size) fuel h h.heap_start Scan.start with
    | none => rw [hscan] at hb; simp at hb
    | some out =>
      rw [hscan] at hb
      rcases ballocScan_tile hn0 hI _ hI.tile (le_refl _) (by simp) fuel _ out hscan with
        ⟨x, w, hsl, hout⟩ | ⟨s1, hsl, hend, hout⟩
      · subst hout
        simp only [Option.some.injEq, Prod.mk.injEq] at hb
        right; left
        rcases scanList_spec (blockSizeNeed size) bl [] Scan.start (good_start _) with
          ⟨x2, w2, bl1, bl2, hsl2, hbl, hfree, hperf, hfirst⟩ | ⟨s2, hsl2, _⟩
        · rw [hsl] at hsl2
          simp only [Sum.inl.injEq, Prod.mk.injEq] at hsl2
          obtain ⟨rfl, rfl⟩ := hsl2
          exact ⟨hs1, hs2, x, w, bl1, bl2, hbl, hfree, hperf,
            fun x1 w1 hm => hfirst x1 w1 (by simpa using hm), hb.1.symm, hb.2.symm⟩
        · rw [hsl] at hsl2; simp at hsl2
      · subst hout
        dsimp only at hb
        rcases scanList_spec (blockSizeNeed size) bl [] Scan.start (good_start _) with
          ⟨x2, w2, bl1, bl2, hsl2, _⟩ | ⟨s2, hsl2, hg⟩
        · rw [hsl] at hsl2; simp at hsl2
        · rw [hsl] at hsl2
          simp only [Sum.inr.injEq] at hsl2
          subst hsl2
          simp only [List.nil_append] at hg
          by_cases hsf : s1.splitFit ≠ 0
          · right; right
            obtain ⟨w, bl1, bl2, hbl, hfree, hsz, hfit, hpb, hstrict⟩ := hg.chosen hsf
            subst hbl
            rw [ballocFinish_split_t hI hn0 hn8 hsf rfl hsz hfit hpb] at hb
            simp only [Option.some.injEq, Prod.mk.injEq] at hb
            have hlt : shifted w < 2000000000 := by
              have := hg.below hsf
              omega
            refine ⟨hs1, hs2, hend, s1.currBestFit, w, bl1, bl2, rfl, hfree, hfit, hlt,
              hg.noPerfect, hstrict, ?_, hb.1.symm, hb.2.symm⟩
            intro x1 w1 hm hf1 hfit1
            have := hg.least x1 w1 hm hf1 hfit1
            omega
          · left
            unfold ballocFinish at hb
            rw [if_neg hsf] at hb
            simp only [Option.some.injEq, Prod.mk.injEq] at hb
            exact ⟨hb.2.symm, hb.1.symm⟩

theorem coalesce_spec_t {h h1 : Heap} {bl : List (Int × Int)} {fuel : Nat} {r : Int}
    (hI : Tiled h bl) (hc : coalesce fuel h = some (h1, r)) :
    Tiled h1 (coalesceList bl) ∧ h1.heap_start = h.heap_start ∧ h1.alloc_size = h.alloc_size ∧
      h.mem (h.heap_start + h.alloc_size) = 1 ∧ h1.mem (h.heap_start + h.alloc_size) = 1 ∧
      r = (if mergeCount bl < 1 then 0 else 1) := by
  unfold coalesce at hc
  cases hl : coalesceLoop fuel h h.heap_start 0 with
  | none => rw [hl] at hc; simp at hc
  | some res =>
    obtain ⟨h2, c⟩ := res
    rw [hl] at hc
    dsimp only at hc
    obtain ⟨t1, t2, t3, t4, t5, t6⟩ :=
      coalesceLoop_spec_t fuel h [] bl h.heap_start 0 h2 c (by simpa using hI) rfl hI.tile hl
    simp only [zero_add] at t6
    simp only [List.nil_append] at t1
    subst t6
    split at hc
    · rename_i hlt
      simp only [Option.some.injEq, Prod.mk.injEq] at hc
      obtain ⟨rfl, rfl⟩ := hc
      exact ⟨t1, t2, t3, t4, t5, by rw [if_pos hlt]⟩
    · rename_i hlt
      simp only [Option.some.injEq, Prod.mk.injEq] at hc
      obtain ⟨rfl, rfl⟩ := hc
      exact ⟨t1, t2, t3, t4, t5, by rw [if_neg hlt]⟩

theorem coalesceLoop_run_t :
    ∀ (fuel : Nat) (h : Heap) (pre post : List (Int × Int)) (curr counter : Int),
      Tiled h (pre ++ post) → Tile h.mem h.heap_start pre curr →
      Tile h.mem curr post (h.heap_start + h.alloc_size) →
      h.mem (h.heap_start + h.alloc_size) = 1 → post.length < fuel →
      coalesceLoop fuel h curr counter =
        some (coalesceHeap h post, counter + mergeCount post) := by
  intro fuel
  induction fuel with
  | zero =>
    intro h pre post curr counter _ _ _ _ hf
    simp at hf
  | succ n ih =>
    intro h pre post curr counter hI hpre hpost hend hf
    have hsm := hI.start_mod
    have hle0 := tile_le hpre
    have hle1 := tile_le hpost
    have hmc : h.mapped curr := mapped_of_tiled hI hle0.1 hle1.1 hle0.2
    have hme : h.mapped (h.heap_start + h.alloc_size) :=
      mapped_of_tiled hI (by omega) (le_refl _) (by omega)
    match post, hI, hpost, hf with
    | [], hI, hpost, _ =>
      simp only [Tile] at hpost
      subst hpost
      unfold coalesceLoop
      rw [load_of_mapped hmc]
      dsimp only
      rw [if_pos hend]
      simp [coalesceHeap, mergeCount]
    | [(x, w)], hI, hpost, _ =>
      obtain ⟨hx, hw, hpos, hmod, hp, htl⟩ := hpost
      simp only [Tile] at htl
      subst hx
      have hne : w ≠ 1 := by unfold shifted at hpos; omega
      unfold coalesceLoop
      rw [load_of_mapped hmc, hw]
      dsimp only
      rw [if_neg hne, htl, load_of_mapped hme]
      dsimp only
      rw [if_pos hend]
      simp [coalesceHeap, mergeCount]
    | (x, w) :: (y, w2) :: rest, hI, hpost, hf =>
      obtain ⟨hx, hw, hpos, hmod, hp, hy, hw2, hpos2, hmod2, hp2, htl⟩ := hpost
      subst hx
      simp only [List.length_cons] at hf
      have hle2 := tile_le htl
      have hne : w ≠ 1 := by unfold shifted at hpos; omega
      have hne2 : w2 ≠ 1 := by unfold shifted at hpos2; omega
      have hmn : h.mapped (x + shifted w) :=
        mapped_of_tiled hI (by omega) (by omega) (by omega)
      have hpost0 : Tile h.mem x ((x, w) :: (y, w2) :: rest) (h.heap_start + h.alloc_size) :=
        ⟨rfl, hw, hpos, hmod, hp, hy, hw2, hpos2, hmod2, hp2, htl⟩
      have hpost1 : Tile h.mem (x + shifted w) ((y, w2) :: rest) (h.heap_start + h.alloc_size) :=
        ⟨hy, hw2, hpos2, hmod2, hp2, htl⟩
      unfold coalesceLoop
      rw [load_of_mapped hmc, hw]
      dsimp only
      rw [if_neg hne, load_of_mapped hmn, hw2]
      dsimp only
      rw [if_neg hne2]
      by_cases ho1 : w % 2 ≠ 0
      · rw [if_pos ho1]
        have hs1 := tile_snoc hpre hpost0
        rw [ih h (pre ++ [(x, w)]) ((y, w2) :: rest) _ counter
          (by simpa using hI) hs1.1 hs1.2 hend (by simp; omega)]
        simp [coalesceHeap, mergeCount, ho1]
      · rw [if_neg ho1]
        by_cases ho2 : w2 % 2 ≠ 0
        · rw [if_pos ho2]
          have hs1 := tile_snoc hpre hpost0
          have hy2 : y = x + shifted w := hy
          subst hy2
          have hs2 := tile_snoc hs1.1 hpost1
          rw [ih h (pre ++ [(x, w)] ++ [(x + shifted w, w2)]) rest _ counter
            (by simpa using hI) hs2.1 hs2.2 hend (by omega)]
          simp [coalesceHeap, mergeCount, ho1, ho2]
        · rw [if_neg ho2, store_of_mapped _ hmc]
          dsimp only
          rw [store_mk hmn]
          dsimp only
          have hIm : Tiled (mergeHeap h x w w2) (pre ++ (x, w + shifted w2) :: rest) :=
            merge_tiled hI (by omega)
          obtain ⟨c, hm1, hm2⟩ := tile_split hIm.tile
          have hcx : x = c := hm2.1
          subst hcx
          have hs1 := tile_snoc hm1 hm2
          have hmE : (mergeHeap h x w w2).mem (h.heap_start + h.alloc_size) = 1 := by
            have e1 : h.heap_start + h.alloc_size ≠ x := by omega
            have e2 : h.heap_start + h.alloc_size ≠ x + shifted w := by omega
            simp [mergeHeap, write, e1, e2, hend]
          have := ih (mergeHeap h x w w2) (pre ++ [(x, w + shifted w2)]) rest _
            (counter + 1) (by simpa using hIm) hs1.1 hs1.2 hmE (by omega)
          rw [show (Heap.mk h.heap_start h.alloc_size
              (write (write h.mem x (w + shifted w2)) (x + shifted w) 0)) = mergeHeap h x w w2
            from rfl, this]
          simp [coalesceHeap, mergeCount, ho1, ho2]
          ring

theorem tile_unique {m : Int → Int} {bl bl1 : List (Int × Int)} {a b : Int}
    (hs : Tile m a bl b) (hs1 : Tile m a bl1 b) : bl = bl1 := by
  induction bl generalizing a bl1 with
  | nil =>
    simp only [Tile] at hs
    subst hs
    exact (tile_nil_of_eq hs1).symm
  | cons c bl ih =>
    obtain ⟨x, w⟩ := c
    obtain ⟨hx, hw, hpos, _, _, htl⟩ := hs
    cases bl1 with
    | nil =>
      simp only [Tile] at hs1
      have := (tile_le htl).1
      omega
    | cons c1 bl1 =>
      obtain ⟨x1, w1⟩ := c1
      obtain ⟨hx1, hw1, _, _, _, htl1⟩ := hs1
      have e1 : w = w1 := by rw [← hw, ← hw1]
      subst e1
      rw [hx, hx1, ih htl htl1]

theorem bfree_block_run_t {h : Heap} {bl1 bl2 : List (Int × Int)} {x w : Int}
    (hI : Tiled h (bl1 ++ (x, w) :: bl2)) (hodd : w % 2 ≠ 0) :
    bfree h (x + 4) = some (freeHeap h x w, 0) := by
  have hb := tile_mem_bounds hI.tile (List.mem_append_right bl1 (List.mem_cons_self _ bl2))
  obtain ⟨hb1, hb2, hb3, hb4, hb5, hb6⟩ := hb
  have hsp := hI.start_pos
  have hsm := hI.start_mod
  have hxx : x + 4 - 4 = x := by ring
  have hmap : h.mapped x := mapped_of_tiled hI hb1 (by omega) hb6
  have hmn : h.mapped (x + shifted w) := mapped_of_tiled hI (by omega) hb2 (by omega)
  have := @bfree_run h (x + 4) (by omega) (by omega) (by rw [hxx]; exact hmap)
    (by rw [hxx, hb3]; exact hodd) (by omega) (by omega) (by rw [hxx, hb3]; exact hmn)
  rw [hxx, hb3] at this
  exact this

theorem tile_next_nonneg {h : Heap} {bl1 bl2 : List (Int × Int)} {x w : Int}
    (hI : Tiled h (bl1 ++ (x, w) :: bl2)) : 0 ≤ h.mem (x + shifted w) := by
  obtain ⟨c, _, h2⟩ := tile_split hI.tile
  obtain ⟨hc, _, _, _, _, htl⟩ := h2
  subst hc
  cases bl2 with
  | nil =>
    simp only [Tile] at htl
    rw [htl]
    exact hI.end_lo
  | cons d t =>
    obtain ⟨y, u⟩ := d
    obtain ⟨_, hu, hpos, _⟩ := htl
    rw [hu]
    unfold shifted at hpos
    omega

theorem free_perfect_restores_t {h : Heap} {bl1 bl2 : List (Int × Int)} {x w : Int}
    (hI : Tiled h (bl1 ++ (x, w) :: bl2)) (hfree : w % 2 = 0) :
    freeHeap (perfectHeap h x w) x (shifted w + 1 + (if w / 2 % 2 ≠ 0 then 2 else 0)) = h := by
  obtain ⟨c, _, h2⟩ := tile_split hI.tile
  obtain ⟨hc, hw, hpos, _, hpw, _⟩ := h2
  subst hc
  have hpn := hpw hfree
  have hnn := tile_next_nonneg hI
  have hne : x + shifted w ≠ x := by omega
  have hv : shifted w + 1 + (if w / 2 % 2 ≠ 0 then 2 else 0) - 1 = w := by
    unfold shifted; split <;> omega
  have hcp : clearP (h.mem (x + shifted w) + 2) = h.mem (x + shifted w) := by
    unfold clearP
    rw [if_pos ⟨by omega, by omega⟩]
    omega
  obtain ⟨hs, sz, m⟩ := h
  simp only [freeHeap, perfectHeap, shifted_allocWord, hv]
  congr 1
  funext y
  simp only [write] at hcp hw ⊢
  by_cases hy1 : y = x + shifted w
  · subst hy1
    simp only [if_true, if_neg hne]
    exact hcp
  · by_cases hy2 : y = x
    · subst hy2
      simp only [if_neg hy1, if_true]
      exact hw.symm
    · simp only [if_neg hy1, if_neg hy2]

theorem coalesce_run_noop_t {h : Heap} {bl : List (Int × Int)} {fuel : Nat}
    (hW : WF h bl) (hna : ¬ AdjFree bl) (hf : bl.length < fuel) :
    coalesce fuel h = some (h, 0) := by
  obtain ⟨hI, hend⟩ := hW
  have hrun := coalesceLoop_run_t fuel h [] bl h.heap_start 0 (by simpa using hI) rfl hI.tile
    hend hf
  have hm : mergeCount bl < 1 := by
    have := (mergeCount_pos_iff bl.length bl (le_refl _)).not.2 hna
    omega
  have hz : mergeCount bl = 0 := by
    have := mergeCount_nonneg bl.length bl (le_refl _)
    omega
  unfold coalesce
  rw [hrun, (coalesce_noop h _ bl (le_refl _) hm).1, hz]
  simp

theorem free_split_tiled {h : Heap} {bl1 bl2 : List (Int × Int)} {need x w : Int}
    (hI : Tiled h (bl1 ++ (x, w) :: bl2)) (hfree : w % 2 = 0)
    (hneed : 0 < need) (hneed8 : need % 8 = 0) (hfit : need < shifted w) :
    Tiled (freeHeap (splitHeap h need x w) x (need + 1 + (if w / 2 % 2 ≠ 0 then 2 else 0)))
        (bl1 ++ (x, need + (if w / 2 % 2 ≠ 0 then 2 else 0)) ::
          (x + need, shifted w - need) :: bl2) ∧
      (freeHeap (splitHeap h need x w) x
        (need + 1 + (if w / 2 % 2 ≠ 0 then 2 else 0))).mem (h.heap_start + h.alloc_size) =
        h.mem (h.heap_start + h.alloc_size) := by
  have h1 := split_tiled hI hfree hneed hneed8 hfit
  have hodd : (need + 1 + (if w / 2 % 2 ≠ 0 then 2 else 0)) % 2 ≠ 0 := by split <;> omega
  have h2 := free_block_tiled h1 hodd
  have hb := tile_mem_bounds hI.tile (List.mem_append_right bl1 (List.mem_cons_self _ bl2))
  have e1 : need + 1 + (if w / 2 % 2 ≠ 0 then 2 else 0) - 1 =
      need + (if w / 2 % 2 ≠ 0 then 2 else 0) := by ring
  have e2 : clearP (shifted w - need + 2) = shifted w - need := by
    unfold clearP
    rw [if_pos ⟨by omega, by omega⟩]
    ring
  have hsh : shifted (need + 1 + (if w / 2 % 2 ≠ 0 then 2 else 0)) = need := by
    unfold shifted; split <;> omega
  simp only [mapHead, e1, e2] at h2
  refine ⟨h2, ?_⟩
  have n1 : h.heap_start + h.alloc_size ≠ x := by omega
  have n2 : h.heap_start + h.alloc_size ≠ x + need := by omega
  simp only [freeHeap, splitHeap, hsh, write, if_neg n1, if_neg n2]

theorem coalesce_returns_t {h : Heap} {bl : List (Int × Int)} {fuel : Nat}
    (hW : WF h bl) (hf : bl.length < fuel) :
    ∃ h3 r, coalesce fuel h = some (h3, r) := by
  obtain ⟨hI, hend⟩ := hW
  have hrun := coalesceLoop_run_t fuel h [] bl h.heap_start 0 (by simpa using hI) rfl hI.tile
    hend hf
  unfold coalesce
  rw [hrun]
  dsimp only
  split
  · exact ⟨_, _, rfl⟩
  · exact ⟨_, _, rfl⟩

theorem kept_perfect_t {h : Heap} {bl1 bl2 : List (Int × Int)} {x w : Int}
    (hI : Tiled h (bl1 ++ (x, w) :: bl2)) (hfree : w % 2 = 0) (v : Int) :
    KeptAlloc (fun _ => True) (bl1 ++ (x, w) :: bl2)
      (bl1 ++ (x, v) :: mapHead (fun u => u + 2) bl2) := by
  intro y u hm hu _
  rcases List.mem_append.1 hm with h1 | h2
  · exact ⟨u, List.mem_append_left _ h1, hu, rfl⟩
  · rcases List.mem_cons.1 h2 with he | ht
    · simp only [Prod.mk.injEq] at he
      rw [he.2] at hu
      omega
    · rcases mem_mapHead (fun u => u + 2) ht with hk | ⟨rest, hr⟩
      · exact ⟨u, List.mem_append_right _ (List.mem_cons_of_mem _ hk), hu, rfl⟩
      · subst hr
        obtain ⟨c, _, hs2⟩ := tile_split hI.tile
        obtain ⟨_, _, _, _, hpw, htl⟩ := hs2
        obtain ⟨hy, hmu, _⟩ := htl
        have hp := hpw hfree
        rw [hmu] at hp
        refine ⟨u + 2, List.mem_append_right _ (List.mem_cons_of_mem _ ?_), by omega,
          shifted_bump hp⟩
        unfold mapHead
        exact List.mem_cons_self _ _

theorem seg_tile {m : Int → Int} {bl : List (Int × Int)} {a b : Int} (hs : Seg m a bl b) :
    Tile m a bl b := by
  induction bl generalizing a with
  | nil => exact hs
  | cons d bl ih =>
    obtain ⟨x, w⟩ := d
    obtain ⟨hx, hw, hpos, hmod, _, hp, htl⟩ := hs
    exact ⟨hx, hw, hpos, hmod, hp, ih htl⟩

/-- The invariant of the reachable states implies the tiling of the data model. -/
theorem inv_tiled {h : Heap} {bl : List (Int × Int)} (hI : Inv h bl) : Tiled h bl :=
  ⟨hI.start_pos, hI.start_mod, hI.size_nonneg, hI.size_lt, seg_tile hI.seg, hI.end_lo,
    hI.end_hi⟩

theorem tile_block {m : Int → Int} {a b x w : Int} {bl : List (Int × Int)}
    (hb : x = a ∧ m a = w ∧ 0 < shifted w ∧ shifted w % 8 = 0 ∧
      (w % 2 = 0 → m (a + shifted w) / 2 % 2 = 0))
    (ht : Tile m (a + shifted w) bl b) : Tile m a ((x, w) :: bl) b :=
  ⟨hb.1, hb.2.1, hb.2.2.1, hb.2.2.2.1, hb.2.2.2.2, ht⟩

theorem tile_done {m : Int → Int} {a b : Int} (hb : a = b) : Tile m a [] b := hb

theorem exHeapUsed_wf : WF exHeapUsed [(4100, 35), (4132, 4058)] := by
  have ht : Tile exHeapUsed.mem exHeapUsed.heap_start [(4100, 35), (4132, 4058)]
      (exHeapUsed.heap_start + exHeapUsed.alloc_size) :=
    tile_block (by decide) (tile_block (by decide) (tile_done (by decide)))
  exact ⟨⟨by decide, by decide, by decide, by decide, ht, by decide, by decide⟩, by decide⟩

/-- The heap `exHeapUsed` is well formed but satisfies the invariant of the reachable
states for no block list: the stored payload word is odd. -/
theorem exHeapUsed_not_inv (bl : List (Int × Int)) : ¬ Inv exHeapUsed bl := by
  intro hI
  have hs := hI.seg
  cases bl with
  | nil =>
    have h0 : exHeapUsed.heap_start = exHeapUsed.heap_start + exHeapUsed.alloc_size := hs
    revert h0
    decide
  | cons d bl =>
    obtain ⟨x, w⟩ := d
    obtain ⟨_, hw, _, _, hcl, _, _⟩ := hs
    have hw1 : w = 35 := by rw [← hw]; decide
    subst hw1
    have := hcl 8 (by decide) (by decide) (by decide)
    revert this
    decide

theorem exHeapFUsed_wf :
    WF exHeapFUsed [(4100, 34), (4132, 32), (4164, 32), (4196, 33), (4228, 3962)] := by
  have ht : Tile exHeapFUsed.mem exHeapFUsed.heap_start
      [(4100, 34), (4132, 32), (4164, 32), (4196, 33), (4228, 3962)]
      (exHeapFUsed.heap_start + exHeapFUsed.alloc_size) :=
    tile_block (by decide) (tile_block (by decide) (tile_block (by decide)
      (tile_block (by decide) (tile_block (by decide) (tile_done (by decide))))))
  exact ⟨⟨by decide, by decide, by decide, by decide, ht, by decide, by decide⟩, by decide⟩

/-! ## Claims on well-formed heaps with arbitrary payloads -/

theorem coalesceList_length : ∀ (n : Nat) (bl : List (Int × Int)), bl.length ≤ n →
    (coalesceList bl).length ≤ bl.length ∧
      (1 ≤ mergeCount bl → (coalesceList bl).length < bl.length) := by
  intro n
  induction n with
  | zero =>
    intro bl hl
    have : bl = [] := List.length_eq_zero.1 (by omega)
    subst this
    simp [coalesceList, mergeCount]
  | succ n ih =>
    intro bl hl
    match bl, hl with
    | [], _ => simp [coalesceList, mergeCount]
    | [b], _ => simp [coalesceList, mergeCount]
    | (x, w) :: (y, w2) :: rest, hl =>
      simp only [List.length_cons] at hl
      unfold mergeCount coalesceList
      by_cases ho1 : w % 2 ≠ 0
      · rw [if_pos ho1, if_pos ho1]
        have := ih ((y, w2) :: rest) (by simp; omega)
        simp only [List.length_cons] at this ⊢
        exact ⟨by omega, fun hm => by have := this.2 hm; omega⟩
      · rw [if_neg ho1, if_neg ho1]
        by_cases ho2 : w2 % 2 ≠ 0
        · rw [if_pos ho2, if_pos ho2]
          have := ih rest (by omega)
          simp only [List.length_cons] at this ⊢
          exact ⟨by omega, fun hm => by have := this.2 hm; omega⟩
        · rw [if_neg ho2, if_neg ho2]
          have := ih rest (by omega)
          simp only [List.length_cons] at this ⊢
          exact ⟨by omega, fun _ => by omega⟩

/-- When the pass of `coalesce` merges at all, some adjacent pair of free blocks of the
list is replaced by one block whose header word is the first word plus the second size. -/
theorem coalesceList_merged : ∀ (n : Nat) (bl : List (Int × Int)), bl.length ≤ n →
    1 ≤ mergeCount bl →
    ∃ pre x w y w2 rest, bl = pre ++ (x, w) :: (y, w2) :: rest ∧ w % 2 = 0 ∧ w2 % 2 = 0 ∧
      (x, w + shifted w2) ∈ coalesceList bl := by
  intro n
  induction n with
  | zero =>
    intro bl hl hm
    have : bl = [] := List.length_eq_zero.1 (by omega)
    subst this
    simp [mergeCount] at hm
  | succ n ih =>
    intro bl hl hm
    match bl, hl, hm with
    | [], _, hm => simp [mergeCount] at hm
    | [b], _, hm => simp [mergeCount] at hm
    | (x, w) :: (y, w2) :: rest, hl, hm =>
      simp only [List.length_cons] at hl
      unfold mergeCount at hm
      unfold coalesceList
      by_cases ho1 : w % 2 ≠ 0
      · rw [if_pos ho1] at hm
        rw [if_pos ho1]
        obtain ⟨pre, x1, w1, y1, w3, rest1, hbl, hf1, hf2, hmem⟩ :=
          ih ((y, w2) :: rest) (by simp; omega) hm
        exact ⟨(x, w) :: pre, x1, w1, y1, w3, rest1, by rw [hbl]; rfl, hf1, hf2,
          List.mem_cons_of_mem _ hmem⟩
      · rw [if_neg ho1] at hm
        rw [if_neg ho1]
        by_cases ho2 : w2 % 2 ≠ 0
        · rw [if_pos ho2] at hm
          rw [if_pos ho2]
          obtain ⟨pre, x1, w1, y1, w3, rest1, hbl, hf1, hf2, hmem⟩ := ih rest (by omega) hm
          exact ⟨(x, w) :: (y, w2) :: pre, x1, w1, y1, w3, rest1, by rw [hbl]; rfl, hf1, hf2,
            List.mem_cons_of_mem _ (List.mem_cons_of_mem _ hmem)⟩
        · rw [if_neg ho2]
          exact ⟨[], x, w, y, w2, rest, rfl, by omega, by omega, List.mem_cons_self _ _⟩

/-- A successful first call of `init_heap`: when `open` and `mmap` succeed, the page size
is a multiple of 4, the mapping is page-aligned at a positive address and the padded size
is at least 16, all three stores are inside the mapping and the call returns 0. -/
theorem init_heap_run {os : OS} {p : Proc} {r : Int} (h0 : p.allocated_once = 0) (hr : 0 < r)
    (hfd : os.fd ≠ -1) (hP4 : os.pagesize % 4 = 0)
    (hbase : 0 < os.mmap_ptr) (hal : os.mmap_ptr % os.pagesize = 0)
    (hA : 16 ≤ r + (os.pagesize - r % os.pagesize) % os.pagesize) :
    init_heap os p r = some (⟨1, initHeap os r⟩, 0) := by
  have h4P : (4 : Int) ∣ os.pagesize := Int.dvd_of_emod_eq_zero hP4
  have hb4 : os.mmap_ptr % 4 = 0 :=
    Int.emod_eq_zero_of_dvd (dvd_trans h4P (Int.dvd_of_emod_eq_zero hal))
  have ha4 : (r + (os.pagesize - r % os.pagesize) % os.pagesize) % 4 = 0 :=
    Int.emod_eq_zero_of_dvd (dvd_trans h4P (padded_dvd os.pagesize r))
  unfold init_heap
  rw [if_neg (by omega), if_neg (by omega)]
  dsimp only
  rw [if_neg (by omega), if_neg (by omega)]
  generalize hAdef : r + (os.pagesize - r % os.pagesize) % os.pagesize = A at *
  have hm1 : (Heap.mk (os.mmap_ptr + 4) (A - 8) (fun _ => 0)).mapped
      (os.mmap_ptr + 4 + (A - 8)) := ⟨by omega, by dsimp only; omega, by dsimp only; omega,
        by omega⟩
  rw [store_of_mapped _ hm1]
  dsimp only
  have hm2 : (Heap.mk (os.mmap_ptr + 4) (A - 8)
      (write (fun _ => 0) (os.mmap_ptr + 4 + (A - 8)) 1)).mapped (os.mmap_ptr + 4) :=
    ⟨by omega, by dsimp only; omega, by dsimp only; omega, by omega⟩
  rw [store_of_mapped _ hm2]
  dsimp only
  have hm3 : (Heap.mk (os.mmap_ptr + 4) (A - 8)
      (write (write (fun _ => 0) (os.mmap_ptr + 4 + (A - 8)) 1) (os.mmap_ptr + 4)
        (A - 8 + 2))).mapped (os.mmap_ptr + 4 + (A - 8) - 4) :=
    ⟨by omega, by dsimp only; omega, by dsimp only; omega, by omega⟩
  rw [store_of_mapped _ hm3]
  subst hAdef
  rfl

/-- C14: on every well-formed heap (tiled by the block list `bl`, end mark 1, arbitrary
payload words), `coalesce()` returns (given more fuel than blocks) with a result that is
0 or 1 and a heap that is again well formed, tiled by the list `coalesceList bl`.  The
result is 1 exactly when two physically adjacent blocks were both free before the call.
When it is 0 the state is unchanged.  When it is 1 a merge is visible in the returned
heap: it is tiled by fewer blocks than before, and for some adjacent pair of free blocks,
with headers at `x` and at `x + size`, the header word at `x` has grown by the size of the
second block. -/
theorem C14_coalesce_reports (h : Heap) (bl : List (Int × Int)) (fuel : Nat)
    (hW : WF h bl) (hf : bl.length < fuel) :
    ∃ h1 r, coalesce fuel h = some (h1, r) ∧ (r = 0 ∨ r = 1) ∧ (r = 1 ↔ AdjFree bl) ∧
      WF h1 (coalesceList bl) ∧ (r = 0 → h1 = h) ∧
      (r = 1 → (coalesceList bl).length < bl.length ∧
        ∃ pre x w y w2 rest, bl = pre ++ (x, w) :: (y, w2) :: rest ∧
          w % 2 = 0 ∧ w2 % 2 = 0 ∧ y = x + shifted w ∧ h.mem x = w ∧ h.mem y = w2 ∧
          0 < shifted w2 ∧ h1.mem x = h.mem x + shifted w2) := by
  obtain ⟨hI, hend⟩ := hW
  have hrun := coalesceLoop_run_t fuel h [] bl h.heap_start 0 (by simpa using hI) rfl hI.tile
    hend hf
  have hiff := mergeCount_pos_iff bl.length bl (le_refl _)
  have hc : coalesce fuel h =
      some (coalesceHeap h bl, if mergeCount bl < 1 then 0 else 1) := by
    unfold coalesce
    rw [hrun]
    dsimp only
    rw [zero_add]
    split <;> rfl
  obtain ⟨t1, t2, t3, _, t5, _⟩ := coalesce_spec_t hI hc
  have hwf : WF (coalesceHeap h bl) (coalesceList bl) := ⟨t1, by rw [t2, t3]; exact t5⟩
  by_cases hm : mergeCount bl < 1
  · rw [if_pos hm] at hc
    refine ⟨coalesceHeap h bl, 0, hc, Or.inl rfl, ?_, hwf, ?_, ?_⟩
    · rw [← hiff]; constructor <;> intro h0 <;> omega
    · intro _
      exact (coalesce_noop h _ bl (le_refl _) hm).1
    · intro h0; omega
  · rw [if_neg hm] at hc
    refine ⟨coalesceHeap h bl, 1, hc, Or.inr rfl, ?_, hwf, ?_, ?_⟩
    · rw [← hiff]; constructor <;> intro h0 <;> omega
    · intro h0; omega
    · intro _
      refine ⟨(coalesceList_length bl.length bl (le_refl _)).2 (by omega), ?_⟩
      obtain ⟨pre, x, w, y, w2, rest, hbl, hf1, hf2, hmem⟩ :=
        coalesceList_merged bl.length bl (le_refl _) (by omega)
      have hnew := (tile_mem_bounds t1.tile hmem).2.2.1
      have htile := hI.tile
      rw [hbl] at htile
      obtain ⟨c, _, h2⟩ := tile_split htile
      obtain ⟨hx, hw, _, _, _, hy, hw2, hpos2, _⟩ := h2
      refine ⟨pre, x, w, y, w2, rest, hbl, hf1, hf2, by rw [hy, hx], by rw [hx]; exact hw,
        by rw [hy]; exact hw2, hpos2, ?_⟩
      rw [hnew, hx, hw]

/-- Witness for C14: `coalesce()` on the heap with three adjacent free blocks of 32 bytes
and an odd value stored in the payload of the allocated block behind them. -/
theorem C14_coalesce_reports_witness :
    ∃ h1 r, coalesce 6 exHeapFUsed = some (h1, r) ∧ (r = 0 ∨ r = 1) ∧
      (r = 1 ↔ AdjFree [(4100, 34), (4132, 32), (4164, 32), (4196, 33), (4228, 3962)]) ∧
      WF h1 (coalesceList [(4100, 34), (4132, 32), (4164, 32), (4196, 33), (4228, 3962)]) ∧
      (r = 0 → h1 = exHeapFUsed) ∧
      (r = 1 →
        (coalesceList [(4100, 34), (4132, 32), (4164, 32), (4196, 33), (4228, 3962)]).length <
          [((4100 : Int), (34 : Int)), (4132, 32), (4164, 32), (4196, 33), (4228, 3962)].length ∧
        ∃ pre x w y w2 rest,
          [((4100 : Int), (34 : Int)), (4132, 32), (4164, 32), (4196, 33), (4228, 3962)] =
            pre ++ (x, w) :: (y, w2) :: rest ∧
          w % 2 = 0 ∧ w2 % 2 = 0 ∧ y = x + shifted w ∧ exHeapFUsed.mem x = w ∧
          exHeapFUsed.mem y = w2 ∧ 0 < shifted w2 ∧
          h1.mem x = exHeapFUsed.mem x + shifted w2) :=
  C14_coalesce_reports exHeapFUsed
    [(4100, 34), (4132, 32), (4164, 32), (4196, 33), (4228, 3962)] 6 exHeapFUsed_wf (by decide)

/-- Remark on the hypothesis `16 ≤ A` of the initial layout.  With a page size of 8 (no
system has such pages) the first call `init_heap(8)` returns 0 with usable length L = 0;
the header store lands on the end-mark word, which then holds 2, and the traversal of
`disp_heap` finds no end mark.  With a page size of 12, `init_heap(12)` returns 0 with
L = 4 and the footer store lands on the header, which then holds 4. -/
theorem init_heap_tiny_pages :
    (init_heap exOS8 exProc 8).map
        (fun q => (q.2, q.1.heap.alloc_size, q.1.heap.mem (q.1.heap.heap_start + 0))) =
      some (0, 0, 2) ∧
    (∀ fuel, (init_heap exOS8 exProc 8).bind (fun q => disp_heap fuel q.1.heap) = none) ∧
    (init_heap ⟨12, 3, 4096⟩ exProc 12).map
        (fun q => (q.2, q.1.heap.alloc_size, q.1.heap.mem q.1.heap.heap_start)) =
      some (0, 4, 4) := by
  refine ⟨by decide, ?_, by decide⟩
  intro fuel
  have h : init_heap exOS8 exProc 8 = some (⟨1, initHeap exOS8 8⟩, 0) := by rfl
  rw [h]
  exact dispLoop_stuck (initHeap exOS8 8) 4100 (Or.inr (Or.inl (by decide))) fuel [] 0 0

/-- C21: initial layout.  For every page size P > 0 that is a multiple of 4 (C stores
`int`s at multiples of 4) and every requested size r > 0 whose round-up A to a multiple of
P fits an `int` and is at least 16 (both hold for the page sizes of real systems, powers
of two from 4096 on), the first call `init_heap(r)`, when `open` succeeds and `mmap` gives
a page-aligned positive address, returns 0 and sets `alloc_size` to L = A - 8, where A is
the least multiple of P that is not below r, and `heap_start` 4 bytes into the mapping;
the word at `heap_start` is L + 2 (size L, a bit 0, p bit 1), the word at offset L - 4 is
L, the word at offset L is 1, and `disp_heap` lists exactly one block, free and of size L. -/
theorem C21_initial_layout (os : OS) (p : Proc) (r : Int)
    (h0 : p.allocated_once = 0) (hr : 0 < r) (hfd : os.fd ≠ -1)
    (hP : 0 < os.pagesize) (hP4 : os.pagesize % 4 = 0)
    (hbase : 0 < os.mmap_ptr) (hal : os.mmap_ptr % os.pagesize = 0)
    (hA : 16 ≤ r + (os.pagesize - r % os.pagesize) % os.pagesize)
    (hfit : r + (os.pagesize - r % os.pagesize) % os.pagesize < 2 ^ 31) :
    ∃ p1, init_heap os p r = some (p1, 0) ∧ p1.allocated_once = 1 ∧
      os.pagesize ∣ p1.heap.alloc_size + 8 ∧ r ≤ p1.heap.alloc_size + 8 ∧
      p1.heap.alloc_size + 8 < r + os.pagesize ∧
      p1.heap.heap_start = os.mmap_ptr + 4 ∧
      p1.heap.mem p1.heap.heap_start = p1.heap.alloc_size + 2 ∧
      shifted (p1.heap.alloc_size + 2) = p1.heap.alloc_size ∧
      (p1.heap.alloc_size + 2) % 2 = 0 ∧ (p1.heap.alloc_size + 2) / 2 % 2 = 1 ∧
      p1.heap.mem (p1.heap.heap_start + p1.heap.alloc_size - 4) = p1.heap.alloc_size ∧
      p1.heap.mem (p1.heap.heap_start + p1.heap.alloc_size) = 1 ∧
      disp_heap 2 p1.heap =
        some ([⟨false, true, p1.heap.heap_start,
          p1.heap.heap_start + p1.heap.alloc_size - 1, p1.heap.alloc_size⟩], 0,
          p1.heap.alloc_size) := by
  have hi := init_heap_run h0 hr hfd hP4 hbase hal hA
  obtain ⟨hm1, hm2⟩ := init_heap_mapped hi
  refine ⟨⟨1, initHeap os r⟩, hi, ?_⟩
  dsimp only
  have hdvd := padded_dvd os.pagesize r
  have hmod := Int.emod_lt_of_pos (os.pagesize - r % os.pagesize) hP
  have hmod0 := Int.emod_nonneg (os.pagesize - r % os.pagesize) (ne_of_gt hP)
  have hL4 : (initHeap os r).alloc_size % 4 = 0 := by
    have := hm1.2.2.2
    have := hm2.2.2.2
    omega
  have hLdef : (initHeap os r).alloc_size =
      r + (os.pagesize - r % os.pagesize) % os.pagesize - 8 := rfl
  have hsdef : (initHeap os r).heap_start = os.mmap_ptr + 4 := rfl
  have hmemdef : (initHeap os r).mem =
      write (write (write (fun _ => 0)
        ((initHeap os r).heap_start + (initHeap os r).alloc_size) 1)
        (initHeap os r).heap_start ((initHeap os r).alloc_size + 2))
        ((initHeap os r).heap_start + (initHeap os r).alloc_size - 4)
        (initHeap os r).alloc_size := rfl
  have hL8 : 8 ≤ (initHeap os r).alloc_size := by omega
  generalize (initHeap os r).alloc_size = L at *
  generalize hsg : (initHeap os r).heap_start = s at *
  have e1 : (initHeap os r).mem s = L + 2 := by
    rw [hmemdef, write_other _ _ _ _ (by omega), write_same]
  have e2 : (initHeap os r).mem (s + L - 4) = L := by
    rw [hmemdef, write_same]
  have e3 : (initHeap os r).mem (s + L) = 1 := by
    rw [hmemdef, write_other _ _ _ _ (by omega), write_other _ _ _ _ (by omega), write_same]
  refine ⟨rfl, ?_, by omega, by omega, hsdef, e1, by unfold shifted; omega,
    by omega, by omega, e2, e3, ?_⟩
  · have : L + 8 = r + (os.pagesize - r % os.pagesize) % os.pagesize := by omega
    rw [this]; exact hdvd
  · unfold disp_heap
    rw [hsg]
    unfold dispLoop
    rw [load_of_mapped hm2, e1]
    dsimp only
    rw [if_neg (by omega)]
    have hb1 : (decide ((L + 2) % 2 ≠ 0)) = false := by simp; omega
    rw [hb1]
    simp only [Bool.false_eq_true, if_false]
    have hb2 : (decide ((L + 2) / 2 % 2 ≠ 0)) = true := by simp; omega
    rw [hb2]
    simp only [if_true]
    unfold dispLoop
    rw [show s + (L + 2 - 2) = s + L by ring, load_of_mapped hm1, e3]
    simp

/-- Witness for C21: `init_heap(4096)` with 4096-byte pages. -/
theorem C21_initial_layout_witness :
    ∃ p1, init_heap exOS exProc 4096 = some (p1, 0) ∧ p1.allocated_once = 1 ∧
      exOS.pagesize ∣ p1.heap.alloc_size + 8 ∧ 4096 ≤ p1.heap.alloc_size + 8 ∧
      p1.heap.alloc_size + 8 < 4096 + exOS.pagesize ∧
      p1.heap.heap_start = exOS.mmap_ptr + 4 ∧
      p1.heap.mem p1.heap.heap_start = p1.heap.alloc_size + 2 ∧
      shifted (p1.heap.alloc_size + 2) = p1.heap.alloc_size ∧
      (p1.heap.alloc_size + 2) % 2 = 0 ∧ (p1.heap.alloc_size + 2) / 2 % 2 = 1 ∧
      p1.heap.mem (p1.heap.heap_start + p1.heap.alloc_size - 4) = p1.heap.alloc_size ∧
      p1.heap.mem (p1.heap.heap_start + p1.heap.alloc_size) = 1 ∧
      disp_heap 2 p1.heap =
        some ([⟨false, true, p1.heap.heap_start,
          p1.heap.heap_start + p1.heap.alloc_size - 1, p1.heap.alloc_size⟩], 0,
          p1.heap.alloc_size) :=
  C21_initial_layout exOS exProc 4096 (by decide) (by decide) (by decide) (by decide)
    (by decide) (by decide) (by decide) (by decide) (by decide)

/-- C18: round trip.  On every well-formed heap (tiled by the block list `bl`, end mark 1,
arbitrary payload words) in which no two adjacent blocks are both free, if `balloc(n)`
returns a non-null `p`, then `bfree(p)` returns 0 and the following `coalesce()` returns
(given more fuel than blocks) in a well-formed heap with the same block list `bl`: same
block addresses, same header words, end mark 1.  When the chosen block was an exact fit,
the state after `bfree(p)` already equals the state before the `balloc` call. -/
theorem C18_round_trip (h h1 : Heap) (bl : List (Int × Int)) (fuel fuel2 : Nat) (n p : Int)
    (hW : WF h bl) (hna : ¬ AdjFree bl) (hb : balloc fuel h n = some (h1, p))
    (hp : p ≠ 0) (hf : bl.length + 1 < fuel2) :
    ∃ h2 h3 r, bfree h1 p = some (h2, 0) ∧ coalesce fuel2 h2 = some (h3, r) ∧
      WF h3 bl ∧ h3.heap_start = h.heap_start ∧ h3.alloc_size = h.alloc_size ∧
      (shifted (h.mem (p - 4)) = blockSizeNeed n → h2 = h) := by
  obtain ⟨hI, hend⟩ := hW
  rcases balloc_cases_t hI hb with ⟨hp0, _⟩ |
    ⟨hs1, _, x, w, bl1, bl2, hbl, hfree, hperf, _, hh, hpx⟩ |
    ⟨hs1, _, _, x, w, bl1, bl2, hbl, hfree, hfit, _, _, _, _, hh, hpx⟩
  · exact absurd hp0 hp
  · subst hbl hh hpx
    have hI1 := perfect_tiled hI hfree
    have hodd : (shifted w + 1 + (if w / 2 % 2 ≠ 0 then 2 else 0)) % 2 ≠ 0 := by
      have := allocWord_odd w; omega
    have hfr := bfree_block_run_t hI1 hodd
    rw [free_perfect_restores_t hI hfree] at hfr
    exact ⟨h, h, 0, hfr, coalesce_run_noop_t ⟨hI, hend⟩ hna (by omega), ⟨hI, hend⟩, rfl, rfl,
      fun _ => rfl⟩
  · subst hbl hh hpx
    obtain ⟨hn0, hn8, _, _⟩ := need_pos n hs1
    have hI1 := split_tiled hI hfree hn0 hn8 hfit
    have hodd : (blockSizeNeed n + 1 + (if w / 2 % 2 ≠ 0 then 2 else 0)) % 2 ≠ 0 := by
      split <;> omega
    have hfr := bfree_block_run_t hI1 hodd
    obtain ⟨hI2, hend2⟩ := free_split_tiled hI hfree hn0 hn8 hfit
    rw [hend] at hend2
    have hlen : (bl1 ++ (x, blockSizeNeed n + (if w / 2 % 2 ≠ 0 then 2 else 0)) ::
        (x + blockSizeNeed n, shifted w - blockSizeNeed n) :: bl2).length < fuel2 := by
      simp only [List.length_append, List.length_cons] at hf ⊢
      omega
    have hco := coalesce_returns_t ⟨hI2, hend2⟩ hlen
    obtain ⟨h3, r, hc⟩ := hco
    obtain ⟨t1, t2, t3, _, t5, _⟩ := coalesce_spec_t hI2 hc
    have hrt := coalesceList_roundtrip bl1.length bl1 (le_refl _) x
      (blockSizeNeed n + (if w / 2 % 2 ≠ 0 then 2 else 0)) (x + blockSizeNeed n)
      (shifted w - blockSizeNeed n) w bl2 hna hfree (by split <;> omega)
      (by unfold shifted; omega)
    have hw : blockSizeNeed n + (if w / 2 % 2 ≠ 0 then 2 else 0) +
        shifted (shifted w - blockSizeNeed n) = w := by
      unfold shifted; split <;> omega
    rw [hrt, hw] at t1
    have hb3 := (tile_mem_bounds hI.tile
      (List.mem_append_right bl1 (List.mem_cons_self _ bl2))).2.2.1
    refine ⟨_, h3, r, hfr, hc, ⟨t1, ?_⟩, t2, t3, ?_⟩
    · rw [t2, t3]; exact t5
    · intro h0
      have hxx : x + 4 - 4 = x := by ring
      rw [hxx, hb3] at h0
      omega

/-- Witness for C18: on the heap with one live block whose payload holds an odd value,
`balloc(20)` splits the free block at 4132; `bfree` and `coalesce` bring the block list
back. -/
theorem C18_round_trip_witness :
    ∃ h2 h3 r, bfree (splitHeap exHeapUsed 32 4132 4058) 4136 = some (h2, 0) ∧
      coalesce 4 h2 = some (h3, r) ∧
      WF h3 [(4100, 35), (4132, 4058)] ∧ h3.heap_start = exHeapUsed.heap_start ∧
      h3.alloc_size = exHeapUsed.alloc_size ∧
      (shifted (exHeapUsed.mem (4136 - 4)) = blockSizeNeed 20 → h2 = exHeapUsed) :=
  C18_round_trip exHeapUsed (splitHeap exHeapUsed 32 4132 4058) [(4100, 35), (4132, 4058)] 3 4
    20 4136 exHeapUsed_wf
    (mt (mergeCount_pos_iff 2 [(4100, 35), (4132, 4058)] (by decide)).2 (by decide)) (by rfl)
    (by decide) (by decide)

/-- C29: live allocations are not disturbed.  On every well-formed heap (tiled by the
block list `bl`, end mark 1, arbitrary payload words), after a call of `balloc(size)` that
returns, after `bfree(p)` on a live pointer `p`, and after a call of `coalesce()` that
returns, the heap is tiled by a block list in which every block that was allocated before
(other than the one at `p - 4` freed by `bfree`) is still a block at the same address,
allocated and of the same size. -/
theorem C29_live_blocks_kept (h : Heap) (bl : List (Int × Int)) (hW : WF h bl) :
    (∀ fuel size h1 p, balloc fuel h size = some (h1, p) →
      ∃ bl1, Tiled h1 bl1 ∧ KeptAlloc (fun _ => True) bl bl1) ∧
    (∀ p h1 r, IsLive bl p → bfree h p = some (h1, r) →
      r = 0 ∧ ∃ bl1, Tiled h1 bl1 ∧ KeptAlloc (fun y => y ≠ p - 4) bl bl1) ∧
    (∀ fuel h1 r, coalesce fuel h = some (h1, r) →
      ∃ bl1, Tiled h1 bl1 ∧ KeptAlloc (fun _ => True) bl bl1) := by
  obtain ⟨hI, hend⟩ := hW
  refine ⟨?_, ?_, ?_⟩
  · intro fuel size h1 p hb
    rcases balloc_cases_t hI hb with ⟨_, hh⟩ | ⟨_, _, x, w, bl1, bl2, hbl, hfree, _, _, hh, _⟩ |
      ⟨hs1, _, _, x, w, bl1, bl2, hbl, hfree, hfit, _, _, _, _, hh, _⟩
    · subst hh
      exact ⟨bl, hI, fun x w hm hw _ => ⟨w, hm, hw, rfl⟩⟩
    · subst hh hbl
      exact ⟨_, perfect_tiled hI hfree, kept_perfect_t hI hfree _⟩
    · subst hh hbl
      obtain ⟨hn0, hn8, _, _⟩ := need_pos size hs1
      refine ⟨_, split_tiled hI hfree hn0 hn8 hfit, ?_⟩
      intro y u hm hu _
      rcases List.mem_append.1 hm with h1 | h2
      · exact ⟨u, List.mem_append_left _ h1, hu, rfl⟩
      · rcases List.mem_cons.1 h2 with he | ht
        · simp only [Prod.mk.injEq] at he
          rw [he.2] at hu
          omega
        · exact ⟨u, List.mem_append_right _
            (List.mem_cons_of_mem _ (List.mem_cons_of_mem _ ht)), hu, rfl⟩
  · intro p h1 r hl hb
    obtain ⟨w, hm, hodd⟩ := hl
    obtain ⟨bl1, bl2, hbl⟩ := List.append_of_mem hm
    subst hbl
    have hrun := bfree_block_run_t hI hodd
    rw [show p - 4 + 4 = p by ring, hb] at hrun
    simp only [Option.some.injEq, Prod.mk.injEq] at hrun
    obtain ⟨hh, hr⟩ := hrun
    subst hh
    exact ⟨hr, _, free_block_tiled hI hodd, kept_free bl1 bl2 (p - 4) w (w - 1)⟩
  · intro fuel h1 r hc
    exact ⟨_, (coalesce_spec_t hI hc).1,
      fun x w hm hw _ => ⟨w, mem_coalesceList_odd hw bl.length bl (le_refl _) hm, hw, rfl⟩⟩

/-- Witness for C29: on the heap after `init_heap(4096)` and `balloc(20)` whose live
payload holds an odd value, a further `balloc(20)`, `bfree(4104)` and `coalesce()`. -/
theorem C29_live_blocks_kept_witness :
    (∃ bl1, Tiled (splitHeap exHeapUsed 32 4132 4058) bl1 ∧
      KeptAlloc (fun _ => True) [(4100, 35), (4132, 4058)] bl1) ∧
    ((0 : Int) = 0 ∧ ∃ bl1, Tiled (freeHeap exHeapUsed 4100 35) bl1 ∧
      KeptAlloc (fun y => y ≠ 4104 - 4) [(4100, 35), (4132, 4058)] bl1) ∧
    (∃ bl1, Tiled exHeapUsed bl1 ∧ KeptAlloc (fun _ => True) [(4100, 35), (4132, 4058)] bl1) :=
  ⟨(C29_live_blocks_kept exHeapUsed [(4100, 35), (4132, 4058)] exHeapUsed_wf).1 3 20 _ 4136
      (by rfl),
    (C29_live_blocks_kept exHeapUsed [(4100, 35), (4132, 4058)] exHeapUsed_wf).2.1 4104 _ 0
      ⟨35, by decide, by decide⟩ (by rfl),
    (C29_live_blocks_kept exHeapUsed [(4100, 35), (4132, 4058)] exHeapUsed_wf).2.2 3 _ 0
      (by rfl)⟩

end CHeap

namespace SudokuBoard

theorem rowScan_iff (board : Nat → Nat → Int) (u k : Nat) :
    ∀ (n b : Nat), rowScan board u k n b = true ↔
      ∃ b1, b ≤ b1 ∧ b1 < b + n ∧ board u k = board u b1 := by
  intro n
  induction n with
  | zero =>
    intro b
    simp only [rowScan, Bool.false_eq_true, false_iff]
    rintro ⟨b1, h1, h2, _⟩
    omega
  | succ n ih =>
    intro b
    unfold rowScan
    by_cases he : board u k = board u b
    · rw [if_pos he]
      simp only [true_iff]
      exact ⟨b, le_refl _, by omega, he⟩
    · rw [if_neg he, ih]
      constructor
      · rintro ⟨b1, h1, h2, h3⟩
        exact ⟨b1, by omega, by omega, h3⟩
      · rintro ⟨b1, h1, h2, h3⟩
        have hne : b1 ≠ b := fun h => he (h ▸ h3)
        exact ⟨b1, by omega, by omega, h3⟩

theorem colScan_iff (board : Nat → Nat → Int) (u k : Nat) :
    ∀ (n c : Nat), colScan board u k n c = true ↔
      ∃ c1, c ≤ c1 ∧ c1 < c + n ∧ board c1 k = board u k := by
  intro n
  induction n with
  | zero =>
    intro c
    simp only [colScan, Bool.false_eq_true, false_iff]
    rintro ⟨c1, h1, h2, _⟩
    omega
  | succ n ih =>
    intro c
    unfold colScan
    by_cases he : board c k = board u k
    · rw [if_pos he]
      simp only [true_iff]
      exact ⟨c, le_refl _, by omega, he⟩
    · rw [if_neg he, ih]
      constructor
      · rintro ⟨c1, h1, h2, h3⟩
        exact ⟨c1, by omega, by omega, h3⟩
      · rintro ⟨c1, h1, h2, h3⟩
        have hne : c1 ≠ c := fun h => he (h ▸ h3)
        exact ⟨c1, by omega, by omega, h3⟩

theorem cellLoop_iff (board : Nat → Nat → Int) (size u : Nat) :
    ∀ (n k : Nat), cellLoop board size u n k = true ↔
      ∃ k1, k ≤ k1 ∧ k1 < k + n ∧ board u k1 ≠ 0 ∧
        (rowScan board u k1 (size - (k1 + 1)) (k1 + 1) = true ∨
          colScan board u k1 (size - (u + 1)) (u + 1) = true) := by
  intro n
  induction n with
  | zero =>
    intro k
    simp only [cellLoop, Bool.false_eq_true, false_iff]
    rintro ⟨k1, h1, h2, _⟩
    omega
  | succ n ih =>
    intro k
    unfold cellLoop
    by_cases h0 : board u k = 0
    · rw [if_pos h0, ih]
      constructor
      · rintro ⟨k1, h1, h2, h3⟩
        exact ⟨k1, by omega, by omega, h3⟩
      · rintro ⟨k1, h1, h2, h3, h4⟩
        have hne : k1 ≠ k := fun h => h3 (h ▸ h0)
        exact ⟨k1, by omega, by omega, h3, h4⟩
    · rw [if_neg h0]
      by_cases hr : rowScan board u k (size - (k + 1)) (k + 1) = true
      · rw [if_pos hr]
        simp only [true_iff]
        exact ⟨k, le_refl _, by omega, h0, Or.inl hr⟩
      · rw [if_neg hr]
        by_cases hc : colScan board u k (size - (u + 1)) (u + 1) = true
        · rw [if_pos hc]
          simp only [true_iff]
          exact ⟨k, le_refl _, by omega, h0, Or.inr hc⟩
        · rw [if_neg hc, ih]
          constructor
          · rintro ⟨k1, h1, h2, h3⟩
            exact ⟨k1, by omega, by omega, h3⟩
          · rintro ⟨k1, h1, h2, h3, h4⟩
            have hne : k1 ≠ k := by
              rintro rfl
              rcases h4 with h4 | h4
              · exact hr h4
              · exact hc h4
            exact ⟨k1, by omega, by omega, h3, h4⟩

theorem boardLoop_iff (board : Nat → Nat → Int) (size : Nat) :
    ∀ (n u : Nat), boardLoop board size n u = true ↔
      ∃ u1, u ≤ u1 ∧ u1 < u + n ∧ cellLoop board size u1 size 0 = true := by
  intro n
  induction n with
  | zero =>
    intro u
    simp only [boardLoop, Bool.false_eq_true, false_iff]
    rintro ⟨u1, h1, h2, _⟩
    omega
  | succ n ih =>
    intro u
    unfold boardLoop
    by_cases hc : cellLoop board size u size 0 = true
    · rw [if_pos hc]
      simp only [true_iff]
      exact ⟨u, le_refl _, by omega, hc⟩
    · rw [if_neg hc, ih]
      constructor
      · rintro ⟨u1, h1, h2, h3⟩
        exact ⟨u1, by omega, by omega, h3⟩
      · rintro ⟨u1, h1, h2, h3⟩
        have hne : u1 ≠ u := fun h => hc (h ▸ h3)
        exact ⟨u1, by omega, by omega, h3⟩

/-- What `valid_board` decides: it returns 1 exactly when no non-blank cell has an equal
cell further right in its row or further down in its column; the range of the digits is
not looked at. -/
theorem valid_board_iff (board : Nat → Nat → Int) (size : Nat) :
    valid_board board size = 1 ↔
      ∀ u k, u < size → k < size → board u k ≠ 0 →
        (∀ b, k < b → b < size → board u k ≠ board u b) ∧
        (∀ c, u < c → c < size → board c k ≠ board u k) := by
  unfold valid_board
  have hb := boardLoop_iff board size size 0
  by_cases hl : boardLoop board size size 0 = true
  · rw [if_pos hl]
    simp only [zero_ne_one, false_iff]
    intro hall
    obtain ⟨u, _, hu, hc⟩ := hb.1 hl
    obtain ⟨k, _, hk, h0, hrc⟩ := (cellLoop_iff board size u size 0).1 hc
    obtain ⟨h1, h2⟩ := hall u k (by omega) (by omega) h0
    rcases hrc with hr | hr
    · obtain ⟨b, hb1, hb2, hb3⟩ := (rowScan_iff board u k _ _).1 hr
      exact h1 b (by omega) (by omega) hb3
    · obtain ⟨c, hc1, hc2, hc3⟩ := (colScan_iff board u k _ _).1 hr
      exact h2 c (by omega) (by omega) hc3
  · rw [if_neg hl]
    simp only [true_iff]
    intro u k hu hk h0
    constructor
    · intro b hb1 hb2 he
      apply hl
      rw [hb]
      refine ⟨u, Nat.zero_le _, by omega, ?_⟩
      rw [cellLoop_iff]
      refine ⟨k, Nat.zero_le _, by omega, h0, Or.inl ?_⟩
      rw [rowScan_iff]
      exact ⟨b, by omega, by omega, he⟩
    · intro c hc1 hc2 he
      apply hl
      rw [hb]
      refine ⟨u, Nat.zero_le _, by omega, ?_⟩
      rw [cellLoop_iff]
      refine ⟨k, Nat.zero_le _, by omega, h0, Or.inr ?_⟩
      rw [colScan_iff]
      exact ⟨c, by omega, by omega, he⟩

/-- C22 (code at the failing input): for the 2 x 2 board with rows `1,2` and `2,9`,
`valid_board` returns 1, although the cell in row 1, column 1 holds 9, which is neither
blank nor a digit 1..2, so the board is not in a valid state. -/
theorem C22_out_of_range_digit_accepted :
    valid_board exBoard 2 = 1 ∧ exBoard 1 1 = 9 ∧ ¬ ValidState exBoard 2 := by
  refine ⟨by decide, by decide, ?_⟩
  intro h
  have := (h.1 1 1 (by decide) (by decide)).2
  revert this
  decide

end SudokuBoard

namespace CacheSimulator

theorem hitLoop_second {set : Int → cache_line_t} {a c : Int}
    (h0 : set 0 = ⟨'1', 0, a⟩) (h1 : set 1 = ⟨'1', 1, c⟩) : hitLoop set 1 2 0 = some 1 := by
  unfold hitLoop
  rw [h0, if_neg (by simp)]
  unfold hitLoop
  rw [show (0 : Int) + 1 = 1 by rfl, h1, if_pos (by simp)]

theorem hitLoop_first {set : Int → cache_line_t} {a : Int}
    (h0 : set 0 = ⟨'1', 0, a⟩) : hitLoop set 0 2 0 = some 0 := by
  unfold hitLoop
  rw [h0, if_pos (by simp)]

theorem hitLoop_third {set : Int → cache_line_t} {a c : Int}
    (h0 : set 0 = ⟨'1', 0, a⟩) (h1 : set 1 = ⟨'1', 1, c⟩) : hitLoop set 2 2 0 = none := by
  unfold hitLoop
  rw [h0, if_neg (by simp)]
  unfold hitLoop
  rw [show (0 : Int) + 1 = 1 by rfl, h1, if_neg (by simp)]
  rfl

theorem freeLoop_full {set : Int → cache_line_t} {a c : Int}
    (h0 : set 0 = ⟨'1', 0, a⟩) (h1 : set 1 = ⟨'1', 1, c⟩) : freeLoop set 2 0 = none := by
  unfold freeLoop
  rw [h0, if_neg (by simp)]
  unfold freeLoop
  rw [show (0 : Int) + 1 = 1 by rfl, h1, if_neg (by simp)]
  rfl

theorem lruLoop_large {set : Int → cache_line_t} {a c : Int}
    (h0 : set 0 = ⟨'1', 0, a⟩) (h1 : set 1 = ⟨'1', 1, c⟩) (ha : 900000 ≤ a)
    (hc : 900000 ≤ c) : lruLoop set 2 0 900000 0 = 0 := by
  unfold lruLoop
  rw [h0, if_neg (by simpa using ha)]
  unfold lruLoop
  rw [show (0 : Int) + 1 = 1 by rfl, h1, if_neg (by simpa using hc)]
  rfl

/-- A hit on the tag of line 1 only moves the counter of line 1 to the new `currMax`. -/
theorem access_second {g : Sim} {a c : Int} (h : TwoLines g a c) :
    ∃ g1, access_data g 17179869184 = some g1 ∧ TwoLines g1 a (g.currMax + 1) ∧
      g1.currMax = g.currMax + 1 ∧ g1.evict_cnt = g.evict_cnt := by
  obtain ⟨hs, hE, hb, h0, h1⟩ := h
  have hset : (((17179869184 >>> (30 : Int).toNat) &&& (2 ^ (4 : Int).toNat - 1) : Nat) : Int)
      = 0 := by decide
  have htag : (((17179869184 >>> ((30 : Int) + 4).toNat) &&&
      (2 ^ ((64 : Int) - 4 - 30).toNat - 1) : Nat) : Int) = 1 := by decide
  unfold access_data
  rw [hs, hE, hb, if_neg (by decide)]
  dsimp only
  rw [hset, htag, show (2 : Int).toNat = 2 by rfl, hitLoop_second h0 h1]
  refine ⟨_, rfl, ⟨rfl, rfl, rfl, ?_, ?_⟩, rfl, rfl⟩
  · simp [setLine, h0]
  · simp [setLine, h1]

/-- A run of hits on the tag of line 1. -/
theorem replay_second (k : Nat) :
    ∀ (g : Sim) (a c : Int), TwoLines g a c → g.currMax = c →
      ∃ g1, replay (List.replicate k 17179869184) g = some g1 ∧ TwoLines g1 a (c + k) ∧
        g1.currMax = c + k ∧ g1.evict_cnt = g.evict_cnt := by
  induction k with
  | zero =>
    intro g a c h hc
    exact ⟨g, rfl, by simpa using h, by simpa using hc, rfl⟩
  | succ k ih =>
    intro g a c h hc
    obtain ⟨g1, e1, t1, m1, v1⟩ := access_second h
    obtain ⟨g2, e2, t2, m2, v2⟩ := ih g1 a (g.currMax + 1) t1 m1
    refine ⟨g2, ?_, ?_, ?_, by rw [v2, v1]⟩
    · rw [List.replicate_succ]
      unfold replay
      rw [e1]
      exact e2
    · rw [hc] at t2
      have : c + ((k + 1 : Nat) : Int) = c + 1 + (k : Int) := by push_cast; ring
      rw [this]; exact t2
    · rw [m2, hc]; push_cast; ring

theorem replay_append (l1 l2 : List Nat) :
    ∀ g, replay (l1 ++ l2) g = (replay l1 g).bind (replay l2) := by
  induction l1 with
  | nil => intro g; rfl
  | cons x t ih =>
    intro g
    show (access_data g x).bind (replay (t ++ l2)) = ((access_data g x).bind (replay t)).bind _
    cases access_data g x with
    | none => rfl
    | some g1 => exact ih g1

/-- A hit on the tag of line 0 only moves the counter of line 0 to the new `currMax`. -/
theorem access_first {g : Sim} {a c : Int} (h : TwoLines g a c) :
    ∃ g1, access_data g 0 = some g1 ∧ TwoLines g1 (g.currMax + 1) c ∧
      g1.currMax = g.currMax + 1 ∧ g1.evict_cnt = g.evict_cnt := by
  obtain ⟨hs, hE, hb, h0, h1⟩ := h
  have hset : (((0 >>> (30 : Int).toNat) &&& (2 ^ (4 : Int).toNat - 1) : Nat) : Int)
      = 0 := by decide
  have htag : (((0 >>> ((30 : Int) + 4).toNat) &&&
      (2 ^ ((64 : Int) - 4 - 30).toNat - 1) : Nat) : Int) = 0 := by decide
  unfold access_data
  rw [hs, hE, hb, if_neg (by decide)]
  dsimp only
  rw [hset, htag, show (2 : Int).toNat = 2 by rfl, hitLoop_first h0]
  refine ⟨_, rfl, ⟨rfl, rfl, rfl, ?_, ?_⟩, rfl, rfl⟩
  · simp [setLine, h0]
  · simp [setLine, h1]

/-- A miss on a third tag when both counters have reached 900000: line 0 is replaced. -/
theorem access_third {g : Sim} {a c : Int} (h : TwoLines g a c) (ha : 900000 ≤ a)
    (hc : 900000 ≤ c) :
    ∃ g1, access_data g 34359738368 = some g1 ∧ g1.evict_cnt = g.evict_cnt + 1 ∧
      g1.miss_cnt = g.miss_cnt + 1 ∧ g1.cache 0 0 = ⟨'1', 2, g.currMax + 1⟩ ∧
      g1.cache 0 1 = g.cache 0 1 := by
  obtain ⟨hs, hE, hb, h0, h1⟩ := h
  have hset : (((34359738368 >>> (30 : Int).toNat) &&& (2 ^ (4 : Int).toNat - 1) : Nat) : Int)
      = 0 := by decide
  have htag : (((34359738368 >>> ((30 : Int) + 4).toNat) &&&
      (2 ^ ((64 : Int) - 4 - 30).toNat - 1) : Nat) : Int) = 2 := by decide
  unfold access_data
  rw [hs, hE, hb, if_neg (by decide)]
  dsimp only
  rw [hset, htag, show (2 : Int).toNat = 2 by rfl, hitLoop_third h0 h1]
  dsimp only
  rw [freeLoop_full h0 h1]
  dsimp only
  rw [lruLoop_large h0 h1 ha hc]
  refine ⟨_, rfl, rfl, rfl, ?_, ?_⟩
  · simp [setLine]
  · simp [setLine]

/-- The first access of the example run fills line 0 of set 0. -/
theorem access_fill_first {g : Sim} (hs : g.s = 4) (hE : g.E = 2) (hb : g.b = 30)
    (h0 : g.cache 0 0 = ⟨'0', 0, 0⟩) (h1 : g.cache 0 1 = ⟨'0', 0, 0⟩) :
    ∃ g1, access_data g 0 = some g1 ∧ g1.s = 4 ∧ g1.E = 2 ∧ g1.b = 30 ∧
      g1.cache 0 0 = ⟨'1', 0, g.currMax + 1⟩ ∧ g1.cache 0 1 = ⟨'0', 0, 0⟩ ∧
      g1.currMax = g.currMax + 1 ∧ g1.evict_cnt = g.evict_cnt := by
  have hset : (((0 >>> (30 : Int).toNat) &&& (2 ^ (4 : Int).toNat - 1) : Nat) : Int)
      = 0 := by decide
  have htag : (((0 >>> ((30 : Int) + 4).toNat) &&&
      (2 ^ ((64 : Int) - 4 - 30).toNat - 1) : Nat) : Int) = 0 := by decide
  have hh : hitLoop (g.cache 0) 0 2 0 = none := by
    unfold hitLoop
    rw [h0, if_neg (by simp)]
    unfold hitLoop
    rw [show (0 : Int) + 1 = 1 by rfl, h1, if_neg (by simp)]
    rfl
  have hf : freeLoop (g.cache 0) 2 0 = some 0 := by
    unfold freeLoop
    rw [h0, if_pos (by simp)]
  unfold access_data
  rw [hs, hE, hb, if_neg (by decide)]
  dsimp only
  rw [hset, htag, show (2 : Int).toNat = 2 by rfl, hh]
  dsimp only
  rw [hf]
  refine ⟨_, rfl, rfl, rfl, rfl, ?_, ?_, rfl, rfl⟩
  · simp [setLine]
  · simp [setLine, h1]

/-- The second access of the example run fills line 1 of set 0. -/
theorem access_fill_second {g : Sim} {a : Int} (hs : g.s = 4) (hE : g.E = 2) (hb : g.b = 30)
    (h0 : g.cache 0 0 = ⟨'1', 0, a⟩) (h1 : g.cache 0 1 = ⟨'0', 0, 0⟩) :
    ∃ g1, access_data g 17179869184 = some g1 ∧ TwoLines g1 a (g.currMax + 1) ∧
      g1.currMax = g.currMax + 1 ∧ g1.evict_cnt = g.evict_cnt := by
  have hset : (((17179869184 >>> (30 : Int).toNat) &&& (2 ^ (4 : Int).toNat - 1) : Nat) : Int)
      = 0 := by decide
  have htag : (((17179869184 >>> ((30 : Int) + 4).toNat) &&&
      (2 ^ ((64 : Int) - 4 - 30).toNat - 1) : Nat) : Int) = 1 := by decide
  have hh : hitLoop (g.cache 0) 1 2 0 = none := by
    unfold hitLoop
    rw [h0, if_neg (by simp)]
    unfold hitLoop
    rw [show (0 : Int) + 1 = 1 by rfl, h1, if_neg (by simp)]
    rfl
  have hf : freeLoop (g.cache 0) 2 0 = some 1 := by
    unfold freeLoop
    rw [h0, if_neg (by simp)]
    unfold freeLoop
    rw [show (0 : Int) + 1 = 1 by rfl, h1, if_pos (by simp)]
  unfold access_data
  rw [hs, hE, hb, if_neg (by decide)]
  dsimp only
  rw [hset, htag, show (2 : Int).toNat = 2 by rfl, hh]
  dsimp only
  rw [hf]
  refine ⟨_, rfl, ⟨rfl, rfl, rfl, ?_, ?_⟩, rfl, rfl⟩
  · simp [setLine, h0]
  · simp [setLine]

/-- The first two accesses of the example run fill the two lines of set 0. -/
theorem replay_fill :
    ∃ g, replay [0, 17179869184] (init_cache 4 2 30) = some g ∧ TwoLines g 2 3 ∧
      g.currMax = 3 ∧ g.evict_cnt = 0 := by
  obtain ⟨g1, e1, hs, hE, hb, h0, h1, m1, v1⟩ :=
    @access_fill_first (init_cache 4 2 30) rfl rfl rfl rfl rfl
  obtain ⟨g2, e2, t2, m2, v2⟩ := access_fill_second hs hE hb h0 h1
  refine ⟨g2, ?_, ?_, ?_, ?_⟩
  · show (access_data (init_cache 4 2 30) 0).bind (replay [17179869184]) = some g2
    rw [e1]
    show (access_data g1 17179869184).bind (replay []) = some g2
    rw [e2]
    rfl
  · rw [m1] at t2
    exact t2
  · rw [m2, m1]; rfl
  · rw [v2, v1]; rfl

/-- C24 (code at the failing input): geometry s = 4, E = 2, b = 30, and the accesses
`0`, `2^34`, then 899997 more times `2^34`, then `0`, all in set 0 with tags 0 and 1.
Both lines of set 0 are then valid; line 1 (tag 1) was last accessed before line 0
(tag 0), with counters 900000 and 900001.  The next access, `2^35` (tag 2), misses and
increments `evict_cnt`, but the line it replaces is line 0, the most recently accessed
one, and the least recently used line 1 stays. -/
theorem C24_evicts_most_recent :
    ∃ g g1, replay (0 :: 17179869184 :: (List.replicate 899997 17179869184 ++ [0]))
        (init_cache 4 2 30) = some g ∧
      g.cache 0 0 = ⟨'1', 0, 900001⟩ ∧ g.cache 0 1 = ⟨'1', 1, 900000⟩ ∧
      access_data g 34359738368 = some g1 ∧ g1.evict_cnt = g.evict_cnt + 1 ∧
      g1.cache 0 0 = ⟨'1', 2, 900002⟩ ∧ g1.cache 0 1 = ⟨'1', 1, 900000⟩ := by
  obtain ⟨g2, e2, t2, m2, _⟩ := replay_fill
  obtain ⟨g3, e3, t3, m3, _⟩ := replay_second 899997 g2 2 3 t2 m2
  have hk : (3 : Int) + ((899997 : Nat) : Int) = 900000 := by norm_num
  rw [hk] at t3 m3
  obtain ⟨g4, e4, t4, m4, _⟩ := access_first t3
  rw [m3, show (900000 : Int) + 1 = 900001 by norm_num] at t4 m4
  obtain ⟨g5, e5, v5, _, c5, d5⟩ := access_third t4 (by decide) (by decide)
  rw [m4, show (900001 : Int) + 1 = 900002 by norm_num] at c5
  refine ⟨g4, g5, ?_, t4.line0, t4.line1, e5, v5, c5, by rw [d5, t4.line1]⟩
  have h1 : (0 :: 17179869184 :: (List.replicate 899997 17179869184 ++ [0]) : List Nat) =
      [0, 17179869184] ++ (List.replicate 899997 17179869184 ++ [0]) := rfl
  have h2 : replay [0] g3 = some g4 := by
    unfold replay
    rw [e4]
    rfl
  rw [h1, replay_append, e2, Option.some_bind, replay_append, e3, Option.some_bind, h2]

end CacheSimulator

namespace MagicSquareGame

theorem emod_of_eq_add {a b n : Int} (k : Int) (h : a = b + n * k) : a % n = b % n := by
  rw [h, Int.add_mul_emod_self_left]

theorem cellQ_range {n : Int} (hn : 0 < n) (i j : Int) : 0 ≤ cellQ n i j ∧ cellQ n i j < n :=
  ⟨Int.emod_nonneg _ (ne_of_gt hn), Int.emod_lt_of_pos _ hn⟩

theorem cellS_range {n : Int} (hn : 0 < n) (i j : Int) : 0 ≤ cellS n i j ∧ cellS n i j < n :=
  ⟨Int.emod_nonneg _ (ne_of_gt hn), Int.emod_lt_of_pos _ hn⟩

theorem cellIndex_range {n : Int} (hn : 0 < n) (i j : Int) :
    0 ≤ cellIndex n i j ∧ cellIndex n i j < n * n := by
  obtain ⟨hq0, hq1⟩ := cellQ_range hn i j
  obtain ⟨hs0, hs1⟩ := cellS_range hn i j
  unfold cellIndex
  constructor
  · positivity
  · nlinarith

/-- Quotient and remainder of a cell index are its run and its position in the run. -/
theorem index_unique {n q s q1 s1 : Int} (hs0 : 0 ≤ s) (hs : s < n) (ht0 : 0 ≤ s1)
    (ht : s1 < n) (h : q * n + s = q1 * n + s1) : q = q1 ∧ s = s1 := by
  have hn : n ≠ 0 := by omega
  have e1 : (s + q * n) / n = q := by
    rw [Int.add_mul_ediv_right _ _ hn, Int.ediv_eq_zero_of_lt hs0 hs, zero_add]
  have e2 : (s1 + q1 * n) / n = q1 := by
    rw [Int.add_mul_ediv_right _ _ hn, Int.ediv_eq_zero_of_lt ht0 ht, zero_add]
  have hq : q = q1 := by
    rw [← e1, ← e2, add_comm s, add_comm s1, h]
  subst hq
  exact ⟨rfl, by omega⟩

theorem cellQ_up_right {n i j : Int} (hi0 : 0 ≤ i) (hj : j < n) :
    cellQ n (upRow n i) (rightCol n j) = cellQ n i j := by
  unfold cellQ upRow rightCol
  split <;> split
  · exact emod_of_eq_add 0 (by omega)
  · exact emod_of_eq_add 1 (by omega)
  · exact emod_of_eq_add (-1) (by omega)
  · exact emod_of_eq_add 0 (by omega)

theorem cellS_up_right {n i j : Int} (hi0 : 0 ≤ i) (hj : j < n) :
    cellS n (upRow n i) (rightCol n j) = (cellS n i j + 1) % n := by
  unfold cellS upRow rightCol
  rw [Int.emod_add_emod]
  split <;> split
  · exact emod_of_eq_add (-1) (by omega)
  · exact emod_of_eq_add 1 (by omega)
  · exact emod_of_eq_add (-2) (by omega)
  · exact emod_of_eq_add 0 (by omega)

theorem cellQ_down (n i j : Int) : cellQ n (i + 1) j = (cellQ n i j + 1) % n := by
  unfold cellQ
  rw [Int.emod_add_emod]
  exact emod_of_eq_add 0 (by omega)

theorem cellS_down (n i j : Int) : cellS n (i + 1) j = (cellS n i j + 1) % n := by
  unfold cellS
  rw [Int.emod_add_emod]
  exact emod_of_eq_add 0 (by omega)

/-- The row of a cell is determined by its run and position. -/
theorem row_of_index {n i j : Int} (hodd : n % 2 = 1) (hi0 : 0 ≤ i) (hi : i < n) :
    i = (2 * cellQ n i j - cellS n i j) % n := by
  have e1 := Int.emod_add_ediv (i + j - n / 2) n
  have e2 := Int.emod_add_ediv (i + 2 * j + 1) n
  have hm : n = 2 * (n / 2) + 1 := by omega
  unfold cellQ cellS
  rw [emod_of_eq_add ((i + 2 * j + 1) / n - 2 * ((i + j - n / 2) / n) - 1)
    (b := i) (by linear_combination 2 * e1 - e2 + hm)]
  exact (Int.emod_eq_of_lt hi0 hi).symm

/-- The column of a cell is determined by its run and position. -/
theorem col_of_index {n i j : Int} (hj0 : 0 ≤ j) (hj : j < n) :
    j = (cellS n i j - cellQ n i j - 1 - n / 2) % n := by
  have e1 := Int.emod_add_ediv (i + j - n / 2) n
  have e2 := Int.emod_add_ediv (i + 2 * j + 1) n
  unfold cellQ cellS
  rw [emod_of_eq_add ((i + j - n / 2) / n - (i + 2 * j + 1) / n)
    (b := j) (by linear_combination e2 - e1)]
  exact (Int.emod_eq_of_lt hj0 hj).symm

/-- Two cells of the square with the same index are the same cell. -/
theorem cellIndex_inj {n i j i1 j1 : Int} (hodd : n % 2 = 1) (hn : 0 < n)
    (hi0 : 0 ≤ i) (hi : i < n) (hj0 : 0 ≤ j) (hj : j < n)
    (hk0 : 0 ≤ i1) (hk : i1 < n) (hl0 : 0 ≤ j1) (hl : j1 < n)
    (h : cellIndex n i j = cellIndex n i1 j1) : i = i1 ∧ j = j1 := by
  obtain ⟨hq, hs⟩ := index_unique (cellS_range hn i j).1 (cellS_range hn i j).2
    (cellS_range hn i1 j1).1 (cellS_range hn i1 j1).2 h
  constructor
  · rw [row_of_index (j := j) hodd hi0 hi, row_of_index (j := j1) hodd hk0 hk, hq, hs]
  · rw [col_of_index (i := i) hj0 hj, col_of_index (i := i1) hl0 hl, hq, hs]

theorem upRow_range {n r : Int} (hr0 : 0 ≤ r) (hr : r < n) :
    0 ≤ upRow n r ∧ upRow n r < n := by
  unfold upRow
  split <;> omega

theorem rightCol_range {n c : Int} (hc0 : 0 ≤ c) (hc : c < n) :
    0 ≤ rightCol n c ∧ rightCol n c < n := by
  unfold rightCol
  split <;> omega

/-- After the cell of index `t` at `(r, c)` has been filled, the next iteration finds the
cell of index `t + 1`: up and to the right inside a run, below `(r, c)` at the end of a
run; the row below exists because the last run is not finished yet. -/
theorem nextCell_of_index {n t r c : Int} (hodd : n % 2 = 1) (hn : 0 < n)
    (hr0 : 0 ≤ r) (hr : r < n) (hc0 : 0 ≤ c) (hc : c < n)
    (hidx : cellIndex n r c = t) (ht : t + 1 < n * n) : NextCell n (t + 1) r c r c := by
  obtain ⟨hq0, hq1⟩ := cellQ_range hn r c
  obtain ⟨hs0, hs1⟩ := cellS_range hn r c
  have hrow := row_of_index (j := c) hodd hr0 hr
  have hupq := @cellQ_up_right n r c hr0 hc
  have hups := @cellS_up_right n r c hr0 hc
  have hdq := cellQ_down n r c
  have hds := cellS_down n r c
  unfold NextCell
  unfold cellIndex at hidx ⊢
  rw [hupq, hups, hdq, hds]
  generalize cellQ n r c = q at *
  generalize cellS n r c = s at *
  by_cases hs : s + 1 < n
  · left
    rw [Int.emod_eq_of_lt (by omega) hs]
    omega
  · right
    have hsn : s + 1 = n := by omega
    have hq : q + 1 < n := by
      by_contra hcon
      have : n * n ≤ (q + 1) * n := by nlinarith
      nlinarith
    have hmod0 : (s + 1) % n = 0 := by rw [hsn]; exact Int.emod_self
    rw [hmod0, Int.emod_eq_of_lt (by omega) hq]
    refine ⟨by omega, by omega, ?_, hc0, hc, by linarith⟩
    have hcase : (2 * q - s) % n = 2 * q + 1 ∨ (2 * q - s) % n = 2 * q + 1 - n := by
      by_cases h2 : 2 * q + 1 < n
      · left
        rw [emod_of_eq_add (-1) (b := 2 * q + 1) (by omega)]
        exact Int.emod_eq_of_lt (by omega) h2
      · right
        rw [emod_of_eq_add 0 (b := 2 * q + 1 - n) (by omega)]
        exact Int.emod_eq_of_lt (by omega) (by omega)
    omega

/-- Filling the cell of index `t` turns the square with `t` filled cells into the square
with `t + 1` filled cells. -/
theorem setCell_filled {n t r c : Int} (hodd : n % 2 = 1) (hn : 0 < n)
    (hr0 : 0 ≤ r) (hr : r < n) (hc0 : 0 ≤ c) (hc : c < n) (hidx : cellIndex n r c = t) :
    setCell (filled n t) r c (t + 1) = filled n (t + 1) := by
  funext i j
  unfold setCell filled
  by_cases h : i = r ∧ j = c
  · obtain ⟨rfl, rfl⟩ := h
    rw [if_pos ⟨rfl, rfl⟩, if_pos ⟨hr0, hr, hc0, hc, by omega⟩, hidx]
  · rw [if_neg h]
    by_cases hin : 0 ≤ i ∧ i < n ∧ 0 ≤ j ∧ j < n
    · obtain ⟨h1, h2, h3, h4⟩ := hin
      have hne : cellIndex n i j ≠ t := by
        intro he
        exact h (cellIndex_inj hodd hn h1 h2 h3 h4 hr0 hr hc0 hc (he.trans hidx.symm))
      by_cases hlt : cellIndex n i j < t
      · rw [if_pos ⟨h1, h2, h3, h4, hlt⟩, if_pos ⟨h1, h2, h3, h4, by omega⟩]
      · rw [if_neg (fun hh => hlt hh.2.2.2.2), if_neg (fun hh => hlt (by have := hh.2.2.2.2; omega))]
    · rw [if_neg (fun hh => hin ⟨hh.1, hh.2.1, hh.2.2.1, hh.2.2.2.1⟩),
        if_neg (fun hh => hin ⟨hh.1, hh.2.1, hh.2.2.1, hh.2.2.2.1⟩)]

/-- The body of the loop with its wrap-around steps named. -/
theorem fillStep_eq (size : Int) (st : Fill) :
    fillStep size st =
      if upRow size st.row < 0 ∨ size ≤ upRow size st.row ∨ rightCol size st.column < 0 ∨
          size ≤ rightCol size st.column then none
      else if st.sq (upRow size st.row) (rightCol size st.column) = 0 then
        some ⟨setCell st.sq (upRow size st.row) (rightCol size st.column) st.number,
          st.number + 1, upRow size st.row, rightCol size st.column, upRow size st.row,
          rightCol size st.column⟩
      else if st.currRow + 1 < 0 ∨ size ≤ st.currRow + 1 ∨ st.currColumn < 0 ∨
          size ≤ st.currColumn then none
      else
        some ⟨setCell st.sq (st.currRow + 1) st.currColumn st.number, st.number + 1,
          st.currRow + 1, st.currColumn, st.currRow + 1, st.currColumn⟩ := rfl

/-- One iteration of the loop keeps the invariant and stays inside the array. -/
theorem fillStep_inv {n t : Int} {st : Fill} (hodd : n % 2 = 1) (hn : 0 < n)
    (hJ : FillInv n t st) (ht : t < n * n) :
    ∃ st1, fillStep n st = some st1 ∧ FillInv n (t + 1) st1 := by
  obtain ⟨hsq, hnum, hpos⟩ := hJ
  obtain ⟨hr0, hr, hc0, hc, hnext⟩ := hpos ht
  obtain ⟨hu0, hu⟩ := upRow_range hr0 hr
  obtain ⟨hv0, hv⟩ := rightCol_range hc0 hc
  obtain ⟨hx0, _⟩ := cellIndex_range hn (upRow n st.row) (rightCol n st.column)
  rw [fillStep_eq, if_neg (by omega), hsq, hnum]
  rcases hnext with hidx | ⟨hlt, hd0, hd, he0, he, hidx⟩
  · have hz : filled n t (upRow n st.row) (rightCol n st.column) = 0 := by
      unfold filled
      rw [if_neg (fun hh => by have := hh.2.2.2.2; omega)]
    rw [if_pos hz]
    refine ⟨_, rfl, ⟨setCell_filled hodd hn hu0 hu hv0 hv hidx, rfl, ?_⟩⟩
    intro ht1
    exact ⟨hu0, hu, hv0, hv, nextCell_of_index hodd hn hu0 hu hv0 hv hidx ht1⟩
  · have hz : filled n t (upRow n st.row) (rightCol n st.column) ≠ 0 := by
      unfold filled
      rw [if_pos ⟨hu0, hu, hv0, hv, hlt⟩]
      omega
    rw [if_neg hz, if_neg (by omega)]
    refine ⟨_, rfl, ⟨setCell_filled hodd hn hd0 hd he0 he hidx, rfl, ?_⟩⟩
    intro ht1
    exact ⟨hd0, hd, he0, he, nextCell_of_index hodd hn hd0 hd he0 he hidx ht1⟩

/-- The loop run for `k` more iterations keeps the invariant. -/
theorem fillLoop_inv {n : Int} (hodd : n % 2 = 1) (hn : 0 < n) :
    ∀ (k : Nat) (t : Int) (st : Fill), FillInv n t st → t + k ≤ n * n →
      ∃ st1, fillLoop n k st = some st1 ∧ FillInv n (t + k) st1 := by
  intro k
  induction k with
  | zero =>
    intro t st hJ _
    exact ⟨st, rfl, by simpa using hJ⟩
  | succ k ih =>
    intro t st hJ hle
    push_cast at hle
    obtain ⟨st1, e1, hJ1⟩ := fillStep_inv hodd hn hJ (by omega)
    obtain ⟨st2, e2, hJ2⟩ := ih (t + 1) st1 hJ1 (by omega)
    refine ⟨st2, ?_, ?_⟩
    · unfold fillLoop
      rw [e1]
      exact e2
    · have : t + ((k + 1 : Nat) : Int) = t + 1 + (k : Int) := by push_cast; ring
      rw [this]
      exact hJ2

/-- The invariant holds before the first iteration. -/
theorem fill_start {n : Int} (hodd : n % 2 = 1) (h3 : 3 ≤ n) (u v : Int) :
    FillInv n 0 ⟨fun _ _ => 0, 1, 1, Int.tdiv n 2 - 1, u, v⟩ := by
  have hn : 0 < n := by omega
  have htd : Int.tdiv n 2 = n / 2 := Int.tdiv_eq_ediv (by omega) (by decide)
  refine ⟨?_, rfl, ?_⟩
  · funext i j
    unfold filled
    rw [if_neg]
    intro hh
    have := (cellIndex_range hn i j).1
    omega
  · intro _
    dsimp only
    rw [htd]
    refine ⟨by omega, by omega, by omega, by omega, Or.inl ?_⟩
    have hu : upRow n 1 = 0 := by unfold upRow; rw [if_neg (by omega)]; rfl
    have hv : rightCol n (n / 2 - 1) = n / 2 := by
      unfold rightCol; rw [if_neg (by omega)]; omega
    rw [hu, hv]
    unfold cellIndex cellQ cellS
    have h1 : (0 + n / 2 - n / 2) % n = 0 := by
      rw [show (0 : Int) + n / 2 - n / 2 = 0 by omega]; rfl
    have h2 : (0 + 2 * (n / 2) + 1) % n = 0 := by
      rw [show (0 : Int) + 2 * (n / 2) + 1 = n by omega]; exact Int.emod_self
    rw [h1, h2]
    ring

/-- For odd `n >= 3` with `n * n` in the range of `int`, `generateMagicSquare(n)` stays
inside the array and returns the square in which every cell holds its index plus one. -/
theorem generate_eq {n : Int} (hodd : n % 2 = 1) (h3 : 3 ≤ n) (hfit : n * n < 2 ^ 31)
    (u v : Int) : generateMagicSquare n u v = some (filled n (n * n)) := by
  have hn : 0 < n := by omega
  have hnn : 0 ≤ n * n := by positivity
  have hcast : ((n * n).toNat : Int) = n * n := Int.toNat_of_nonneg hnn
  obtain ⟨st, e, hJ⟩ := fillLoop_inv hodd hn (n * n).toNat 0 _ (fill_start hodd h3 u v)
    (by omega)
  unfold generateMagicSquare
  rw [if_neg (by omega), e]
  rw [zero_add, hcast] at hJ
  show some st.sq = _
  rw [hJ.sq_eq]

/-- Twice the sum 0 + 1 + ... + (N - 1). -/
theorem two_sum_range (N : Nat) : 2 * ∑ j ∈ Finset.range N, (j : Int) = N * (N - 1) := by
  induction N with
  | zero => simp
  | succ k ih =>
    rw [Finset.sum_range_succ, mul_add, ih]
    push_cast
    ring

/-- A map `j -> (a * j + c) % N` that is injective on residues permutes `0 .. N - 1`,
so the sum of its values is the sum of `0 .. N - 1`. -/
theorem two_sum_emod (N : Nat) (hN : 0 < N) (a c : Int)
    (hcop : ∀ d : Int, (N : Int) ∣ a * d → (N : Int) ∣ d) :
    2 * ∑ j ∈ Finset.range N, (a * (j : Int) + c) % (N : Int) = N * (N - 1) := by
  have hNz : (N : Int) ≠ 0 := by omega
  have hNp : (0 : Int) < N := by omega
  have hg : ∀ j : Nat, (((a * (j : Int) + c) % (N : Int)).toNat : Int) =
      (a * (j : Int) + c) % (N : Int) :=
    fun j => Int.toNat_of_nonneg (Int.emod_nonneg _ hNz)
  have hmaps : ∀ j ∈ Finset.range N,
      ((a * (j : Int) + c) % (N : Int)).toNat ∈ Finset.range N := by
    intro j _
    rw [Finset.mem_range]
    have h1 := hg j
    have h2 := Int.emod_lt_of_pos (a * (j : Int) + c) hNp
    omega
  have hinj : ∀ x ∈ Finset.range N, ∀ y ∈ Finset.range N,
      ((a * (x : Int) + c) % (N : Int)).toNat = ((a * (y : Int) + c) % (N : Int)).toNat →
        x = y := by
    intro x hx y hy he
    rw [Finset.mem_range] at hx hy
    have he1 : (a * (x : Int) + c) % (N : Int) = (a * (y : Int) + c) % (N : Int) := by
      rw [← hg x, ← hg y, he]
    have hd := Int.dvd_of_emod_eq_zero (Int.emod_eq_emod_iff_emod_sub_eq_zero.1 he1)
    have hd1 : (N : Int) ∣ a * ((x : Int) - y) := by
      have : a * (x : Int) + c - (a * (y : Int) + c) = a * ((x : Int) - y) := by ring
      rw [← this]; exact hd
    have hz := Int.eq_zero_of_abs_lt_dvd (hcop _ hd1) (by rw [abs_lt]; omega)
    omega
  have himg : (Finset.range N).image (fun j : Nat => ((a * (j : Int) + c) % (N : Int)).toNat) =
      Finset.range N := by
    apply Finset.eq_of_subset_of_card_le
    · exact Finset.image_subset_iff.2 hmaps
    · rw [Finset.card_image_of_injOn (fun x hx y hy he => hinj x hx y hy he)]
  have hsum : ∑ j ∈ Finset.range N, (a * (j : Int) + c) % (N : Int) =
      ∑ j ∈ Finset.range N, (j : Int) := by
    calc ∑ j ∈ Finset.range N, (a * (j : Int) + c) % (N : Int)
        = ∑ j ∈ Finset.range N, (((a * (j : Int) + c) % (N : Int)).toNat : Int) :=
          Finset.sum_congr rfl (fun j _ => (hg j).symm)
      _ = ∑ x ∈ (Finset.range N).image
            (fun j : Nat => ((a * (j : Int) + c) % (N : Int)).toNat), (x : Int) :=
          (Finset.sum_image hinj).symm
      _ = ∑ j ∈ Finset.range N, (j : Int) := by rw [himg]
  rw [hsum, two_sum_range]

/-- Shifts permute the residues. -/
theorem two_sum_shift (N : Nat) (hN : 0 < N) (c : Int) :
    2 * ∑ j ∈ Finset.range N, ((j : Int) + c) % (N : Int) = N * (N - 1) := by
  have h := two_sum_emod N hN 1 c (fun d hd => by simpa using hd)
  simpa using h

/-- Doubling permutes the residues of an odd modulus. -/
theorem two_sum_double (N : Nat) (hodd : (N : Int) % 2 = 1) (c : Int) :
    2 * ∑ j ∈ Finset.range N, (2 * (j : Int) + c) % (N : Int) = N * (N - 1) := by
  apply two_sum_emod N (by omega) 2 c
  intro d hd
  obtain ⟨k, hk⟩ := hd
  have hm : (N : Int) = 2 * ((N : Int) / 2) + 1 := by omega
  exact ⟨d - (N : Int) / 2 * k, by linear_combination (-((N : Int) / 2)) * hk - d * hm⟩

/-- The values `(3 * i + 1) % N` are mirrored by `i -> N - 1 - i`, so they sum like
`0 .. N - 1` also when 3 divides `N`. -/
theorem two_sum_triple (N : Nat) (hN : 0 < N) :
    2 * ∑ i ∈ Finset.range N, (3 * (i : Int) + 1) % (N : Int) = N * (N - 1) := by
  have hNp : (0 : Int) < N := by omega
  have hrefl := Finset.sum_range_reflect (fun i : Nat => (3 * (i : Int) + 1) % (N : Int)) N
  have hterm : ∀ j ∈ Finset.range N,
      (3 * ((N - 1 - j : Nat) : Int) + 1) % (N : Int) =
        (N : Int) - 1 - (3 * (j : Int) + 1) % (N : Int) := by
    intro j hj
    rw [Finset.mem_range] at hj
    have hc : ((N - 1 - j : Nat) : Int) = (N : Int) - 1 - j := by omega
    have e := Int.emod_add_ediv (3 * (j : Int) + 1) N
    have h0 := Int.emod_nonneg (3 * (j : Int) + 1) (ne_of_gt hNp)
    have h1 := Int.emod_lt_of_pos (3 * (j : Int) + 1) hNp
    rw [hc, emod_of_eq_add (2 - (3 * (j : Int) + 1) / N)
      (b := (N : Int) - 1 - (3 * (j : Int) + 1) % (N : Int)) (by linear_combination e)]
    exact Int.emod_eq_of_lt (by omega) (by omega)
  rw [Finset.sum_congr rfl hterm, Finset.sum_sub_distrib] at hrefl
  simp only [Finset.sum_const, Finset.card_range, nsmul_eq_mul] at hrefl
  linarith

/-- The shape of all four kinds of sums: a term `f j * N + g j + 1` whose two parts each
sum like `0 .. N - 1`. -/
theorem two_sum_magic (N : Nat) (f g : Nat → Int)
    (hf : 2 * ∑ j ∈ Finset.range N, f j = N * (N - 1))
    (hg : 2 * ∑ j ∈ Finset.range N, g j = N * (N - 1)) :
    2 * ∑ j ∈ Finset.range N, (f j * N + g j + 1) = N * (N * N + 1) := by
  rw [Finset.sum_add_distrib, Finset.sum_add_distrib, ← Finset.sum_mul]
  simp only [Finset.sum_const, Finset.card_range, nsmul_eq_mul, mul_one]
  linear_combination (N : Int) * hf + hg

/-- In the square with all cells filled, every cell holds its index plus one. -/
theorem filled_full {n i j : Int} (hn : 0 < n) (hi0 : 0 ≤ i) (hi : i < n) (hj0 : 0 ≤ j)
    (hj : j < n) : filled n (n * n) i j = cellQ n i j * n + cellS n i j + 1 := by
  unfold filled
  rw [if_pos ⟨hi0, hi, hj0, hj, (cellIndex_range hn i j).2⟩]
  rfl

/-- Every index `0 .. n * n - 1` is the index of a cell of the square. -/
theorem index_surj {n t : Int} (hodd : n % 2 = 1) (hn : 0 < n) (ht0 : 0 ≤ t)
    (ht : t < n * n) :
    ∃ i j, 0 ≤ i ∧ i < n ∧ 0 ≤ j ∧ j < n ∧ cellIndex n i j = t := by
  have hnz : n ≠ 0 := ne_of_gt hn
  have hq0 : 0 ≤ t / n := Int.ediv_nonneg ht0 (le_of_lt hn)
  have hq1 : t / n < n := Int.ediv_lt_of_lt_mul hn ht
  have hs0 : 0 ≤ t % n := Int.emod_nonneg _ hnz
  have hs1 : t % n < n := Int.emod_lt_of_pos _ hn
  have hm : n = 2 * (n / 2) + 1 := by omega
  have eA := Int.emod_add_ediv (2 * (t / n) - t % n) n
  have eB := Int.emod_add_ediv (t % n - t / n - 1 - n / 2) n
  refine ⟨(2 * (t / n) - t % n) % n, (t % n - t / n - 1 - n / 2) % n,
    Int.emod_nonneg _ hnz, Int.emod_lt_of_pos _ hn, Int.emod_nonneg _ hnz,
    Int.emod_lt_of_pos _ hn, ?_⟩
  have hQ : cellQ n ((2 * (t / n) - t % n) % n) ((t % n - t / n - 1 - n / 2) % n) = t / n := by
    unfold cellQ
    rw [emod_of_eq_add (-1 - (2 * (t / n) - t % n) / n - (t % n - t / n - 1 - n / 2) / n)
      (b := t / n) (by linear_combination eA + eB + hm)]
    exact Int.emod_eq_of_lt hq0 hq1
  have hS : cellS n ((2 * (t / n) - t % n) % n) ((t % n - t / n - 1 - n / 2) % n) = t % n := by
    unfold cellS
    rw [emod_of_eq_add
      (-1 - (2 * (t / n) - t % n) / n - 2 * ((t % n - t / n - 1 - n / 2) / n))
      (b := t % n) (by linear_combination eA + 2 * eB + hm)]
    exact Int.emod_eq_of_lt hs0 hs1
  unfold cellIndex
  rw [hQ, hS]
  have := Int.ediv_add_emod t n
  linarith [mul_comm n (t / n)]

/-- Twice the sum of a row of the full square. -/
theorem two_rowSum (N : Nat) (hodd : (N : Int) % 2 = 1) (i : Int) (hi0 : 0 ≤ i)
    (hi : i < N) :
    2 * rowSum (filled N (N * N)) N i = N * (N * N + 1) := by
  have hN : (0 : Int) < N := by omega
  unfold rowSum
  rw [Finset.sum_congr rfl (fun j hj => filled_full hN hi0 hi (Int.natCast_nonneg j)
    (by rw [Finset.mem_range] at hj; omega))]
  apply two_sum_magic N (fun j => cellQ N i j) (fun j => cellS N i j)
  · have h := two_sum_shift N (by omega) (i - (N : Int) / 2)
    rw [← h]
    congr 1
    refine Finset.sum_congr rfl (fun j _ => ?_)
    unfold cellQ
    congr 1
    ring
  · have h := two_sum_double N hodd (i + 1)
    rw [← h]
    congr 1
    refine Finset.sum_congr rfl (fun j _ => ?_)
    unfold cellS
    congr 1
    ring

/-- Twice the sum of a column of the full square. -/
theorem two_colSum (N : Nat) (hodd : (N : Int) % 2 = 1) (j : Int) (hj0 : 0 ≤ j)
    (hj : j < N) :
    2 * colSum (filled N (N * N)) N j = N * (N * N + 1) := by
  have hN : (0 : Int) < N := by omega
  unfold colSum
  rw [Finset.sum_congr rfl (fun i hi => filled_full hN (Int.natCast_nonneg i)
    (by rw [Finset.mem_range] at hi; omega) hj0 hj)]
  apply two_sum_magic N (fun i => cellQ N i j) (fun i => cellS N i j)
  · have h := two_sum_shift N (by omega) (j - (N : Int) / 2)
    rw [← h]
    congr 1
    refine Finset.sum_congr rfl (fun i _ => ?_)
    unfold cellQ
    congr 1
    ring
  · have h := two_sum_shift N (by omega) (2 * j + 1)
    rw [← h]
    congr 1
    refine Finset.sum_congr rfl (fun i _ => ?_)
    unfold cellS
    congr 1
    ring

/-- Twice the sum of the main diagonal of the full square. -/
theorem two_diagSum (N : Nat) (hodd : (N : Int) % 2 = 1) :
    2 * diagSum (filled N (N * N)) N = N * (N * N + 1) := by
  have hN : (0 : Int) < N := by omega
  unfold diagSum
  rw [Finset.sum_congr rfl (fun i hi => filled_full hN (Int.natCast_nonneg i)
    (by rw [Finset.mem_range] at hi; omega) (Int.natCast_nonneg i)
    (by rw [Finset.mem_range] at hi; omega))]
  apply two_sum_magic N (fun i => cellQ N i i) (fun i => cellS N i i)
  · have h := two_sum_double N hodd (-((N : Int) / 2))
    rw [← h]
    congr 1
    refine Finset.sum_congr rfl (fun i _ => ?_)
    unfold cellQ
    congr 1
    ring
  · have h := two_sum_triple N (by omega)
    rw [← h]
    congr 1
    refine Finset.sum_congr rfl (fun i _ => ?_)
    unfold cellS
    congr 1
    ring

/-- Twice the sum of the other diagonal of the full square. -/
theorem two_antiSum (N : Nat) (hodd : (N : Int) % 2 = 1) :
    2 * antiSum (filled N (N * N)) N = N * (N * N + 1) := by
  have hN : (0 : Int) < N := by omega
  unfold antiSum
  rw [Finset.sum_congr rfl (fun i hi => filled_full hN (Int.natCast_nonneg i)
    (by rw [Finset.mem_range] at hi; omega)
    (by rw [Finset.mem_range] at hi; omega) (by rw [Finset.mem_range] at hi; omega))]
  apply two_sum_magic N (fun i => cellQ N i ((N : Int) - 1 - i))
    (fun i => cellS N i ((N : Int) - 1 - i))
  · have hq : ∀ i ∈ Finset.range N, cellQ N (i : Int) ((N : Int) - 1 - i) = (N : Int) / 2 := by
      intro i _
      unfold cellQ
      rw [emod_of_eq_add 0 (b := (N : Int) / 2) (by omega)]
      exact Int.emod_eq_of_lt (by omega) (by omega)
    rw [Finset.sum_congr rfl hq]
    simp only [Finset.sum_const, Finset.card_range, nsmul_eq_mul]
    have hm : (N : Int) = 2 * ((N : Int) / 2) + 1 := by omega
    linear_combination (-(N : Int)) * hm
  · have hs : ∀ i ∈ Finset.range N,
        cellS N (i : Int) ((N : Int) - 1 - i) = (N : Int) - 1 - i := by
      intro i hi
      rw [Finset.mem_range] at hi
      unfold cellS
      rw [emod_of_eq_add 1 (b := (N : Int) - 1 - i) (by omega)]
      exact Int.emod_eq_of_lt (by omega) (by omega)
    rw [Finset.sum_congr rfl hs, Finset.sum_sub_distrib]
    simp only [Finset.sum_const, Finset.card_range, nsmul_eq_mul]
    have := two_sum_range N
    linarith

/-- For `n = 3` the loop produces the square with rows 8 1 6, 3 5 7 and 4 9 2. -/
theorem generate_three :
    (generateMagicSquare 3 0 0).map
        (fun sq => [[sq 0 0, sq 0 1, sq 0 2], [sq 1 0, sq 1 1, sq 1 2],
          [sq 2 0, sq 2 1, sq 2 2]]) =
      some [[8, 1, 6], [3, 5, 7], [4, 9, 2]] := by
  decide

/-- C23 (counterexample): 46341 is odd and at least 3, but `46341 * 46341` does not fit
an `int`, so the loop bound `n * n` overflows and `generateMagicSquare(46341)` has no
defined result. -/
theorem C23_counterexample :
    (46341 : Int) % 2 = 1 ∧ (3 : Int) ≤ 46341 ∧ (2 : Int) ^ 31 ≤ 46341 * 46341 ∧
      ∀ u v, generateMagicSquare 46341 u v = none := by
  refine ⟨by decide, by decide, by decide, ?_⟩
  intro u v
  unfold generateMagicSquare
  rw [if_pos (by decide)]

/-- C23 (amended): for every odd `n >= 3` whose square fits an `int`,
`generateMagicSquare(n)` returns, so every index used while filling stays within
`0 .. n - 1`; in the square it returns each integer `1 .. n * n` is in exactly one cell,
and every row, every column and both main diagonals sum to `n * (n * n + 1) / 2`. -/
theorem C23_magic_square (n u v : Int) (hodd : n % 2 = 1) (h3 : 3 ≤ n)
    (hfit : n * n < 2 ^ 31) :
    ∃ sq, generateMagicSquare n u v = some sq ∧
      (∀ k, 1 ≤ k → k ≤ n * n → ∃ i j, 0 ≤ i ∧ i < n ∧ 0 ≤ j ∧ j < n ∧ sq i j = k ∧
        ∀ i1 j1, 0 ≤ i1 → i1 < n → 0 ≤ j1 → j1 < n → sq i1 j1 = k → i1 = i ∧ j1 = j) ∧
      (∀ i, 0 ≤ i → i < n → rowSum sq n.toNat i = n * (n * n + 1) / 2) ∧
      (∀ j, 0 ≤ j → j < n → colSum sq n.toNat j = n * (n * n + 1) / 2) ∧
      diagSum sq n.toNat = n * (n * n + 1) / 2 ∧
      antiSum sq n.toNat = n * (n * n + 1) / 2 := by
  have hn : 0 < n := by omega
  refine ⟨filled n (n * n), generate_eq hodd h3 hfit u v, ?_, ?_, ?_, ?_, ?_⟩
  · intro k hk1 hk2
    obtain ⟨i, j, hi0, hi, hj0, hj, hidx⟩ := @index_surj n (k - 1) hodd hn (by omega) (by omega)
    refine ⟨i, j, hi0, hi, hj0, hj, ?_, ?_⟩
    · rw [filled_full hn hi0 hi hj0 hj]
      unfold cellIndex at hidx
      omega
    · intro i1 j1 h1 h2 h3 h4 hv
      rw [filled_full hn h1 h2 h3 h4] at hv
      exact cellIndex_inj hodd hn h1 h2 h3 h4 hi0 hi hj0 hj
        (by unfold cellIndex at hidx ⊢; omega)
  · intro i hi0 hi
    obtain ⟨N, rfl⟩ := Int.eq_ofNat_of_zero_le (le_of_lt hn)
    have := two_rowSum N hodd i hi0 hi
    rw [Int.toNat_ofNat]
    omega
  · intro j hj0 hj
    obtain ⟨N, rfl⟩ := Int.eq_ofNat_of_zero_le (le_of_lt hn)
    have := two_colSum N hodd j hj0 hj
    rw [Int.toNat_ofNat]
    omega
  · obtain ⟨N, rfl⟩ := Int.eq_ofNat_of_zero_le (le_of_lt hn)
    have := two_diagSum N hodd
    rw [Int.toNat_ofNat]
    omega
  · obtain ⟨N, rfl⟩ := Int.eq_ofNat_of_zero_le (le_of_lt hn)
    have := two_antiSum N hodd
    rw [Int.toNat_ofNat]
    omega

/-- Witness for C23 (amended): `n = 3`. -/
theorem C23_magic_square_witness :
    ∃ sq, generateMagicSquare 3 0 0 = some sq ∧
      (∀ k, 1 ≤ k → k ≤ (3 : Int) * 3 → ∃ i j, 0 ≤ i ∧ i < 3 ∧ 0 ≤ j ∧ j < 3 ∧ sq i j = k ∧
        ∀ i1 j1, 0 ≤ i1 → i1 < 3 → 0 ≤ j1 → j1 < 3 → sq i1 j1 = k → i1 = i ∧ j1 = j) ∧
      (∀ i, 0 ≤ i → i < 3 → rowSum sq (3 : Int).toNat i = 3 * (3 * 3 + 1) / 2) ∧
      (∀ j, 0 ≤ j → j < 3 → colSum sq (3 : Int).toNat j = 3 * (3 * 3 + 1) / 2) ∧
      diagSum sq (3 : Int).toNat = 3 * (3 * 3 + 1) / 2 ∧
      antiSum sq (3 : Int).toNat = 3 * (3 * 3 + 1) / 2 :=
  C23_magic_square 3 0 0 (by decide) (by decide) (by decide)

end MagicSquareGame
